import Mathlib

/-!
Verification development for the Cloudflare-Gateway-Pihole reconciliation
engine.  The Python sources (`src/__main__.py`, `src/cloudflare.py`,
`src/domains.py`) are shallowly embedded below: the remote Cloudflare Gateway
state becomes an explicit `St` value, every remote mutation becomes an `Event`
in a trace, fallible control flow becomes `Except`, and Python sets over
domain strings become duplicate-free `List String` values.  Helper modules of
the repository that are not part of the provided sources (`src/utils.py`,
`src/requests.py`, `src/__init__.py`) are modelled from the specification and
marked as such in their doc comments.
-/

namespace CFG

/-! ### Character and string helpers

Python string operations used by the sources (`str.split('-')`, `int(...)`,
`str.startswith`, `f"{i:03d}"`) are modelled by structurally recursive
functions over `List Char` so that every theorem below can be evaluated by
the kernel. -/

/-- `splitOnChar c l` splits `l` at every occurrence of `c`, the model of
Python `str.split('-')` (which never returns an empty list). -/
def splitOnChar (c : Char) : List Char → List (List Char)
  | [] => [[]]
  | x :: xs =>
    match splitOnChar c xs with
    | [] => [[]]
    | h :: t => if x = c then [] :: h :: t else (x :: h) :: t

/-- Boolean string-prefix test, the model of Python `str.startswith`. -/
def listPrefixB : List Char → List Char → Bool
  | [], _ => true
  | _ :: _, [] => false
  | a :: as, b :: bs => a = b && listPrefixB as bs

/-- `strStarts p s` is `s.startswith(p)` on Lean strings. -/
def strStarts (p s : String) : Bool := listPrefixB p.data s.data

/-- Strip leading and trailing spaces, as Python `int` does before parsing. -/
def stripSpaces (l : List Char) : List Char :=
  ((l.dropWhile (fun c => c = ' ')).reverse.dropWhile (fun c => c = ' ')).reverse

/-- Decimal digit test. -/
def isDigitCh (c : Char) : Bool := decide ('0' ≤ c) && decide (c ≤ '9')

/-- Value of a decimal digit character. -/
def digitVal (c : Char) : Nat := c.toNat - '0'.toNat

/-- Value of a decimal digit string (most significant digit first). -/
def digitsToNat (l : List Char) : Nat := l.foldl (fun a c => a * 10 + digitVal c) 0

/-- Model of Python `int(token)` on the tokens produced by splitting a list
name at `'-'`: surrounding spaces are stripped, an optional `'+'` sign is
accepted, and the remainder must be a nonempty digit string (a `'-'` sign can
never survive the split).  Returns `none` when `int` would raise
`ValueError`. -/
def pyParseNat (l : List Char) : Option Nat :=
  let s := stripSpaces l
  let s := if s.head? = some '+' then s.tail else s
  if s ≠ [] ∧ s.all isDigitCh then some (digitsToNat s) else none

/-- `int(name.split('-')[-1])` from `__main__.py` line 77, made total by
returning `none` where Python raises `ValueError`. -/
def parseListIndex (name : String) : Option Nat :=
  pyParseNat ((splitOnChar '-' name.data).getLastD [])

/-- Character of a decimal digit. -/
def digitChar (n : Nat) : Char := Char.ofNat ('0'.toNat + n)

/-- `f"{i:03d}"` for `i ≤ 999` (the only indices the engine ever formats,
since indices are capped at `MAX_LISTS = 298`). -/
def pad3 (i : Nat) : String :=
  ⟨[digitChar (i / 100 % 10), digitChar (i / 10 % 10), digitChar (i % 10)]⟩

/-- `f"{self.list_name} - {i:03d}"` from `__main__.py` line 88. -/
def fmtListName (ln : String) (i : Nat) : String := ln ++ " - " ++ pad3 i

/-! ### Data model

`CFList` and `CFRule` mirror the remote resources; `St` is the remote store,
with a `nextId` counter standing for the opaque fresh identifiers the remote
API mints.  `Cache` mirrors the persisted local cache file with its three
top-level fields. -/

/-- A remote Gateway list. -/
structure CFList where
  id : Nat
  name : String
  items : List String
deriving DecidableEq

/-- A remote Gateway rule; `listIds` stands for the list references encoded
in the rule's `traffic` expression. -/
structure CFRule where
  id : Nat
  name : String
  listIds : List Nat
deriving DecidableEq

/-- The remote Cloudflare Gateway state. -/
structure St where
  lists : List CFList
  rules : List CFRule
  nextId : Nat
deriving DecidableEq

/-- The local cache file: `lists`, `rules` and the `mapping` of list id to
recently observed items. -/
structure Cache where
  lists : List CFList
  rules : List CFRule
  mapping : List (Nat × List String)
deriving DecidableEq

deriving instance DecidableEq for Except

/-- Remote mutating calls issued during a pass, plus cache persistence. -/
inductive Event where
  | createList (id : Nat) (name : String) (items : List String)
  | updateList (id : Nat) (removeItems addItems : List String)
  | deleteList (id : Nat) (ok : Bool)
  | createRule (id : Nat) (name : String) (listIds : List Nat)
  | updateRule (id : Nat) (listIds : List Nat)
  | deleteRule (id : Nat) (ok : Bool)
  | saveCache
deriving DecidableEq

/-- Fatal outcomes of a pass.  The first four model the `error(...)` calls of
`update_resources` in source order; `uncaughtValueError` models the unhandled
`ValueError` of line 77; `httpError` models an exception escaping a remote
call. -/
inductive Err where
  | tooManyDomains
  | overMaxDomains
  | atMaxCapacity
  | cannotCreateMoreLists (unassigned : Nat)
  | uncaughtValueError
  | httpError
deriving DecidableEq

/-- `MAX_LISTS` from `__main__.py` line 23. -/
def MAX_LISTS : Nat := 298

/-! ### Remote client operations (`src/cloudflare.py`) -/

/-- `get_lists(prefix_name)`: all remote lists whose name starts with the
prefix. -/
def getLists (st : St) (ln : String) : List CFList :=
  st.lists.filter (fun l => strStarts ln l.name)

/-- `get_list_items(list_id)`: the items of the list, capped at 1000 by the
`?limit=1000` query parameter. -/
def getListItems (st : St) (lid : Nat) : List String :=
  (((st.lists.find? (fun l => l.id = lid)).map CFList.items).getD []).take 1000

/-- Effect of a successful `PATCH /lists/{id}` with `remove`/`append`
payloads. -/
def applyUpdateList (st : St) (lid : Nat) (removeItems addItems : List String) : St :=
  { st with lists := st.lists.map (fun l =>
      if l.id = lid then
        { l with items := l.items.filter (fun d => decide (d ∉ removeItems)) ++ addItems }
      else l) }

/-- Effect of a successful `POST /lists`; the remote mints a fresh id. -/
def applyCreateList (st : St) (name : String) (items : List String) : CFList × St :=
  let l : CFList := ⟨st.nextId, name, items⟩
  (l, { st with lists := st.lists ++ [l], nextId := st.nextId + 1 })

/-- Effect of a successful `DELETE /lists/{id}`. -/
def applyDeleteList (st : St) (lid : Nat) : St :=
  { st with lists := st.lists.filter (fun l => l.id ≠ lid) }

/-! ### Modelled helpers of `src/utils.py` (file not under `src/`) -/

/-- Modelled from the spec: `utils.get_current_lists(cache, list_name)` —
the engine "reads remote list/rule inventory via Remote Resource Client
(cache-assisted)"; the cache is only a hint for which lists exist, so the
read is modelled as the authoritative remote inventory for the managed
prefix. -/
def getCurrentLists (st : St) (_cache : Cache) (ln : String) : List CFList :=
  getLists st ln

/-- Modelled from the spec: `utils.get_current_rules(cache, rule_name)` —
the cache-assisted read of the remote rule inventory for the managed name,
modelled as the authoritative remote read (rules whose name starts with the
managed rule name). -/
def getCurrentRules (st : St) (_cache : Cache) (rn : String) : List CFRule :=
  st.rules.filter (fun r => strStarts rn r.name)

/-- Modelled from the spec: `utils.extract_list_ids(rule)` — the set of list
ids referenced by the rule's `traffic` expression. -/
def extractListIds (r : CFRule) : Finset Nat := r.listIds.toFinset

/-- Modelled from the spec: `utils.get_list_items_cached(cache, list_id)` —
returns the cached `mapping` entry when present, otherwise the remote items
("diff hinting, not correctness"). -/
def getListItemsCached (st : St) (cache : Cache) (lid : Nat) : List String :=
  match cache.mapping.lookup lid with
  | some items => items
  | none => getListItems st lid

/-- Assoc-list update used to model `cache["mapping"][list_id] = ...`. -/
def setMapping (m : List (Nat × List String)) (lid : Nat) (items : List String) :
    List (Nat × List String) :=
  m.filter (fun p => p.1 ≠ lid) ++ [(lid, items)]

/-! ### `CloudflareManager.update_resources` (`src/__main__.py` lines 16-150)

The converge pass is decomposed into the orphan-deletion loop (lines 46-56),
the per-index loop (lines 87-132) and the rule phase (lines 134-150).  The
environment parameter `failIds` lists the ids whose `delete_list` call raises
(the `except` branch of line 55); every other remote call succeeds. -/

/-- The orphan-deletion loop, lines 48-56: best-effort `delete_list` on each
orphan, decrementing `current_list_count` once per successful deletion and
stopping early once the count drops below `MAX_LISTS`. -/
def orphanLoop (failIds : List Nat) : List CFList → Nat → St → List Event × (Nat × St)
  | [], cnt, st => ([], (cnt, st))
  | l :: rest, cnt, st =>
    if l.id ∈ failIds then
      let r := orphanLoop failIds rest cnt st
      (Event.deleteList l.id false :: r.1, r.2)
    else
      let st1 := applyDeleteList st l.id
      if cnt - 1 < MAX_LISTS then ([Event.deleteList l.id true], (cnt - 1, st1))
      else
        let r := orphanLoop failIds rest (cnt - 1) st1
        (Event.deleteList l.id true :: r.1, r.2)

/-- Accumulator of the per-index loop: `remaining_domains`, `new_list_ids`,
the evolving remote state and the in-memory cache. -/
structure LoopSt where
  remaining : List String
  newIds : List Nat
  st : St
  cache : Cache
deriving DecidableEq

/-- Lines 96-99: the top-up drawn from `remaining_domains` when the kept
chunk of an existing list is below 1000 items. -/
def topUpNew (remaining chunk : List String) : List String :=
  if chunk.length < 1000 then remaining.take (1000 - chunk.length) else []

/-- One iteration of the loop of lines 87-132 at index `i`.  `nameMap` is
`list_name_to_id`; the error is the capacity error of line 124. -/
def processIndex (desired : List String) (nameMap : List (String × Nat)) (ln : String)
    (i : Nat) (ls : LoopSt) : List Event × Except Err LoopSt :=
  let listName := fmtListName ln i
  match nameMap.lookup listName with
  | some lid =>
    let currentValues := (getListItems ls.st lid).dedup
    let removeItems := currentValues.filter (fun d => decide (d ∉ desired))
    let chunk := currentValues.filter (fun d => decide (d ∈ desired))
    let newItems := topUpNew ls.remaining chunk
    let chunk1 := chunk ++ newItems.filter (fun d => decide (d ∉ chunk))
    let remaining1 := ls.remaining.filter (fun d => decide (d ∉ newItems))
    if removeItems.isEmpty && newItems.isEmpty then
      ([], .ok { ls with remaining := remaining1, newIds := ls.newIds ++ [lid] })
    else
      ([Event.updateList lid removeItems newItems],
       .ok { remaining := remaining1,
             newIds := ls.newIds ++ [lid],
             st := applyUpdateList ls.st lid removeItems newItems,
             cache := { ls.cache with mapping := setMapping ls.cache.mapping lid chunk1 } })
  | none =>
    if ls.remaining.isEmpty then ([], .ok ls)
    else if MAX_LISTS ≤ ls.newIds.length then
      ([], .error (.cannotCreateMoreLists ls.remaining.length))
    else
      let neededItems := min 1000 ls.remaining.length
      let newItems := ls.remaining.take neededItems
      let remaining1 := ls.remaining.filter (fun d => decide (d ∉ newItems))
      let cr := applyCreateList ls.st listName newItems
      ([Event.createList cr.1.id listName newItems],
       .ok { remaining := remaining1,
             newIds := ls.newIds ++ [cr.1.id],
             st := cr.2,
             cache := { ls.cache with
                          lists := ls.cache.lists ++ [cr.1],
                          mapping := setMapping ls.cache.mapping cr.1.id newItems } })

/-- The loop of lines 87-132 over all indexes, in ascending order. -/
def mainLoop (desired : List String) (nameMap : List (String × Nat)) (ln : String) :
    List Nat → LoopSt → List Event × Except Err LoopSt
  | [], ls => ([], .ok ls)
  | i :: rest, ls =>
    match processIndex desired nameMap ln i ls with
    | (ev, .error e) => (ev, .error e)
    | (ev, .ok ls1) =>
      let r := mainLoop desired nameMap ln rest ls1
      (ev ++ r.1, r.2)

/-- `int(name.split('-')[-1])` over all current list names; `none` models the
unhandled `ValueError` of line 77. -/
def parseIndexes (names : List String) : Option (List Nat) :=
  names.mapM parseListIndex

/-- Lines 38-39: the first rule named exactly `rule_name` among the rules
found for the managed name. -/
def managedRule (st : St) (cache : Cache) (rn : String) : Option CFRule :=
  (getCurrentRules st cache rn).find? (fun r => r.name = rn)

/-- Line 40: the list ids referenced by the managed rule, empty when there
is no such rule. -/
def activeIdsOf (st : St) (cache : Cache) (rn : String) : Finset Nat :=
  match managedRule st cache rn with
  | some r => extractListIds r
  | none => ∅

/-- Line 43: the lists under the managed prefix not referenced by the
managed rule. -/
def orphansOf (ln rn : String) (st : St) (cache : Cache) : List CFList :=
  (getLists st ln).filter (fun l => decide (l.id ∉ activeIdsOf st cache rn))

/-- Lines 61-150 of `update_resources`: everything after the capacity gate,
acting on the post-reclamation remote state `st1`; `cgpRule` is the managed
rule looked up before reclamation (deletions never touch rules). -/
def convergeCore (ln rn : String) (desired : List String) (st1 : St) (cache : Cache)
    (cgpRule : Option CFRule) : List Event × Except Err (St × Cache) :=
  let currentLists := getCurrentLists st1 cache ln
  match parseIndexes (currentLists.map CFList.name) with
  | none => ([], .error .uncaughtValueError)
  | some existingIndexes =>
    let remaining0 := desired.dedup.filter (fun d =>
      decide (¬ currentLists.any (fun l => decide (d ∈ getListItemsCached st1 cache l.id))))
    let nameMap := currentLists.map (fun l => (l.name, l.id))
    let neededLists := (desired.length + 999) / 1000
    let maxIndex := min (existingIndexes.foldr max neededLists) MAX_LISTS
    match mainLoop desired nameMap ln (List.range' 1 maxIndex)
        { remaining := remaining0, newIds := [], st := st1, cache := cache } with
    | (ev2, .error e) => (ev2, .error e)
    | (ev2, .ok ls) =>
      match cgpRule with
      | some r =>
        if ls.newIds.toFinset = extractListIds r then
          (ev2 ++ [Event.saveCache], .ok (ls.st, ls.cache))
        else
          let updated : CFRule := { r with listIds := ls.newIds }
          (ev2 ++ [Event.updateRule r.id ls.newIds, Event.saveCache],
           .ok ({ ls.st with rules := ls.st.rules.map (fun x => if x.id = r.id then updated else x) },
                { ls.cache with rules := [updated] }))
      | none =>
        let newRule : CFRule := ⟨ls.st.nextId, rn, ls.newIds⟩
        (ev2 ++ [Event.createRule newRule.id rn ls.newIds, Event.saveCache],
         .ok ({ ls.st with rules := ls.st.rules ++ [newRule], nextId := ls.st.nextId + 1 },
              { ls.cache with rules := ls.cache.rules ++ [newRule] }))

/-- `CloudflareManager.update_resources`, lines 16-150, as a function from
the desired domain list, the deletion-failure environment, the remote state
and the loaded cache to the trace of remote calls and either a fatal error or
the final remote state and cache. -/
def updateResources (ln rn : String) (desired : List String) (failIds : List Nat)
    (st : St) (cache : Cache) : List Event × Except Err (St × Cache) :=
  if 300000 < desired.length then ([], .error .tooManyDomains)
  else if MAX_LISTS * 1000 < desired.length then ([], .error .overMaxDomains)
  else
    let del :=
      if (orphansOf ln rn st cache).isEmpty then ([], ((getLists st ln).length, st))
      else orphanLoop failIds ((orphansOf ln rn st cache).take MAX_LISTS)
        (getLists st ln).length st
    if MAX_LISTS ≤ del.2.1 then (del.1, .error .atMaxCapacity)
    else
      let core := convergeCore ln rn desired del.2.2 cache (managedRule st cache rn)
      (del.1 ++ core.1, core.2)

/-! ### `CloudflareManager.delete_resources` (`src/__main__.py` lines 153-180)

`delete_rule` / `delete_list` calls have no surrounding `try`, so a failing
deletion propagates and aborts the remaining teardown.  `failRuleIds` /
`failListIds` are the environment of deletions that raise. -/

/-- Modelled from the spec: `utils.safe_sort_key` — sorts managed lists by
the index parsed from their name, treating an unparseable index as 0 (a
"safe" key that never raises). -/
def safeSortKey (l : CFList) : Nat := (parseListIndex l.name).getD 0

/-- Stable insertion into a list sorted by `safeSortKey`. -/
def insertByKey (x : CFList) : List CFList → List CFList
  | [] => [x]
  | y :: ys =>
    if safeSortKey x ≤ safeSortKey y then x :: y :: ys else y :: insertByKey x ys

/-- Stable sort by `safeSortKey`, the model of `current_lists.sort(...)`. -/
def sortByKey : List CFList → List CFList
  | [] => []
  | x :: xs => insertByKey x (sortByKey xs)

/-- The rule-deletion loop of lines 159-165: delete each rule, clear the
cached rules and persist after each deletion; a raising `delete_rule` aborts
the loop. -/
def deleteRulesLoop (failRuleIds : List Nat) :
    List CFRule → St → Cache → List Event × Except Err (St × Cache)
  | [], st, c => ([], .ok (st, c))
  | r :: rest, st, c =>
    if r.id ∈ failRuleIds then ([Event.deleteRule r.id false], .error .httpError)
    else
      let st1 : St := { st with rules := st.rules.filter (fun x => x.id ≠ r.id) }
      let c1 : Cache := { c with rules := [] }
      let rec1 := deleteRulesLoop failRuleIds rest st1 c1
      (Event.deleteRule r.id true :: Event.saveCache :: rec1.1, rec1.2)

/-- The list-deletion loop of lines 168-180: delete each list, drop it from
the cached lists and mapping and persist after each deletion; a raising
`delete_list` aborts the loop. -/
def deleteListsLoop (failListIds : List Nat) :
    List CFList → St → Cache → List Event × Except Err (St × Cache)
  | [], st, c => ([], .ok (st, c))
  | l :: rest, st, c =>
    if l.id ∈ failListIds then ([Event.deleteList l.id false], .error .httpError)
    else
      let st1 := applyDeleteList st l.id
      let c1 : Cache := { c with
        lists := c.lists.filter (fun x => x.id ≠ l.id),
        mapping := c.mapping.filter (fun p => p.1 ≠ l.id) }
      let rec1 := deleteListsLoop failListIds rest st1 c1
      (Event.deleteList l.id true :: Event.saveCache :: rec1.1, rec1.2)

/-- `CloudflareManager.delete_resources`, lines 153-180. -/
def deleteResources (ln rn : String) (failRuleIds failListIds : List Nat)
    (st : St) (cache : Cache) : List Event × Except Err (St × Cache) :=
  let currentLists := sortByKey (getCurrentLists st cache ln)
  let currentRules := getCurrentRules st cache rn
  match deleteRulesLoop failRuleIds currentRules st cache with
  | (ev1, .error e) => (ev1, .error e)
  | (ev1, .ok sc) =>
    let r2 := deleteListsLoop failListIds currentLists sc.1 sc.2
    (ev1 ++ r2.1, r2.2)

/-! ### `update_list` (`src/cloudflare.py` lines 20-54)

The remote `PATCH` either succeeds, or raises a client error.  Modelled from
the spec: the remote API "rejects removal of an item no longer present with a
distinguishable \"not found\" error" whose payload names the offending
domain (the regex of line 41 extracts it); `clientErr` injects any other
client error, which `update_list` re-raises unchanged. -/

/-- Errors a `PATCH /lists/{id}` can raise in the model. -/
inductive ULErr where
  | notFoundInList (domain : String)
  | otherClient (msg : String)
deriving DecidableEq

/-- Modelled from the spec: the response of the remote `PATCH` given the
items actually `present` in the list.  It fails with `notFoundInList d` for
the first `d` of the removal payload that is not present, with `otherClient`
when the environment injects an unrelated client error, and succeeds
otherwise. -/
def patchResponse (present : List String) (clientErr : Option String)
    (removeList : List String) : Option ULErr :=
  match clientErr with
  | some m => some (.otherClient m)
  | none =>
    match removeList.find? (fun d => decide (d ∉ present)) with
    | some d => some (.notFoundInList d)
    | none => none

/-- The retry loop of `update_list` lines 28-52.  `attemptsLeft` counts the
retries still allowed (`attempt < max_retries - 1`), so the top-level call
passes 2; on a "not found in list" error with retries left, the offending
domain is erased from the removal payload and the request reissued. -/
def updateListGo (present : List String) (clientErr : Option String)
    (appendItems : List String) : Nat → List String → Except ULErr (List String)
  | attemptsLeft, removeList =>
    match patchResponse present clientErr removeList with
    | none => .ok (present.filter (fun d => decide (d ∉ removeList)) ++ appendItems)
    | some (.notFoundInList d) =>
      match attemptsLeft with
      | 0 => .error (.notFoundInList d)
      | n + 1 => updateListGo present clientErr appendItems n (removeList.erase d)
    | some (.otherClient m) => .error (.otherClient m)

/-- `update_list(list_id, remove_items, append_items)` with `max_retries = 3`
(two retries after the first attempt); returns the resulting list items on
success. -/
def update_list (present : List String) (clientErr : Option String)
    (removeItems appendItems : List String) : Except ULErr (List String) :=
  updateListGo present clientErr appendItems 2 removeItems

/-! ### `DomainConverter.download_file` (`src/domains.py` lines 60-148)

The Python stdlib helpers `urlparse` / `urljoin` are external collaborators;
they are modelled below for the http(s) URLs the downloader handles (no
dot-segment normalization, which the claims do not exercise).  The network is
an environment mapping a request target `(netloc, path sent on the wire)` to
a response. -/

/-- The six components of `urllib.parse.urlparse`. -/
structure Url where
  scheme : String
  netloc : String
  path : String
  params : String
  query : String
  fragment : String
deriving DecidableEq

/-- Split at the first occurrence of `c`: the part before, and the part after
when `c` occurs. -/
def splitFirst (c : Char) : List Char → List Char × Option (List Char)
  | [] => ([], none)
  | x :: xs =>
    if x = c then ([], some xs)
    else
      let r := splitFirst c xs
      (x :: r.1, r.2)

/-- Scheme characters after the leading letter (RFC 3986). -/
def isSchemeCh (c : Char) : Bool :=
  c.isAlpha || c.isDigit || decide (c = '+') || decide (c = '-') || decide (c = '.')

/-- Split `scheme:` off the front when present. -/
def splitScheme (l : List Char) : Option (List Char) × List Char :=
  let pre := l.takeWhile isSchemeCh
  if pre ≠ [] ∧ (l.take 1).all Char.isAlpha ∧ (l.drop pre.length).head? = some ':' then
    (some pre, l.drop (pre.length + 1))
  else (none, l)

/-- Split `;params` off the last path segment, as `urlparse` does. -/
def splitParams (path : List Char) : List Char × List Char :=
  let segs := splitOnChar '/' path
  let lastSeg := segs.getLastD []
  let sp := splitFirst ';' lastSeg
  match sp.2 with
  | none => (path, [])
  | some ps => ((segs.dropLast.map (fun s => s ++ ['/'])).flatten ++ sp.1, ps)

/-- Model of `urllib.parse.urlparse` for http(s)-style URLs: fragment, then
query, then scheme, then `//netloc`, then `;params` in the last segment. -/
def urlparse (s : String) : Url :=
  let f := splitFirst '#' s.data
  let fragment := (f.2.getD [])
  let q := splitFirst '?' f.1
  let query := (q.2.getD [])
  let sc := splitScheme q.1
  let rest := sc.2
  let scheme := (sc.1.getD [])
  let nl :=
    if rest.take 2 = ['/', '/'] then
      let body := rest.drop 2
      (body.takeWhile (fun c => c ≠ '/'), body.dropWhile (fun c => c ≠ '/'))
    else ([], rest)
  let pp := splitParams nl.2
  ⟨⟨scheme⟩, ⟨nl.1⟩, ⟨pp.1⟩, ⟨pp.2⟩, ⟨query⟩, ⟨fragment⟩⟩

/-- Model of `urllib.parse.urlunparse`. -/
def urlunparse (u : Url) : String :=
  (if u.scheme ≠ "" then u.scheme ++ ":" else "")
    ++ (if u.netloc ≠ "" then "//" ++ u.netloc else "")
    ++ u.path
    ++ (if u.params ≠ "" then ";" ++ u.params else "")
    ++ (if u.query ≠ "" then "?" ++ u.query else "")
    ++ (if u.fragment ≠ "" then "#" ++ u.fragment else "")

/-- The path actually kept: everything of the base path up to and including
its last `'/'`, the RFC 3986 merge for a relative reference (dot segments are
not normalized in the model). -/
def mergePaths (base rel : List Char) : List Char :=
  let segs := splitOnChar '/' base
  (segs.dropLast.map (fun s => s ++ ['/'])).flatten ++ rel

/-- Model of `urllib.parse.urljoin` restricted to the cases the downloader
exercises: an absolute reference wins, a reference with a netloc keeps the
base scheme, an absolute path replaces the base path, a relative path is
merged onto the base path, and an empty path keeps the base path and query.
-/
def urljoin (base rel : String) : String :=
  let b := urlparse base
  let r := urlparse rel
  if r.scheme ≠ "" ∧ r.scheme ≠ b.scheme then rel
  else if r.netloc ≠ "" then
    urlunparse ⟨b.scheme, r.netloc, r.path, r.params, r.query, r.fragment⟩
  else if r.path = "" ∧ r.params = "" then
    urlunparse ⟨b.scheme, b.netloc, b.path, b.params,
      (if r.query = "" then b.query else r.query), r.fragment⟩
  else if r.path.data.head? = some '/' then
    urlunparse ⟨b.scheme, b.netloc, r.path, r.params, r.query, r.fragment⟩
  else
    urlunparse ⟨b.scheme, b.netloc, ⟨mergePaths b.path.data r.path.data⟩,
      r.params, r.query, r.fragment⟩

/-- An HTTP response: status, optional `Location` header, body. -/
structure HttpResp where
  status : Nat
  location : Option String
  body : String
deriving DecidableEq

/-- `response.status in (301, 302, 303, 307, 308)` of line 84. -/
def isRedirectStatus (s : Nat) : Bool :=
  decide (s = 301) || decide (s = 302) || decide (s = 303)
    || decide (s = 307) || decide (s = 308)

/-- Python truthiness of the `Location` header (line 87): missing or empty. -/
def locFalsy : Option String → Bool
  | none => true
  | some l => decide (l = "")

/-- The full request path of lines 108-115: path, `;params`, `?query`,
`#fragment`. -/
def fullPath (u : Url) : String :=
  u.path ++ (if u.params ≠ "" then ";" ++ u.params else "")
    ++ (if u.query ≠ "" then "?" ++ u.query else "")
    ++ (if u.fragment ≠ "" then "#" ++ u.fragment else "")

/-- Failures of a download in the model. -/
inductive DlErr where
  | tooManyRedirects
  | rateLimited
  | badStatus (code : Nat)
deriving DecidableEq

/-- Outcome of the non-redirect exit of the loop: lines 127-148. -/
def finishDownload (resp : HttpResp) : Except DlErr String :=
  if resp.status = 200 then .ok resp.body
  else if resp.status = 429 then .error .rateLimited
  else .error (.badStatus resp.status)

/-- The redirect-following loop of lines 82-124.  `fuel` is the number of
redirects that may still be followed (`max_redirects = 10` initially);
following one more when `fuel = 0` is the `redirect_count > max_redirects`
failure of line 90.  Returns the request targets issued and the outcome. -/
def downloadGo (env : String × String → HttpResp) :
    Nat → String → HttpResp → List (String × String) →
    List (String × String) × Except DlErr String
  | fuel, url, resp, trace =>
    if isRedirectStatus resp.status then
      if locFalsy resp.location then (trace, finishDownload resp)
      else
        match resp.location with
        | none => (trace, finishDownload resp)
        | some loc =>
          match fuel with
          | 0 => (trace, .error .tooManyRedirects)
          | f + 1 =>
            let loc1 := if (urlparse loc).netloc = "" then urljoin url loc else loc
            let u := urlparse loc1
            let target := (u.netloc, fullPath u)
            downloadGo env f loc1 (env target) (trace ++ [target])
    else (trace, finishDownload resp)

/-- `DomainConverter.download_file(url)`: the first request is issued against
the parsed netloc with the bare parsed path (line 73), then redirects are
followed up to 10 hops. -/
def download_file (env : String × String → HttpResp) (url : String) :
    List (String × String) × Except DlErr String :=
  let u := urlparse url
  let t0 := (u.netloc, u.path)
  downloadGo env 10 url (env t0) [t0]

/-! ### Event classification helpers -/

/-- Events that are remote mutating calls (`create_list`, `update_list`,
`delete_list`, `create_rule`, `update_rule`, `delete_rule`); only the cache
persistence of `save_cache` is not a remote mutation. -/
def isMutEvent : Event → Bool
  | .saveCache => false
  | _ => true

/-- Events that are `delete_list` calls. -/
def isDeleteListEv : Event → Bool
  | .deleteList _ _ => true
  | _ => false

/-- Events that are successful `delete_list` calls. -/
def isOkDeleteListEv : Event → Bool
  | .deleteList _ ok => ok
  | _ => false

/-! ## C4: capacity precheck fails before any mutation -/

/-- C4: if the desired domain set exceeds the absolute ceiling of
`MAX_LISTS * 1000 = 298000` domains, `update_resources` fails with one of its
two fatal capacity errors (line 19 for more than 300000 domains, line 29
otherwise) before issuing any remote call: the trace is empty, so the remote
state and the cache are untouched.  A desired set needing 400 lists has more
than 399000 domains and therefore falls under this theorem. -/
theorem update_resources_capacity_precheck (ln rn : String) (desired : List String)
    (failIds : List Nat) (st : St) (cache : Cache)
    (h : MAX_LISTS * 1000 < desired.length) :
    (updateResources ln rn desired failIds st cache).1 = [] ∧
      ((updateResources ln rn desired failIds st cache).2 = .error .tooManyDomains ∨
        (updateResources ln rn desired failIds st cache).2 = .error .overMaxDomains) := by
  unfold updateResources
  by_cases h1 : 300000 < desired.length
  · simp [h1]
  · simp [h1, h]

/-- Witness for C4: a concrete desired set of 298001 domains is rejected
with an empty trace. -/
theorem update_resources_capacity_precheck_witness :
    MAX_LISTS * 1000 < (List.replicate 298001 "a.com").length ∧
      ((updateResources "[P]" "[P] Block Ads" (List.replicate 298001 "a.com") []
          ⟨[], [], 0⟩ ⟨[], [], []⟩).1 = [] ∧
        ((updateResources "[P]" "[P] Block Ads" (List.replicate 298001 "a.com") []
            ⟨[], [], 0⟩ ⟨[], [], []⟩).2 = .error .tooManyDomains ∨
          (updateResources "[P]" "[P] Block Ads" (List.replicate 298001 "a.com") []
              ⟨[], [], 0⟩ ⟨[], [], []⟩).2 = .error .overMaxDomains)) := by
  have h : MAX_LISTS * 1000 < (List.replicate 298001 "a.com").length := by
    rw [List.length_replicate]; norm_num [MAX_LISTS]
  exact ⟨h, update_resources_capacity_precheck "[P]" "[P] Block Ads"
    (List.replicate 298001 "a.com") [] ⟨[], [], 0⟩ ⟨[], [], []⟩ h⟩

/-! ## C9: the in-loop "Cannot create more lists" error is unreachable -/

/-- Each loop iteration either succeeds and appends at most one id to
`new_list_ids`, or fails with the line-124 error, which requires
`MAX_LISTS ≤ len(new_list_ids)` on entry. -/
theorem processIndex_cases (desired : List String) (nameMap : List (String × Nat))
    (ln : String) (i : Nat) (ls : LoopSt) :
    (∃ ev ls1, processIndex desired nameMap ln i ls = (ev, .ok ls1) ∧
        ls1.newIds.length ≤ ls.newIds.length + 1) ∨
      (MAX_LISTS ≤ ls.newIds.length ∧
        processIndex desired nameMap ln i ls =
          ([], .error (.cannotCreateMoreLists ls.remaining.length))) := by
  unfold processIndex
  cases hl : nameMap.lookup (fmtListName ln i) with
  | some lid =>
    left
    simp only [hl]
    by_cases hskip : ((getListItems ls.st lid).dedup.filter
        (fun d => decide (d ∉ desired))).isEmpty
      && (topUpNew ls.remaining ((getListItems ls.st lid).dedup.filter
        (fun d => decide (d ∈ desired)))).isEmpty
    · exact ⟨_, _, by rw [if_pos hskip], by simp⟩
    · exact ⟨_, _, by rw [if_neg hskip], by simp⟩
  | none =>
    simp only [hl]
    by_cases hrem : ls.remaining.isEmpty
    · left; exact ⟨_, _, by rw [if_pos hrem], by simp⟩
    · by_cases hcap : MAX_LISTS ≤ ls.newIds.length
      · right
        refine ⟨hcap, ?_⟩
        rw [if_neg hrem, if_pos hcap]
      · left
        exact ⟨_, _, by rw [if_neg hrem, if_neg hcap], by simp⟩

/-- If `new_list_ids` can still grow by one per remaining index without
reaching `MAX_LISTS`, the loop never raises the line-124 error. -/
theorem mainLoop_no_cap_error (desired : List String) (nameMap : List (String × Nat))
    (ln : String) :
    ∀ (todo : List Nat) (ls : LoopSt), ls.newIds.length + todo.length ≤ MAX_LISTS →
      ∀ n, (mainLoop desired nameMap ln todo ls).2 ≠ .error (.cannotCreateMoreLists n) := by
  intro todo
  induction todo with
  | nil => intro ls _ n; simp [mainLoop]
  | cons i rest ih =>
    intro ls hlen n
    rcases processIndex_cases desired nameMap ln i ls with ⟨ev, ls1, heq, hle⟩ | ⟨hcap, _⟩
    · have : (mainLoop desired nameMap ln (i :: rest) ls).2 =
          (mainLoop desired nameMap ln rest ls1).2 := by
        simp only [mainLoop, heq]
      rw [this]
      exact ih ls1 (by simp at hlen; omega) n
    · exfalso
      simp at hlen
      omega

/-- Error form of the loop bound: a loop started with room for one id per
index never reports the line-124 error. -/
theorem mainLoop_pair_not_cap (desired : List String) (nameMap : List (String × Nat))
    (ln : String) (todo : List Nat) (ls : LoopSt) (ev : List Event) (e : Err)
    (h : mainLoop desired nameMap ln todo ls = (ev, .error e))
    (hb : ls.newIds.length + todo.length ≤ MAX_LISTS) (n : Nat) :
    e ≠ .cannotCreateMoreLists n := by
  intro hc
  have h2 := mainLoop_no_cap_error desired nameMap ln todo ls hb n
  rw [h, hc] at h2
  exact h2 rfl

/-- The error of line 124 never escapes the post-gate phase of a pass. -/
theorem convergeCore_no_cap (ln rn : String) (desired : List String) (st1 : St)
    (cache : Cache) (cgp : Option CFRule) (n : Nat) :
    (convergeCore ln rn desired st1 cache cgp).2 ≠
      .error (.cannotCreateMoreLists n) := by
  unfold convergeCore
  cases hp : parseIndexes ((getCurrentLists st1 cache ln).map CFList.name) with
  | none => simp [hp]
  | some existingIndexes =>
    simp only [hp]
    split
    · next ev2 e hrun =>
      intro hc
      simp only at hc
      refine mainLoop_pair_not_cap _ _ _ _ _ _ _ hrun ?_ n ?_
      · simp [List.length_range']
      · injection hc
    · next ev2 ls hrun =>
      cases cgp with
      | some r =>
        by_cases heq : ls.newIds.toFinset = extractListIds r
        · simp [heq]
        · simp [heq]
      | none => simp

/-- C9: the in-loop capacity error of line 124 (`"Cannot create more
lists"`) is unreachable: for every input whatsoever, `update_resources`
never returns it, because the index range is capped at `MAX_LISTS` and each
index contributes at most one entry to `new_list_ids`. -/
theorem update_resources_inloop_cap_unreachable (ln rn : String) (desired : List String)
    (failIds : List Nat) (st : St) (cache : Cache) (n : Nat) :
    (updateResources ln rn desired failIds st cache).2 ≠
      .error (.cannotCreateMoreLists n) := by
  unfold updateResources
  split
  · simp
  · split
    · simp
    · split
      · dsimp only
        split
        · simp
        · simpa using convergeCore_no_cap ln rn desired _ cache (managedRule st cache rn) n
      · dsimp only
        split
        · simp
        · simpa using convergeCore_no_cap ln rn desired _ cache (managedRule st cache rn) n

/-! ## C10: index parsing is not total -/

/-- C10: the index-parsing step of line 77 is not total.  When the pass
reaches it (the desired set is within capacity, there are no orphans to
reclaim, and the capacity gate passes) and some current managed list has a
name whose final `'-'`-separated token does not parse as a decimal integer,
`update_resources` aborts with the unhandled `ValueError` instead of a
result or a classified error. -/
theorem update_resources_parse_abort (ln rn : String) (desired : List String)
    (failIds : List Nat) (st : St) (cache : Cache)
    (hsize : desired.length ≤ MAX_LISTS * 1000)
    (hOrph : orphansOf ln rn st cache = [])
    (hcnt : (getLists st ln).length < MAX_LISTS)
    (hbad : parseIndexes ((getCurrentLists st cache ln).map CFList.name) = none) :
    (updateResources ln rn desired failIds st cache).2 = .error .uncaughtValueError := by
  have h1 : ¬ 300000 < desired.length := by
    simp only [MAX_LISTS] at hsize; omega
  have h2 : ¬ MAX_LISTS * 1000 < desired.length := by omega
  have h3 : (orphansOf ln rn st cache).isEmpty = true := by simp [hOrph]
  unfold updateResources
  rw [if_neg h1, if_neg h2, if_pos h3]
  dsimp only
  rw [if_neg (by simpa using hcnt)]
  dsimp only
  unfold convergeCore
  dsimp only
  rw [hbad]

/-- Witness for C10: a single managed list named `"[P] - x"` (unparseable
final token), referenced by the managed rule, makes the pass abort. -/
theorem update_resources_parse_abort_witness :
    (["a.com"].length ≤ MAX_LISTS * 1000 ∧
        orphansOf "[P]" "[P] Block Ads"
          ⟨[⟨1, "[P] - x", []⟩], [⟨2, "[P] Block Ads", [1]⟩], 3⟩ ⟨[], [], []⟩ = [] ∧
        (getLists ⟨[⟨1, "[P] - x", []⟩], [⟨2, "[P] Block Ads", [1]⟩], 3⟩ "[P]").length <
          MAX_LISTS ∧
        parseIndexes ((getCurrentLists ⟨[⟨1, "[P] - x", []⟩], [⟨2, "[P] Block Ads", [1]⟩], 3⟩
          ⟨[], [], []⟩ "[P]").map CFList.name) = none) ∧
      (updateResources "[P]" "[P] Block Ads" ["a.com"] []
          ⟨[⟨1, "[P] - x", []⟩], [⟨2, "[P] Block Ads", [1]⟩], 3⟩ ⟨[], [], []⟩).2 =
        .error .uncaughtValueError := by
  refine ⟨⟨by decide, by decide, by decide, by decide⟩, ?_⟩
  exact update_resources_parse_abort "[P]" "[P] Block Ads" ["a.com"] [] _ _
    (by decide) (by decide) (by decide) (by decide)

/-! ## C6: the `update_list` "not found in list" recovery -/

/-- The count of stale removal entries drops by one when the offending
domain is erased. -/
theorem stale_count_erase (present removeList : List String) (d : String)
    (hnd : removeList.Nodup) (hd : d ∈ removeList) (hdp : d ∉ present) :
    ((removeList.erase d).filter (fun x => decide (x ∉ present))).length =
      (removeList.filter (fun x => decide (x ∉ present))).length - 1 := by
  rw [hnd.erase_eq_filter]
  rw [List.filter_comm]
  have hdmem : d ∈ removeList.filter (fun x => decide (x ∉ present)) := by
    rw [List.mem_filter]
    exact ⟨hd, by simpa using hdp⟩
  have hfnd : (removeList.filter (fun x => decide (x ∉ present))).Nodup :=
    hnd.filter _
  rw [← hfnd.erase_eq_filter]
  exact List.length_erase_of_mem hdmem

/-- On the success path the returned list depends on the removal payload only
through its present members, so erasing stale entries does not change it. -/
theorem filter_erase_stale (present removeList : List String) (d : String)
    (hdp : d ∉ present) :
    present.filter (fun x => decide (x ∉ removeList.erase d)) =
      present.filter (fun x => decide (x ∉ removeList)) := by
  apply List.filter_congr
  intro x hx
  have hxd : x ≠ d := fun h => hdp (h ▸ hx)
  simp only [decide_eq_decide]
  constructor
  · intro hne hmem
    exact hne (List.mem_erase_of_ne hxd |>.2 hmem)
  · intro hne hmem
    exact hne (List.mem_of_mem_erase hmem)

/-- Success of the retry loop when the stale entries fit in the retry
budget. -/
theorem updateListGo_ok (present appendItems : List String) :
    ∀ (fuel : Nat) (removeList : List String), removeList.Nodup →
      (removeList.filter (fun x => decide (x ∉ present))).length ≤ fuel →
      updateListGo present none appendItems fuel removeList =
        .ok (present.filter (fun x => decide (x ∉ removeList)) ++ appendItems) := by
  intro fuel
  induction fuel with
  | zero =>
    intro removeList hnd hcnt
    have hall : ∀ x ∈ removeList, x ∈ present := by
      intro x hx
      by_contra hxp
      have : x ∈ removeList.filter (fun x => decide (x ∉ present)) := by
        rw [List.mem_filter]; exact ⟨hx, by simpa using hxp⟩
      have := List.length_pos_of_mem this
      omega
    unfold updateListGo patchResponse
    have hfind : removeList.find? (fun d => decide (d ∉ present)) = none := by
      rw [List.find?_eq_none]
      intro x hx
      simpa using hall x hx
    rw [hfind]
  | succ n ih =>
    intro removeList hnd hcnt
    unfold updateListGo patchResponse
    cases hfind : removeList.find? (fun d => decide (d ∉ present)) with
    | none => rfl
    | some d =>
      have hdp : d ∉ present := by
        have := List.find?_some hfind
        simpa using this
      have hd : d ∈ removeList := List.mem_of_find?_eq_some hfind
      simp only []
      rw [ih (removeList.erase d) (hnd.erase d) ?_]
      · rw [filter_erase_stale present removeList d hdp]
      · rw [stale_count_erase present removeList d hnd hd hdp]
        have : 0 < (removeList.filter (fun x => decide (x ∉ present))).length := by
          apply List.length_pos_of_mem
          rw [List.mem_filter]
          exact ⟨hd, by simpa using hdp⟩
        omega

/-- Exhaustion of the retry budget when the stale entries outnumber it. -/
theorem updateListGo_exhaust (present appendItems : List String) :
    ∀ (fuel : Nat) (removeList : List String), removeList.Nodup →
      fuel + 1 ≤ (removeList.filter (fun x => decide (x ∉ present))).length →
      ∃ d, updateListGo present none appendItems fuel removeList =
        .error (.notFoundInList d) := by
  intro fuel
  induction fuel with
  | zero =>
    intro removeList hnd hcnt
    have : ∃ d ∈ removeList, d ∉ present := by
      have hne : removeList.filter (fun x => decide (x ∉ present)) ≠ [] := by
        intro h; rw [h] at hcnt; simp at hcnt
      obtain ⟨d, hdmem⟩ := List.exists_mem_of_ne_nil _ hne
      rw [List.mem_filter] at hdmem
      exact ⟨d, hdmem.1, by simpa using hdmem.2⟩
    obtain ⟨d, hd, hdp⟩ := this
    unfold updateListGo patchResponse
    cases hfind : removeList.find? (fun x => decide (x ∉ present)) with
    | none =>
      rw [List.find?_eq_none] at hfind
      exact absurd (by simpa using hdp) (by simpa using hfind d hd)
    | some d2 => exact ⟨d2, rfl⟩
  | succ n ih =>
    intro removeList hnd hcnt
    unfold updateListGo patchResponse
    cases hfind : removeList.find? (fun x => decide (x ∉ present)) with
    | none =>
      exfalso
      rw [List.find?_eq_none] at hfind
      have : removeList.filter (fun x => decide (x ∉ present)) = [] := by
        rw [List.filter_eq_nil_iff]
        intro x hx
        simpa using hfind x hx
      rw [this] at hcnt
      simp at hcnt
    | some d =>
      have hdp : d ∉ present := by simpa using List.find?_some hfind
      have hd : d ∈ removeList := List.mem_of_find?_eq_some hfind
      simp only []
      apply ih (removeList.erase d) (hnd.erase d)
      rw [stale_count_erase present removeList d hnd hd hdp]
      omega

/-- C6: `update_list` recovers from the "not found in list" client error: the
offending domain extracted from the error payload is dropped from the pending
removal set and the request retried, with at most 3 attempts in total.  With
at most two stale entries the operation therefore succeeds (returning the
update that only removes the items actually present) without escalating; any
other client error is re-raised as is, and when the stale entries exceed the
retry budget the "not found" error is re-raised. -/
theorem update_list_not_found_recovery :
    (∀ (present removeItems appendItems : List String), removeItems.Nodup →
        (removeItems.filter (fun x => decide (x ∉ present))).length ≤ 2 →
        update_list present none removeItems appendItems =
          .ok (present.filter (fun x => decide (x ∉ removeItems)) ++ appendItems)) ∧
      (∀ (present removeItems appendItems : List String) (m : String),
        update_list present (some m) removeItems appendItems =
          .error (.otherClient m)) ∧
      (∀ (present removeItems appendItems : List String), removeItems.Nodup →
        3 ≤ (removeItems.filter (fun x => decide (x ∉ present))).length →
        ∃ d, update_list present none removeItems appendItems =
          .error (.notFoundInList d)) := by
  refine ⟨?_, ?_, ?_⟩
  · intro present removeItems appendItems hnd hcnt
    exact updateListGo_ok present appendItems 2 removeItems hnd hcnt
  · intro present removeItems appendItems m
    unfold update_list updateListGo patchResponse
    rfl
  · intro present removeItems appendItems hnd hcnt
    exact updateListGo_exhaust present appendItems 2 removeItems hnd (by omega)

/-- Witness for C6: removing `{stale1, stale2, b}` from a list holding
`{a, b}` succeeds after two recovery retries, removing only `b`. -/
theorem update_list_not_found_recovery_witness :
    (["stale1", "stale2", "b"] : List String).Nodup ∧
      ((["stale1", "stale2", "b"].filter
        (fun x => decide (x ∉ (["a", "b"] : List String)))).length ≤ 2) ∧
      update_list ["a", "b"] none ["stale1", "stale2", "b"] ["c"] =
        .ok ((["a", "b"].filter
          (fun x => decide (x ∉ (["stale1", "stale2", "b"] : List String)))) ++ ["c"]) := by
  refine ⟨by decide, by decide, ?_⟩
  exact update_list_not_found_recovery.1 ["a", "b"] ["stale1", "stale2", "b"] ["c"]
    (by decide) (by decide)

/-! ## C5: orphan reclamation -/

/-- Every event of the orphan-deletion loop is a `delete_list` call. -/
theorem orphanLoop_events (failIds : List Nat) :
    ∀ (orphans : List CFList) (cnt : Nat) (st : St),
      ∀ e ∈ (orphanLoop failIds orphans cnt st).1, isDeleteListEv e = true := by
  intro orphans
  induction orphans with
  | nil => intro cnt st e he; simp [orphanLoop] at he
  | cons l rest ih =>
    intro cnt st e he
    unfold orphanLoop at he
    by_cases hf : l.id ∈ failIds
    · rw [if_pos hf] at he
      simp only [List.mem_cons] at he
      rcases he with he | he
      · subst he; rfl
      · exact ih cnt st e he
    · rw [if_neg hf] at he
      by_cases hc : cnt - 1 < MAX_LISTS
      · rw [if_pos hc] at he
        simp only [List.mem_singleton] at he
        subst he; rfl
      · rw [if_neg hc] at he
        simp only [List.mem_cons] at he
        rcases he with he | he
        · subst he; rfl
        · exact ih (cnt - 1) (applyDeleteList st l.id) e he

/-- The returned `current_list_count` is the initial count minus exactly one
per successful deletion recorded in the trace. -/
theorem orphanLoop_count (failIds : List Nat) :
    ∀ (orphans : List CFList) (cnt : Nat) (st : St),
      (orphanLoop failIds orphans cnt st).2.1 =
        cnt - ((orphanLoop failIds orphans cnt st).1.filter isOkDeleteListEv).length := by
  intro orphans
  induction orphans with
  | nil => intro cnt st; simp [orphanLoop]
  | cons l rest ih =>
    intro cnt st
    unfold orphanLoop
    by_cases hf : l.id ∈ failIds
    · rw [if_pos hf]
      simp only [List.filter_cons]
      have : isOkDeleteListEv (Event.deleteList l.id false) = false := rfl
      rw [this]
      simp only [Bool.false_eq_true, if_false]
      exact ih cnt st
    · rw [if_neg hf]
      by_cases hc : cnt - 1 < MAX_LISTS
      · rw [if_pos hc]
        simp [isOkDeleteListEv]
      · rw [if_neg hc]
        dsimp only
        have hfil : (Event.deleteList l.id true ::
            (orphanLoop failIds rest (cnt - 1) (applyDeleteList st l.id)).1).filter
              isOkDeleteListEv =
            Event.deleteList l.id true ::
              ((orphanLoop failIds rest (cnt - 1) (applyDeleteList st l.id)).1.filter
                isOkDeleteListEv) := by
          rw [List.filter_cons_of_pos]
          rfl
        rw [hfil, List.length_cons, ih (cnt - 1) (applyDeleteList st l.id)]
        omega

/-- A failing `delete_list` on one orphan is recorded and the loop continues
with the remaining orphans unchanged. -/
theorem orphanLoop_fail_continues (failIds : List Nat) (l : CFList) (rest : List CFList)
    (cnt : Nat) (st : St) (h : l.id ∈ failIds) :
    orphanLoop failIds (l :: rest) cnt st =
      (Event.deleteList l.id false :: (orphanLoop failIds rest cnt st).1,
        (orphanLoop failIds rest cnt st).2) := by
  conv_lhs => rw [orphanLoop]
  rw [if_pos h]

/-- Per-iteration events of the index loop: never a `delete_list`, always a
remote mutation, and a created list carries at most 1000 items. -/
theorem processIndex_events (desired : List String) (nameMap : List (String × Nat))
    (ln : String) (i : Nat) (ls : LoopSt) :
    ∀ e ∈ (processIndex desired nameMap ln i ls).1,
      isDeleteListEv e = false ∧ isMutEvent e = true ∧
        ∀ j nm its, e = Event.createList j nm its → its.length ≤ 1000 := by
  unfold processIndex
  cases hl : nameMap.lookup (fmtListName ln i) with
  | some lid =>
    simp only [hl]
    split
    · simp
    · intro e he
      simp only [List.mem_singleton] at he
      subst he
      exact ⟨rfl, rfl, fun j nm its h => by cases h⟩
  | none =>
    simp only [hl]
    split
    · simp
    · split
      · simp
      · intro e he
        simp only [List.mem_singleton] at he
        subst he
        refine ⟨rfl, rfl, ?_⟩
        intro j nm its h
        cases h
        simp [List.length_take]

/-- Events of the whole index loop: never a `delete_list`, always remote
mutations, created lists hold at most 1000 items. -/
theorem mainLoop_events (desired : List String) (nameMap : List (String × Nat))
    (ln : String) :
    ∀ (todo : List Nat) (ls : LoopSt),
      ∀ e ∈ (mainLoop desired nameMap ln todo ls).1,
        isDeleteListEv e = false ∧ isMutEvent e = true ∧
          ∀ j nm its, e = Event.createList j nm its → its.length ≤ 1000 := by
  intro todo
  induction todo with
  | nil => intro ls e he; simp [mainLoop] at he
  | cons i rest ih =>
    intro ls e he
    unfold mainLoop at he
    cases hpi : processIndex desired nameMap ln i ls with
    | mk ev res =>
      rw [hpi] at he
      cases res with
      | error e2 =>
        simp only at he
        exact processIndex_events desired nameMap ln i ls e (by rw [hpi]; exact he)
      | ok ls1 =>
        simp only at he
        rw [List.mem_append] at he
        rcases he with he | he
        · exact processIndex_events desired nameMap ln i ls e (by rw [hpi]; exact he)
        · exact ih ls1 e he

/-- Events of the post-gate phase: never a `delete_list`, and created lists
hold at most 1000 items. -/
theorem convergeCore_events (ln rn : String) (desired : List String) (st1 : St)
    (cache : Cache) (cgp : Option CFRule) :
    ∀ e ∈ (convergeCore ln rn desired st1 cache cgp).1,
      isDeleteListEv e = false ∧
        ∀ j nm its, e = Event.createList j nm its → its.length ≤ 1000 := by
  unfold convergeCore
  cases hp : parseIndexes ((getCurrentLists st1 cache ln).map CFList.name) with
  | none => simp [hp]
  | some existingIndexes =>
    simp only [hp]
    split
    · next ev2 e2 hrun =>
      intro e he
      simp only at he
      have h := mainLoop_events desired _ ln _ _ e (by rw [hrun]; exact he)
      exact ⟨h.1, h.2.2⟩
    · next ev2 ls hrun =>
      intro e he
      cases cgp with
      | some r =>
        dsimp only at he
        by_cases heq : ls.newIds.toFinset = extractListIds r
        · rw [if_pos heq] at he
          rw [List.mem_append] at he
          rcases he with he | he
          · have h := mainLoop_events desired _ ln _ _ e (by rw [hrun]; exact he)
            exact ⟨h.1, h.2.2⟩
          · simp only [List.mem_singleton] at he
            subst he
            exact ⟨rfl, fun j nm its h => by cases h⟩
        · rw [if_neg heq] at he
          simp only at he
          rw [List.mem_append] at he
          rcases he with he | he
          · have h := mainLoop_events desired _ ln _ _ e (by rw [hrun]; exact he)
            exact ⟨h.1, h.2.2⟩
          · simp only [List.mem_cons, List.mem_singleton] at he
            rcases he with he | he | he
            · subst he; exact ⟨rfl, fun j nm its h => by cases h⟩
            · subst he; exact ⟨rfl, fun j nm its h => by cases h⟩
            · cases he
      | none =>
        simp only at he
        rw [List.mem_append] at he
        rcases he with he | he
        · have h := mainLoop_events desired _ ln _ _ e (by rw [hrun]; exact he)
          exact ⟨h.1, h.2.2⟩
        · simp only [List.mem_cons, List.mem_singleton] at he
          rcases he with he | he | he
          · subst he; exact ⟨rfl, fun j nm its h => by cases h⟩
          · subst he; exact ⟨rfl, fun j nm its h => by cases h⟩
          · cases he

/-- The trace of a pass splits into a prefix of `delete_list` calls followed
by events none of which is a `delete_list`: orphan deletions all happen
before any list creation. -/
theorem update_resources_deletes_first (ln rn : String) (desired : List String)
    (failIds : List Nat) (st : St) (cache : Cache) :
    ∃ a b, (updateResources ln rn desired failIds st cache).1 = a ++ b ∧
      (∀ e ∈ a, isDeleteListEv e = true) ∧ (∀ e ∈ b, isDeleteListEv e = false) := by
  unfold updateResources
  split
  · exact ⟨[], [], by simp⟩
  · split
    · exact ⟨[], [], by simp⟩
    · split
      · dsimp only
        split
        · next h =>
          refine ⟨[], [], by simp, by simp, by simp⟩
        · refine ⟨[], _, rfl, by simp, ?_⟩
          intro e he
          exact (convergeCore_events ln rn desired _ cache (managedRule st cache rn) e he).1
      · dsimp only
        split
        · next h =>
          refine ⟨(orphanLoop failIds ((orphansOf ln rn st cache).take MAX_LISTS)
              (getLists st ln).length st).1, [], by rw [List.append_nil], ?_, by simp⟩
          intro e he
          exact orphanLoop_events failIds _ _ _ e he
        · refine ⟨_, _, rfl, ?_, ?_⟩
          · intro e he
            exact orphanLoop_events failIds _ _ _ e he
          · intro e he
            exact (convergeCore_events ln rn desired _ cache (managedRule st cache rn) e he).1

/-- C5 (amended): orphan deletions happen before any list creation (the
trace is a prefix of `delete_list` calls followed by non-deletions), the
active-list count is decremented exactly once per successful deletion, and
an individual deletion failure is recorded in the trace and the loop
continues with the remaining orphans — but deletion stops early once the
count drops below `MAX_LISTS`, so not every orphan is necessarily deleted. -/
theorem orphan_reclamation_amended :
    (∀ (ln rn : String) (desired : List String) (failIds : List Nat) (st : St)
        (cache : Cache),
        ∃ a b, (updateResources ln rn desired failIds st cache).1 = a ++ b ∧
          (∀ e ∈ a, isDeleteListEv e = true) ∧ (∀ e ∈ b, isDeleteListEv e = false)) ∧
      (∀ (failIds : List Nat) (orphans : List CFList) (cnt : Nat) (st : St),
        (orphanLoop failIds orphans cnt st).2.1 =
          cnt - ((orphanLoop failIds orphans cnt st).1.filter isOkDeleteListEv).length) ∧
      (∀ (failIds : List Nat) (l : CFList) (rest : List CFList) (cnt : Nat) (st : St),
        l.id ∈ failIds →
        orphanLoop failIds (l :: rest) cnt st =
          (Event.deleteList l.id false :: (orphanLoop failIds rest cnt st).1,
            (orphanLoop failIds rest cnt st).2)) :=
  ⟨update_resources_deletes_first, orphanLoop_count, orphanLoop_fail_continues⟩

/-- Witness for the amended C5: the failure branch applied at a concrete
orphan whose deletion fails. -/
theorem orphan_reclamation_amended_witness :
    (1 : Nat) ∈ [1] ∧
      orphanLoop [1] [⟨1, "[P] - 001", []⟩] 5 ⟨[⟨1, "[P] - 001", []⟩], [], 2⟩ =
        (Event.deleteList 1 false ::
            (orphanLoop [1] [] 5 ⟨[⟨1, "[P] - 001", []⟩], [], 2⟩).1,
          (orphanLoop [1] [] 5 ⟨[⟨1, "[P] - 001", []⟩], [], 2⟩).2) := by
  refine ⟨by decide, ?_⟩
  exact orphan_reclamation_amended.2.2 [1] ⟨1, "[P] - 001", []⟩ [] 5
    ⟨[⟨1, "[P] - 001", []⟩], [], 2⟩ (by decide)

/-- Counterexample to C5 as stated: with two orphans (no rule exists, so
both managed lists are orphaned) and the count already below `MAX_LISTS`,
the loop deletes the first orphan and breaks; the second orphan is never
deleted — yet a new list is created later in the very same pass, and the
orphan survives in the final remote state. -/
theorem orphan_reclamation_counterexample :
    Event.deleteList 2 true ∉
        (updateResources "[P]" "[P] Block Ads" ["a.com"] []
          ⟨[⟨1, "[P] - 001", []⟩, ⟨2, "[P] - 002", []⟩], [], 3⟩ ⟨[], [], []⟩).1 ∧
      Event.deleteList 2 false ∉
        (updateResources "[P]" "[P] Block Ads" ["a.com"] []
          ⟨[⟨1, "[P] - 001", []⟩, ⟨2, "[P] - 002", []⟩], [], 3⟩ ⟨[], [], []⟩).1 ∧
      Event.createList 3 "[P] - 001" ["a.com"] ∈
        (updateResources "[P]" "[P] Block Ads" ["a.com"] []
          ⟨[⟨1, "[P] - 001", []⟩, ⟨2, "[P] - 002", []⟩], [], 3⟩ ⟨[], [], []⟩).1 ∧
      ((updateResources "[P]" "[P] Block Ads" ["a.com"] []
          ⟨[⟨1, "[P] - 001", []⟩, ⟨2, "[P] - 002", []⟩], [], 3⟩
          ⟨[], [], []⟩).2.toOption.map
        (fun p => p.1.lists.any (fun l => l.id = 2))) = some true := by
  decide

/-! ## C7: teardown -/

/-- When no rule deletion fails, the rule loop deletes every rule, saving
the cache after each deletion, and the surviving rules are exactly those
whose id was not deleted. -/
theorem deleteRulesLoop_ok (failRuleIds : List Nat) :
    ∀ (rules : List CFRule) (st : St) (c : Cache),
      (∀ r ∈ rules, r.id ∉ failRuleIds) →
      ∃ st1 c1, deleteRulesLoop failRuleIds rules st c =
          (rules.flatMap (fun r => [Event.deleteRule r.id true, Event.saveCache]),
            .ok (st1, c1)) ∧
        st1.lists = st.lists ∧ st1.nextId = st.nextId ∧
        st1.rules = st.rules.filter (fun x => decide (x.id ∉ rules.map CFRule.id)) := by
  intro rules
  induction rules with
  | nil =>
    intro st c _
    refine ⟨st, c, by simp [deleteRulesLoop], rfl, rfl, ?_⟩
    symm
    rw [List.filter_eq_self]
    simp
  | cons r rest ih =>
    intro st c hok
    have hr : r.id ∉ failRuleIds := hok r (by simp)
    obtain ⟨st1, c1, heq, hl, hn, hrs⟩ := ih
      { st with rules := st.rules.filter (fun x => x.id ≠ r.id) } { c with rules := [] }
      (fun x hx => hok x (by simp [hx]))
    refine ⟨st1, c1, ?_, hl, hn, ?_⟩
    · conv_lhs => rw [deleteRulesLoop]
      rw [if_neg hr]
      dsimp only
      rw [heq]
      simp
    · rw [hrs]
      dsimp only
      rw [List.filter_filter]
      apply List.filter_congr
      intro x _
      simp only [List.map_cons, List.mem_cons]
      by_cases h1 : x.id = r.id <;> by_cases h2 : x.id ∈ rest.map CFRule.id <;>
        simp [h1, h2]

/-- When no list deletion fails, the list loop deletes every list, saving
the cache after each deletion, and the surviving lists are exactly those
whose id was not deleted. -/
theorem deleteListsLoop_ok (failListIds : List Nat) :
    ∀ (ll : List CFList) (st : St) (c : Cache),
      (∀ l ∈ ll, l.id ∉ failListIds) →
      ∃ st1 c1, deleteListsLoop failListIds ll st c =
          (ll.flatMap (fun l => [Event.deleteList l.id true, Event.saveCache]),
            .ok (st1, c1)) ∧
        st1.rules = st.rules ∧ st1.nextId = st.nextId ∧
        st1.lists = st.lists.filter (fun x => decide (x.id ∉ ll.map CFList.id)) := by
  intro ll
  induction ll with
  | nil =>
    intro st c _
    refine ⟨st, c, by simp [deleteListsLoop], rfl, rfl, ?_⟩
    symm
    rw [List.filter_eq_self]
    simp
  | cons l rest ih =>
    intro st c hok
    have hli : l.id ∉ failListIds := hok l (by simp)
    obtain ⟨st1, c1, heq, hr, hn, hls⟩ := ih (applyDeleteList st l.id)
      { c with lists := c.lists.filter (fun x => x.id ≠ l.id),
               mapping := c.mapping.filter (fun p => p.1 ≠ l.id) }
      (fun x hx => hok x (by simp [hx]))
    refine ⟨st1, c1, ?_, hr, hn, ?_⟩
    · conv_lhs => rw [deleteListsLoop]
      rw [if_neg hli]
      dsimp only
      rw [heq]
      simp
    · rw [hls]
      unfold applyDeleteList
      dsimp only
      rw [List.filter_filter]
      apply List.filter_congr
      intro x _
      simp only [List.map_cons, List.mem_cons]
      by_cases h1 : x.id = l.id <;> by_cases h2 : x.id ∈ rest.map CFList.id <;>
        simp [h1, h2]

/-- A failing `delete_list` aborts the list loop: the lists after the failing
one are never touched and the error propagates. -/
theorem deleteListsLoop_abort (failListIds : List Nat) :
    ∀ (pre : List CFList) (f : CFList) (post : List CFList) (st : St) (c : Cache),
      (∀ l ∈ pre, l.id ∉ failListIds) → f.id ∈ failListIds →
      deleteListsLoop failListIds (pre ++ f :: post) st c =
        (pre.flatMap (fun l => [Event.deleteList l.id true, Event.saveCache]) ++
            [Event.deleteList f.id false],
          .error .httpError) := by
  intro pre
  induction pre with
  | nil =>
    intro f post st c _ hf
    conv_lhs => rw [List.nil_append, deleteListsLoop]
    rw [if_pos hf]
    simp
  | cons l rest ih =>
    intro f post st c hok hf
    have hne : l.id ∉ failListIds := hok l (by simp)
    conv_lhs => rw [List.cons_append, deleteListsLoop]
    rw [if_neg hne]
    dsimp only
    rw [ih f post _ _ (fun x hx => hok x (by simp [hx])) hf]
    simp

/-- Membership is preserved by the stable insertion of the sort. -/
theorem mem_insertByKey (x y : CFList) : ∀ (ll : List CFList),
    (y ∈ insertByKey x ll ↔ y = x ∨ y ∈ ll) := by
  intro ll
  induction ll with
  | nil => simp [insertByKey]
  | cons z rest ih =>
    unfold insertByKey
    by_cases h : safeSortKey x ≤ safeSortKey z
    · rw [if_pos h]
      simp
    · rw [if_neg h]
      simp only [List.mem_cons, ih]
      tauto

/-- Membership is preserved by the sort of `delete_resources`. -/
theorem mem_sortByKey (y : CFList) : ∀ (ll : List CFList),
    (y ∈ sortByKey ll ↔ y ∈ ll) := by
  intro ll
  induction ll with
  | nil => simp [sortByKey]
  | cons z rest ih =>
    unfold sortByKey
    rw [mem_insertByKey]
    simp only [List.mem_cons, ih]

/-- C7 (amended): teardown deletes every rule matching the managed name and
then every list matching the managed prefix, persisting the cache after each
deletion (the trace alternates a successful deletion with a cache save); but
an individual deletion failure is not tolerated: it aborts the remaining
teardown, as the aborting list-loop behavior shows. -/
theorem delete_resources_amended :
    (∀ (ln rn : String) (failRuleIds failListIds : List Nat) (st : St) (cache : Cache),
        (∀ r ∈ getCurrentRules st cache rn, r.id ∉ failRuleIds) →
        (∀ l ∈ getCurrentLists st cache ln, l.id ∉ failListIds) →
        ∃ st2 c2, deleteResources ln rn failRuleIds failListIds st cache =
            ((getCurrentRules st cache rn).flatMap
                (fun r => [Event.deleteRule r.id true, Event.saveCache]) ++
              (sortByKey (getCurrentLists st cache ln)).flatMap
                (fun l => [Event.deleteList l.id true, Event.saveCache]),
              .ok (st2, c2)) ∧
          (∀ r ∈ st2.rules, strStarts rn r.name = false) ∧
          (∀ l ∈ st2.lists, strStarts ln l.name = false)) ∧
      (∀ (failListIds : List Nat) (pre : List CFList) (f : CFList) (post : List CFList)
          (st : St) (c : Cache),
        (∀ l ∈ pre, l.id ∉ failListIds) → f.id ∈ failListIds →
        deleteListsLoop failListIds (pre ++ f :: post) st c =
          (pre.flatMap (fun l => [Event.deleteList l.id true, Event.saveCache]) ++
              [Event.deleteList f.id false],
            .error .httpError)) := by
  constructor
  · intro ln rn failRuleIds failListIds st cache hr hl
    obtain ⟨st1, c1, heq1, hlists1, hnext1, hrules1⟩ :=
      deleteRulesLoop_ok failRuleIds (getCurrentRules st cache rn) st cache hr
    have hl2 : ∀ l ∈ sortByKey (getCurrentLists st cache ln), l.id ∉ failListIds := by
      intro l hlmem
      exact hl l ((mem_sortByKey l _).1 hlmem)
    obtain ⟨st2, c2, heq2, hrules2, hnext2, hlists2⟩ :=
      deleteListsLoop_ok failListIds (sortByKey (getCurrentLists st cache ln)) st1 c1 hl2
    refine ⟨st2, c2, ?_, ?_, ?_⟩
    · unfold deleteResources
      dsimp only
      rw [heq1]
      dsimp only
      rw [heq2]
    · intro r hrmem
      rw [hrules2, hrules1] at hrmem
      rw [List.mem_filter] at hrmem
      obtain ⟨hrmem, hrid⟩ := hrmem
      by_contra hmg
      have hrcur : r ∈ getCurrentRules st cache rn := by
        unfold getCurrentRules
        rw [List.mem_filter]
        exact ⟨hrmem, by simpa using hmg⟩
      have : r.id ∈ (getCurrentRules st cache rn).map CFRule.id :=
        List.mem_map_of_mem _ hrcur
      simp only [decide_eq_true_eq] at hrid
      exact hrid this
    · intro l hlmem
      rw [hlists2, hlists1] at hlmem
      rw [List.mem_filter] at hlmem
      obtain ⟨hlmem, hlid⟩ := hlmem
      by_contra hmg
      have hlcur : l ∈ sortByKey (getCurrentLists st cache ln) := by
        rw [mem_sortByKey]
        unfold getCurrentLists getLists
        rw [List.mem_filter]
        exact ⟨hlmem, by simpa using hmg⟩
      have : l.id ∈ (sortByKey (getCurrentLists st cache ln)).map CFList.id :=
        List.mem_map_of_mem _ hlcur
      simp only [decide_eq_true_eq] at hlid
      exact hlid this
  · exact deleteListsLoop_abort

/-- Witness for the amended C7: concrete teardown of one rule and two lists
with no failures. -/
theorem delete_resources_amended_witness :
    (∀ r ∈ getCurrentRules ⟨[⟨1, "[P] - 001", []⟩, ⟨2, "[P] - 002", []⟩],
        [⟨7, "[P] Block Ads", [1, 2]⟩], 8⟩ ⟨[], [], []⟩ "[P] Block Ads",
        r.id ∉ ([] : List Nat)) ∧
      (∀ l ∈ getCurrentLists ⟨[⟨1, "[P] - 001", []⟩, ⟨2, "[P] - 002", []⟩],
        [⟨7, "[P] Block Ads", [1, 2]⟩], 8⟩ ⟨[], [], []⟩ "[P]",
        l.id ∉ ([] : List Nat)) ∧
      ∃ st2 c2, deleteResources "[P]" "[P] Block Ads" [] []
          ⟨[⟨1, "[P] - 001", []⟩, ⟨2, "[P] - 002", []⟩], [⟨7, "[P] Block Ads", [1, 2]⟩], 8⟩
          ⟨[], [], []⟩ =
          ((getCurrentRules ⟨[⟨1, "[P] - 001", []⟩, ⟨2, "[P] - 002", []⟩],
              [⟨7, "[P] Block Ads", [1, 2]⟩], 8⟩ ⟨[], [], []⟩ "[P] Block Ads").flatMap
              (fun r => [Event.deleteRule r.id true, Event.saveCache]) ++
            (sortByKey (getCurrentLists ⟨[⟨1, "[P] - 001", []⟩, ⟨2, "[P] - 002", []⟩],
              [⟨7, "[P] Block Ads", [1, 2]⟩], 8⟩ ⟨[], [], []⟩ "[P]")).flatMap
              (fun l => [Event.deleteList l.id true, Event.saveCache]),
            .ok (st2, c2)) ∧
        (∀ r ∈ st2.rules, strStarts "[P] Block Ads" r.name = false) ∧
        (∀ l ∈ st2.lists, strStarts "[P]" l.name = false) := by
  refine ⟨by decide, by decide, ?_⟩
  exact delete_resources_amended.1 "[P]" "[P] Block Ads" [] [] _ _
    (by decide) (by decide)

/-- Counterexample to C7 as stated: with two managed lists and a failure on
the first list deletion, the pass aborts with an error and the second list
is never deleted (no `delete_list` call for id 2 appears in the trace), so an
individual deletion failure is not tolerated-and-continued. -/
theorem delete_resources_counterexample :
    (deleteResources "[P]" "[P] Block Ads" [] [1]
        ⟨[⟨1, "[P] - 001", []⟩, ⟨2, "[P] - 002", []⟩], [⟨7, "[P] Block Ads", [1, 2]⟩], 8⟩
        ⟨[], [], []⟩).1 =
      [Event.deleteRule 7 true, Event.saveCache, Event.deleteList 1 false] ∧
    (deleteResources "[P]" "[P] Block Ads" [] [1]
        ⟨[⟨1, "[P] - 001", []⟩, ⟨2, "[P] - 002", []⟩], [⟨7, "[P] Block Ads", [1, 2]⟩], 8⟩
        ⟨[], [], []⟩).2 = .error .httpError := by
  decide

/-! ## C8: redirect following -/

/-- Under an environment that always redirects with a usable `Location`, the
download loop consumes its whole redirect budget and fails, having issued one
request per budget unit beyond the accumulated trace. -/
theorem downloadGo_always_redirect (env : String × String → HttpResp)
    (henv : ∀ t, isRedirectStatus (env t).status = true ∧ locFalsy (env t).location = false) :
    ∀ (fuel : Nat) (url : String) (resp : HttpResp) (trace : List (String × String)),
      isRedirectStatus resp.status = true → locFalsy resp.location = false →
      (downloadGo env fuel url resp trace).2 = .error .tooManyRedirects ∧
        (downloadGo env fuel url resp trace).1.length = trace.length + fuel := by
  intro fuel
  induction fuel with
  | zero =>
    intro url resp trace hred hloc
    unfold downloadGo
    rw [if_pos hred, if_neg (by rw [hloc]; exact Bool.false_ne_true)]
    cases hl : resp.location with
    | none => rw [hl] at hloc; exact absurd hloc (by simp [locFalsy])
    | some loc => exact ⟨rfl, by simp⟩
  | succ n ih =>
    intro url resp trace hred hloc
    unfold downloadGo
    rw [if_pos hred, if_neg (by rw [hloc]; exact Bool.false_ne_true)]
    cases hl : resp.location with
    | none => rw [hl] at hloc; exact absurd hloc (by simp [locFalsy])
    | some loc =>
      dsimp only
      have h2 := ih (if (urlparse loc).netloc = "" then urljoin url loc else loc)
        (env ((urlparse (if (urlparse loc).netloc = "" then urljoin url loc else loc)).netloc,
          fullPath (urlparse (if (urlparse loc).netloc = "" then urljoin url loc else loc))))
        (trace ++ [((urlparse (if (urlparse loc).netloc = "" then urljoin url loc else loc)).netloc,
          fullPath (urlparse (if (urlparse loc).netloc = "" then urljoin url loc else loc)))])
        (henv _).1 (henv _).2
      refine ⟨h2.1, ?_⟩
      rw [h2.2]
      simp
      omega

/-- The request trace of the download loop only ever grows: whatever was
issued before is a prefix of the final trace. -/
theorem downloadGo_trace_prefix (env : String × String → HttpResp) :
    ∀ (fuel : Nat) (url : String) (resp : HttpResp) (trace : List (String × String)),
      ∃ ext, (downloadGo env fuel url resp trace).1 = trace ++ ext := by
  intro fuel
  induction fuel with
  | zero =>
    intro url resp trace
    unfold downloadGo
    by_cases hred : isRedirectStatus resp.status = true
    · rw [if_pos hred]
      by_cases hloc : locFalsy resp.location = true
      · rw [if_pos hloc]; exact ⟨[], by simp⟩
      · rw [if_neg hloc]
        cases resp.location with
        | none => exact ⟨[], by simp⟩
        | some loc => exact ⟨[], by simp⟩
    · rw [if_neg hred]; exact ⟨[], by simp⟩
  | succ n ih =>
    intro url resp trace
    unfold downloadGo
    by_cases hred : isRedirectStatus resp.status = true
    · rw [if_pos hred]
      by_cases hloc : locFalsy resp.location = true
      · rw [if_pos hloc]; exact ⟨[], by simp⟩
      · rw [if_neg hloc]
        cases resp.location with
        | none => exact ⟨[], by simp⟩
        | some loc =>
          dsimp only
          obtain ⟨ext, hext⟩ := ih (if (urlparse loc).netloc = "" then urljoin url loc else loc)
            (env ((urlparse (if (urlparse loc).netloc = "" then urljoin url loc else loc)).netloc,
              fullPath (urlparse (if (urlparse loc).netloc = "" then urljoin url loc else loc))))
            (trace ++ [((urlparse (if (urlparse loc).netloc = "" then urljoin url loc
              else loc)).netloc,
              fullPath (urlparse (if (urlparse loc).netloc = "" then urljoin url loc else loc)))])
          exact ⟨_, by rw [hext, List.append_assoc]⟩
    · rw [if_neg hred]; exact ⟨[], by simp⟩

/-- C8: 3xx responses are followed by reissuing the request against the
`Location` target: a relative `Location` (no netloc) is resolved against the
URL of the request that produced it, and the resolved target's path, query
and fragment are all preserved on the reissued request (`fullPath`);
following is capped at 10 hops, and an 11th redirect fails the download with
the fatal `tooManyRedirects` network error after exactly 11 issued requests.
-/
theorem download_file_redirects :
    (∀ (env : String × String → HttpResp) (url : String),
        (∀ t, isRedirectStatus (env t).status = true ∧ locFalsy (env t).location = false) →
        (download_file env url).2 = .error .tooManyRedirects ∧
          (download_file env url).1.length = 11) ∧
      (∀ (env : String × String → HttpResp) (url : String) (loc : String),
        isRedirectStatus (env ((urlparse url).netloc, (urlparse url).path)).status = true →
        (env ((urlparse url).netloc, (urlparse url).path)).location = some loc →
        loc ≠ "" → (urlparse loc).netloc = "" →
        (download_file env url).1.take 2 =
          [((urlparse url).netloc, (urlparse url).path),
            ((urlparse (urljoin url loc)).netloc, fullPath (urlparse (urljoin url loc)))]) := by
  constructor
  · intro env url henv
    have h := downloadGo_always_redirect env henv 10 url
      (env ((urlparse url).netloc, (urlparse url).path))
      [((urlparse url).netloc, (urlparse url).path)]
      (henv _).1 (henv _).2
    unfold download_file
    dsimp only
    exact ⟨h.1, by rw [h.2]; rfl⟩
  · intro env url loc hred hloc hne hrel
    unfold download_file
    dsimp only
    conv_lhs => rw [downloadGo]
    rw [if_pos hred, if_neg (by rw [hloc]; simp [locFalsy, hne]), hloc]
    dsimp only
    rw [if_pos hrel]
    obtain ⟨ext, hext⟩ := downloadGo_trace_prefix env 9 (urljoin url loc)
      (env ((urlparse (urljoin url loc)).netloc, fullPath (urlparse (urljoin url loc))))
      ([((urlparse url).netloc, (urlparse url).path)] ++
        [((urlparse (urljoin url loc)).netloc, fullPath (urlparse (urljoin url loc)))])
    rw [hext]
    rw [List.take_append_of_le_length (by simp)]
    simp

/-- Witness for C8: a constant-redirect environment exhausts the 10-hop
budget after 11 requests. -/
theorem download_file_redirects_witness :
    (∀ t, isRedirectStatus ((fun (_ : String × String) =>
        HttpResp.mk 302 (some "/r") "") t).status = true ∧
      locFalsy ((fun (_ : String × String) => HttpResp.mk 302 (some "/r") "") t).location
        = false) ∧
      (download_file (fun _ => HttpResp.mk 302 (some "/r") "") "http://h/p").2 =
          .error .tooManyRedirects ∧
        (download_file (fun _ => HttpResp.mk 302 (some "/r") "") "http://h/p").1.length = 11 := by
  refine ⟨fun t => ⟨rfl, rfl⟩, ?_⟩
  exact download_file_redirects.1 (fun _ => HttpResp.mk 302 (some "/r") "") "http://h/p"
    (fun t => ⟨rfl, rfl⟩)

/-! ## Name formatting and parsing lemmas -/

/-- A string is a prefix of itself extended by anything. -/
theorem listPrefixB_append (p : List Char) : ∀ s, listPrefixB p (p ++ s) = true := by
  induction p with
  | nil => intro s; rfl
  | cons a as ih => intro s; simp [listPrefixB, ih]

/-- The managed-name format starts with the managed prefix. -/
theorem strStarts_fmt (ln : String) (i : Nat) : strStarts ln (fmtListName ln i) = true := by
  unfold strStarts fmtListName
  have : (ln ++ " - " ++ pad3 i).data = ln.data ++ (" - " ++ pad3 i).data := by
    simp [String.data_append]
  rw [this]
  exact listPrefixB_append ln.data _

/-- `pad3` is injective below 1000 (at the character-data level). -/
theorem pad3_data_inj : ∀ i < 1000, ∀ j < 1000,
    (pad3 i).data = (pad3 j).data → i = j := by
  have hd : ∀ a < 10, ∀ b < 10, digitChar a = digitChar b → a = b := by decide
  intro i hi j hj h
  unfold pad3 at h
  simp only [List.cons.injEq, and_true] at h
  obtain ⟨e2, e1, e0⟩ := h
  have v2 := hd _ (Nat.mod_lt _ (by norm_num)) _ (Nat.mod_lt _ (by norm_num)) e2
  have v1 := hd _ (Nat.mod_lt _ (by norm_num)) _ (Nat.mod_lt _ (by norm_num)) e1
  have v0 := hd _ (Nat.mod_lt _ (by norm_num)) _ (Nat.mod_lt _ (by norm_num)) e0
  omega

/-- The managed-name format is injective in the index below 1000. -/
theorem fmtListName_inj (ln : String) : ∀ i < 1000, ∀ j < 1000,
    fmtListName ln i = fmtListName ln j → i = j := by
  intro i hi j hj h
  unfold fmtListName at h
  have h2 : ln.data ++ (" - ").data ++ (pad3 i).data =
      ln.data ++ (" - ").data ++ (pad3 j).data := by
    have := congrArg String.data h
    simpa [String.data_append] using this
  have h3 : (pad3 i).data = (pad3 j).data := by
    exact List.append_cancel_left h2
  exact pad3_data_inj i hi j hj h3

/-- `splitOnChar` never returns the empty list. -/
theorem splitOnChar_ne_nil (c : Char) : ∀ l, splitOnChar c l ≠ [] := by
  intro l
  cases l with
  | nil => simp [splitOnChar]
  | cons x xs =>
    unfold splitOnChar
    cases h : splitOnChar c xs with
    | nil => simp
    | cons h2 t => by_cases hx : x = c <;> simp [hx]

/-- Splitting a separator-free string yields the single token. -/
theorem splitOnChar_no_sep (c : Char) : ∀ b, (∀ x ∈ b, x ≠ c) → splitOnChar c b = [b] := by
  intro b
  induction b with
  | nil => intro _; rfl
  | cons x xs ih =>
    intro h
    unfold splitOnChar
    rw [ih (fun y hy => h y (by simp [hy]))]
    dsimp only
    rw [if_neg (h x (by simp))]

/-- A split of a string containing the separator has at least two tokens. -/
theorem splitOnChar_sep_length (c : Char) :
    ∀ (a b : List Char), 2 ≤ (splitOnChar c (a ++ c :: b)).length := by
  intro a
  induction a with
  | nil =>
    intro b
    simp only [List.nil_append]
    unfold splitOnChar
    cases h : splitOnChar c b with
    | nil => exact absurd h (splitOnChar_ne_nil c b)
    | cons h2 t => simp
  | cons x xs ih =>
    intro b
    simp only [List.cons_append]
    unfold splitOnChar
    cases h : splitOnChar c (xs ++ c :: b) with
    | nil => exact absurd h (splitOnChar_ne_nil c _)
    | cons h2 t =>
      have := ih b
      rw [h] at this
      by_cases hx : x = c
      · simp [hx]
      · simp only [hx, if_false, List.length_cons]
        simpa using this

/-- The last token of a split is everything after the last separator. -/
theorem splitOnChar_last (c : Char) :
    ∀ (a b : List Char), (∀ x ∈ b, x ≠ c) →
      (splitOnChar c (a ++ c :: b)).getLastD [] = b := by
  intro a
  induction a with
  | nil =>
    intro b hb
    simp only [List.nil_append]
    unfold splitOnChar
    rw [splitOnChar_no_sep c b hb]
    dsimp only
    rw [if_pos rfl]
    rfl
  | cons x xs ih =>
    intro b hb
    simp only [List.cons_append]
    unfold splitOnChar
    cases h : splitOnChar c (xs ++ c :: b) with
    | nil => exact absurd h (splitOnChar_ne_nil c _)
    | cons h2 t =>
      have hlen := splitOnChar_sep_length c xs b
      rw [h] at hlen
      have ht : t ≠ [] := by
        intro he
        rw [he] at hlen
        simp at hlen
      have hlast : (h2 :: t).getLastD [] = t.getLastD [] := by
        cases t with
        | nil => exact absurd rfl ht
        | cons u us => simp [List.getLastD_cons]
      have hih := ih b hb
      rw [h] at hih
      rw [hlast] at hih
      dsimp only
      by_cases hx : x = c
      · rw [if_pos hx]
        have hre : ([] :: h2 :: t).getLastD [] = (h2 :: t).getLastD [] := by
          simp [List.getLastD_cons]
        rw [hre, hlast]
        exact hih
      · rw [if_neg hx]
        have hre : ((x :: h2) :: t).getLastD [] = t.getLastD [] := by
          cases t with
          | nil => exact absurd rfl ht
          | cons u us => simp [List.getLastD_cons]
        rw [hre]
        exact hih

/-- The three characters of `pad3` are digits, with the expected values. -/
theorem pad3_digits : ∀ k < 10, isDigitCh (digitChar k) = true ∧
    digitVal (digitChar k) = k := by decide

/-- Parsing inverts formatting: `int((ln + " - " + pad3(i)).split('-')[-1])`
is `i` for any index below 1000. -/
theorem parse_fmtListName (ln : String) : ∀ i < 1000,
    parseListIndex (fmtListName ln i) = some i := by
  intro i hi
  unfold parseListIndex fmtListName
  have hdata : (ln ++ " - " ++ pad3 i).data =
      (ln.data ++ [' ']) ++ '-' :: (' ' :: (pad3 i).data) := by
    simp [String.data_append]
  rw [hdata]
  have hdigs : ∀ x ∈ (pad3 i).data, isDigitCh x = true := by
    unfold pad3
    intro x hx
    simp only [List.mem_cons, List.not_mem_nil, or_false] at hx
    rcases hx with hx | hx | hx <;>
      (subst hx; exact (pad3_digits _ (Nat.mod_lt _ (by norm_num))).1)
  have hnosep : ∀ x ∈ ' ' :: (pad3 i).data, x ≠ '-' := by
    intro x hx
    simp only [List.mem_cons] at hx
    rcases hx with hx | hx
    · subst hx; decide
    · intro he
      have := hdigs x hx
      rw [he] at this
      exact absurd this (by decide)
  rw [splitOnChar_last '-' _ _ hnosep]
  unfold pyParseNat
  have hgen : ∀ (a b c : Char), isDigitCh a = true → isDigitCh c = true →
      stripSpaces (' ' :: [a, b, c]) = [a, b, c] := by
    intro a b c ha hc
    have ha2 : a ≠ ' ' := by intro he; rw [he] at ha; exact absurd ha (by decide)
    have hc2 : c ≠ ' ' := by intro he; rw [he] at hc; exact absurd hc (by decide)
    simp [stripSpaces, ha2, hc2]
  have hstrip : stripSpaces (' ' :: (pad3 i).data) = (pad3 i).data := by
    have hdef : (pad3 i).data =
        [digitChar (i / 100 % 10), digitChar (i / 10 % 10), digitChar (i % 10)] := rfl
    rw [hdef]
    exact hgen _ _ _ (pad3_digits _ (Nat.mod_lt _ (by norm_num))).1
      (pad3_digits _ (Nat.mod_lt _ (by norm_num))).1
  rw [hstrip]
  dsimp only
  have hplus : ¬ ((pad3 i).data.head? = some '+') := by
    have h0 : isDigitCh (digitChar (i / 100 % 10)) = true :=
      (pad3_digits _ (Nat.mod_lt _ (by norm_num))).1
    have hdef : (pad3 i).data =
        [digitChar (i / 100 % 10), digitChar (i / 10 % 10), digitChar (i % 10)] := rfl
    rw [hdef]
    simp only [List.head?_cons, Option.some.injEq]
    intro he
    rw [he] at h0
    exact absurd h0 (by decide)
  rw [if_neg hplus]
  rw [if_pos (⟨by unfold pad3; simp, by
    rw [List.all_eq_true]; exact hdigs⟩ :
      (pad3 i).data ≠ [] ∧ (pad3 i).data.all isDigitCh = true)]
  congr 1
  unfold digitsToNat pad3
  simp only [List.foldl_cons, List.foldl_nil]
  have v0 := (pad3_digits (i / 100 % 10) (Nat.mod_lt _ (by norm_num))).2
  have v1 := (pad3_digits (i / 10 % 10) (Nat.mod_lt _ (by norm_num))).2
  have v2 := (pad3_digits (i % 10) (Nat.mod_lt _ (by norm_num))).2
  rw [v0, v1, v2]
  omega

/-! ## Well-formedness of the remote state and basic state lemmas -/

/-- Well-formedness of a remote state for the managed prefix `ln`: managed
lists are named in the engine's own `"<prefix> - %03d"` format with indices
in `[1, MAX_LISTS]` and are pairwise disjoint, duplicate-free and within the
1000-item bound; ids are unique and below the fresh-id counter; rules have
unique ids and names.  Every state the engine itself produces satisfies
this. -/
structure WF (ln : String) (st : St) : Prop where
  names : ∀ l ∈ st.lists, strStarts ln l.name = true →
    ∃ k, 1 ≤ k ∧ k ≤ MAX_LISTS ∧ l.name = fmtListName ln k
  namesNodup : ((getLists st ln).map CFList.name).Nodup
  idsNodup : (st.lists.map CFList.id).Nodup
  itemsNodup : ∀ l ∈ st.lists, l.items.Nodup
  itemsLen : ∀ l ∈ st.lists, l.items.length ≤ 1000
  disj : ∀ l1 ∈ st.lists, ∀ l2 ∈ st.lists, strStarts ln l1.name = true →
    strStarts ln l2.name = true → l1.id ≠ l2.id → ∀ d ∈ l1.items, d ∈ l2.items → False
  freshLists : ∀ l ∈ st.lists, l.id < st.nextId
  freshRules : ∀ r ∈ st.rules, r.id < st.nextId
  ruleIdsNodup : (st.rules.map CFRule.id).Nodup
  ruleNamesNodup : (st.rules.map CFRule.name).Nodup

/-- Consistency of the cached `mapping` with the remote state: a cached
entry for a live list holds exactly that list's items. -/
def CacheOk (st : St) (cache : Cache) : Prop :=
  ∀ l ∈ st.lists, ∀ items, cache.mapping.lookup l.id = some items → items = l.items

/-- Two members of a list with duplicate-free ids and the same id are the
same member. -/
theorem eq_of_same_id {ll : List CFList} (h : (ll.map CFList.id).Nodup)
    {l1 l2 : CFList} (h1 : l1 ∈ ll) (h2 : l2 ∈ ll) (he : l1.id = l2.id) : l1 = l2 :=
  List.inj_on_of_nodup_map h h1 h2 he

/-- With duplicate-free ids, `find?` by id finds the member itself. -/
theorem find_by_id : ∀ (ll : List CFList), (ll.map CFList.id).Nodup →
    ∀ {l : CFList}, l ∈ ll → ll.find? (fun x => x.id = l.id) = some l := by
  intro ll
  induction ll with
  | nil => intro _ l hl; simp at hl
  | cons y ys ih =>
    intro hnd l hl
    rw [List.map_cons, List.nodup_cons] at hnd
    rw [List.mem_cons] at hl
    rcases hl with hl | hl
    · subst hl
      rw [List.find?_cons_of_pos _ (by simp)]
    · have hne : ¬ (y.id = l.id) := by
        intro he
        exact hnd.1 (he ▸ List.mem_map_of_mem CFList.id hl)
      rw [List.find?_cons_of_neg _ (by simpa using hne)]
      exact ih hnd.2 hl

/-- `get_list_items` returns exactly the items of a well-formed list. -/
theorem getListItems_eq (st : St) (hids : (st.lists.map CFList.id).Nodup)
    {l : CFList} (hl : l ∈ st.lists) (hlen : l.items.length ≤ 1000) :
    getListItems st l.id = l.items := by
  unfold getListItems
  rw [find_by_id st.lists hids hl]
  simpa using List.take_of_length_le hlen

/-- The cache-assisted item read agrees with the remote items under cache
consistency. -/
theorem getListItemsCached_eq (st : St) (cache : Cache) (hc : CacheOk st cache)
    (hids : (st.lists.map CFList.id).Nodup) {l : CFList} (hl : l ∈ st.lists)
    (hlen : l.items.length ≤ 1000) :
    getListItemsCached st cache l.id = l.items := by
  unfold getListItemsCached
  cases hm : cache.mapping.lookup l.id with
  | some items => exact hc l hl items hm
  | none => exact getListItems_eq st hids hl hlen

/-- A name that belongs to no list is absent from `list_name_to_id`. -/
theorem lookup_nameMap_none {nm : String} : ∀ {L0 : List CFList},
    (∀ l ∈ L0, l.name ≠ nm) → (L0.map (fun l => (l.name, l.id))).lookup nm = none := by
  intro L0
  induction L0 with
  | nil => intro _; rfl
  | cons y ys ih =>
    intro h
    rw [List.map_cons, List.lookup_cons]
    have hbeq : (nm == y.name) = false :=
      beq_eq_false_iff_ne.2 (fun he => (h y (by simp)) he.symm)
    rw [hbeq]
    exact ih (fun l hl => h l (by simp [hl]))

/-- A successful `list_name_to_id` lookup names an actual current list. -/
theorem lookup_nameMap_some {nm : String} {lid : Nat} : ∀ {L0 : List CFList},
    (L0.map (fun l => (l.name, l.id))).lookup nm = some lid →
    ∃ l ∈ L0, l.name = nm ∧ l.id = lid := by
  intro L0
  induction L0 with
  | nil => intro h; simp [List.lookup] at h
  | cons y ys ih =>
    intro h
    rw [List.map_cons, List.lookup_cons] at h
    by_cases he : nm = y.name
    · rw [show (nm == y.name) = true from beq_iff_eq.2 he] at h
      exact ⟨y, by simp, he.symm, by
        have := h.symm
        simpa using this.symm⟩
    · rw [show (nm == y.name) = false from beq_eq_false_iff_ne.2 he] at h
      obtain ⟨l, hl, h1, h2⟩ := ih h
      exact ⟨l, by simp [hl], h1, h2⟩

/-- `list_name_to_id` finds each current list by its name. -/
theorem lookup_nameMap_of_mem : ∀ {L0 : List CFList},
    (L0.map CFList.name).Nodup → ∀ {l : CFList}, l ∈ L0 →
    (L0.map (fun l => (l.name, l.id))).lookup l.name = some l.id := by
  intro L0
  induction L0 with
  | nil => intro _ l hl; simp at hl
  | cons y ys ih =>
    intro hnd l hl
    rw [List.map_cons, List.nodup_cons] at hnd
    rw [List.mem_cons] at hl
    rw [List.map_cons, List.lookup_cons]
    rcases hl with hl | hl
    · subst hl
      rw [show (l.name == l.name) = true from beq_iff_eq.2 rfl]
    · have hne : l.name ≠ y.name := by
        intro he
        exact hnd.1 (he ▸ List.mem_map_of_mem CFList.name hl)
      rw [show (l.name == y.name) = false from beq_eq_false_iff_ne.2 hne]
      exact ih hnd.2 hl

/-- The cache-mapping update stores the new entry. -/
theorem lookup_setMapping_self : ∀ (m : List (Nat × List String)) (lid : Nat)
    (items : List String), (setMapping m lid items).lookup lid = some items := by
  intro m
  induction m with
  | nil =>
    intro lid items
    simp only [setMapping, List.filter_nil, List.nil_append, List.lookup_cons]
    rw [show (lid == lid) = true from beq_iff_eq.2 rfl]
  | cons p rest ih =>
    intro lid items
    unfold setMapping
    rw [List.filter_cons]
    by_cases hp : p.1 = lid
    · rw [if_neg (by simpa using hp)]
      exact ih lid items
    · rw [if_pos (by simpa using hp)]
      rw [List.cons_append, List.lookup_cons]
      rw [show (lid == p.1) = false from beq_eq_false_iff_ne.2 (fun h => hp h.symm)]
      exact ih lid items

/-- The cache-mapping update leaves other keys unchanged. -/
theorem lookup_setMapping_other : ∀ (m : List (Nat × List String)) (lid k : Nat)
    (items : List String), k ≠ lid →
      (setMapping m lid items).lookup k = m.lookup k := by
  intro m
  induction m with
  | nil =>
    intro lid k items hk
    simp only [setMapping, List.filter_nil, List.nil_append, List.lookup_cons,
      List.lookup_nil]
    rw [show (k == lid) = false from beq_eq_false_iff_ne.2 hk]
  | cons p rest ih =>
    intro lid k items hk
    unfold setMapping
    rw [List.filter_cons]
    by_cases hp : p.1 = lid
    · rw [if_neg (by simpa using hp)]
      have hrec := ih lid k items hk
      unfold setMapping at hrec
      rw [hrec, List.lookup_cons]
      rw [show (k == p.1) = false from
        beq_eq_false_iff_ne.2 (fun he => hk (he.trans hp))]
    · rw [if_pos (by simpa using hp)]
      rw [List.cons_append, List.lookup_cons, List.lookup_cons]
      by_cases hkp : k = p.1
      · rw [show (k == p.1) = true from beq_iff_eq.2 hkp]
      · rw [show (k == p.1) = false from beq_eq_false_iff_ne.2 hkp]
        have hrec := ih lid k items hk
        unfold setMapping at hrec
        rw [hrec]

/-- Well-formedness transports along a state whose lists are a sublist and
whose rules and counter are unchanged. -/
theorem WF_of_sublist {ln : String} {st st2 : St} (hwf : WF ln st)
    (h : st2.lists.Sublist st.lists) (hr : st2.rules = st.rules)
    (hn : st2.nextId = st.nextId) : WF ln st2 := by
  have hsub : ∀ {l : CFList}, l ∈ st2.lists → l ∈ st.lists := fun hl => h.subset hl
  refine ⟨?_, ?_, ?_, ?_, ?_, ?_, ?_, ?_, ?_, ?_⟩
  · intro l hl hs; exact hwf.names l (hsub hl) hs
  · exact List.Nodup.sublist ((h.filter _).map CFList.name) hwf.namesNodup
  · exact List.Nodup.sublist (h.map CFList.id) hwf.idsNodup
  · intro l hl; exact hwf.itemsNodup l (hsub hl)
  · intro l hl; exact hwf.itemsLen l (hsub hl)
  · intro l1 h1 l2 h2 hs1 hs2 hne d hd1 hd2
    exact hwf.disj l1 (hsub h1) l2 (hsub h2) hs1 hs2 hne d hd1 hd2
  · intro l hl; rw [hn]; exact hwf.freshLists l (hsub hl)
  · intro r hrr; rw [hn]; exact hwf.freshRules r (hr ▸ hrr)
  · rw [hr]; exact hwf.ruleIdsNodup
  · rw [hr]; exact hwf.ruleNamesNodup

/-- Orphan deletion only removes lists: the surviving lists are a sublist
and rules and counter are untouched. -/
theorem orphanLoop_st (failIds : List Nat) : ∀ (orphans : List CFList) (cnt : Nat)
    (st : St),
    (orphanLoop failIds orphans cnt st).2.2.lists.Sublist st.lists ∧
      (orphanLoop failIds orphans cnt st).2.2.rules = st.rules ∧
      (orphanLoop failIds orphans cnt st).2.2.nextId = st.nextId := by
  intro orphans
  induction orphans with
  | nil => intro cnt st; exact ⟨List.Sublist.refl _, rfl, rfl⟩
  | cons l rest ih =>
    intro cnt st
    unfold orphanLoop
    by_cases hf : l.id ∈ failIds
    · rw [if_pos hf]
      exact ih cnt st
    · rw [if_neg hf]
      by_cases hc : cnt - 1 < MAX_LISTS
      · rw [if_pos hc]
        exact ⟨List.filter_sublist _, rfl, rfl⟩
      · rw [if_neg hc]
        obtain ⟨h1, h2, h3⟩ := ih (cnt - 1) (applyDeleteList st l.id)
        exact ⟨h1.trans (List.filter_sublist _), h2, h3⟩

/-- Cache consistency transports to a state with a sublist of the lists. -/
theorem CacheOk_of_sublist {st st2 : St} {cache : Cache} (hc : CacheOk st cache)
    (h : st2.lists.Sublist st.lists) : CacheOk st2 cache :=
  fun l hl items hm => hc l (h.subset hl) items hm

/-! ## The index-loop invariant -/

/-- Ambient context of one run of the index loop: the post-reclamation state
`st1` is well-formed, `L0` is its managed inventory, `nameMap` is
`list_name_to_id`, and `R0` is the initial `remaining_domains` — made of
desired domains that sit in no current managed list. -/
structure Ctx (ln : String) (desired : List String) (st1 : St) (L0 : List CFList)
    (nameMap : List (String × Nat)) (R0 : List String) : Prop where
  wf : WF ln st1
  dNodup : desired.Nodup
  hL0 : L0 = getLists st1 ln
  hmap : nameMap = L0.map (fun l => (l.name, l.id))
  hR0nodup : R0.Nodup
  hR0desired : ∀ d ∈ R0, d ∈ desired
  hR0disj : ∀ d ∈ R0, ∀ l ∈ L0, d ∉ l.items

/-- The invariant carried over the processed prefix `done` of the index
range. -/
structure Inv (ln : String) (desired : List String) (st1 : St) (L0 : List CFList)
    (R0 : List String) (done : List Nat) (ls : LoopSt) : Prop where
  remNodup : ls.remaining.Nodup
  remSub : ∀ d ∈ ls.remaining, d ∈ R0
  remUnplaced : ∀ d ∈ ls.remaining, ∀ l ∈ ls.st.lists, l.id ∈ ls.newIds → d ∉ l.items
  placedGood : ∀ l ∈ ls.st.lists, l.id ∈ ls.newIds →
    l.items.Nodup ∧ l.items.length ≤ 1000 ∧ ∀ d ∈ l.items, d ∈ desired
  untouched : ∀ l ∈ st1.lists, l.name ∉ done.map (fmtListName ln) → l ∈ ls.st.lists
  idsNodup : (ls.st.lists.map CFList.id).Nodup
  fresh : ∀ l ∈ ls.st.lists, l.id < ls.st.nextId
  nextMono : st1.nextId ≤ ls.st.nextId
  origin : ∀ l ∈ ls.st.lists,
    (∃ l0 ∈ st1.lists, l0.id = l.id ∧ l0.name = l.name) ∨
    (st1.nextId ≤ l.id ∧ l.id ∈ ls.newIds ∧
      (∃ i ∈ done, l.name = fmtListName ln i) ∧ ∀ l0 ∈ L0, l0.name ≠ l.name)
  mNames : ∀ l ∈ ls.st.lists, strStarts ln l.name = true →
    ∃ k, 1 ≤ k ∧ k ≤ MAX_LISTS ∧ l.name = fmtListName ln k
  mNamesNodup : ((getLists ls.st ln).map CFList.name).Nodup
  newNames : ∀ lid ∈ ls.newIds, ∃ l ∈ ls.st.lists, l.id = lid ∧
    ∃ i ∈ done, l.name = fmtListName ln i
  newIdsNodup : ls.newIds.Nodup
  newIdsLen : ls.newIds.length ≤ done.length
  processed : ∀ l ∈ L0, l.name ∈ done.map (fmtListName ln) →
    l.id ∈ ls.newIds ∧ ∃ l2 ∈ ls.st.lists, l2.id = l.id ∧
      ∀ d ∈ l.items, d ∈ desired → d ∈ l2.items
  r0Cover : ∀ d ∈ R0, d ∈ ls.remaining ∨
    ∃ l ∈ ls.st.lists, l.id ∈ ls.newIds ∧ d ∈ l.items
  cnt : ls.remaining ≠ [] →
    (∀ l ∈ ls.st.lists, l.id ∈ ls.newIds → l.items.length = 1000) ∧
    ls.newIds.length = done.length
  pairDisj : ∀ l1 ∈ ls.st.lists, ∀ l2 ∈ ls.st.lists, l1.id ∈ ls.newIds →
    l2.id ∈ ls.newIds → l1.id ≠ l2.id → ∀ d ∈ l1.items, d ∈ l2.items → False
  newDisj : ∀ l ∈ ls.st.lists, l.id ∈ ls.newIds → ∀ l0 ∈ L0,
    l0.name ∉ done.map (fmtListName ln) → ∀ d ∈ l.items, d ∈ l0.items → False
  rulesEq : ls.st.rules = st1.rules
  cacheOk : ∀ l ∈ ls.st.lists, ∀ items, ls.cache.mapping.lookup l.id = some items →
    items = l.items

/-- Filtering by a name predicate commutes with a name-preserving map, at
the level of the name image. -/
theorem names_filter_map (ln : String) (f : CFList → CFList)
    (hf : ∀ l, (f l).name = l.name) :
    ∀ ll : List CFList,
      ((ll.map f).filter (fun l => strStarts ln l.name)).map CFList.name =
        (ll.filter (fun l => strStarts ln l.name)).map CFList.name := by
  intro ll
  induction ll with
  | nil => rfl
  | cons x xs ih =>
    rw [List.map_cons, List.filter_cons, List.filter_cons, hf]
    by_cases hx : strStarts ln x.name = true
    · rw [if_pos hx, if_pos hx, List.map_cons, List.map_cons, hf, ih]
    · rw [if_neg (by simpa using hx), if_neg (by simpa using hx), ih]

/-- Filtering with a vacuous exclusion changes nothing. -/
theorem filter_not_mem_nil (l : List String) :
    l.filter (fun d => decide (d ∉ ([] : List String))) = l := by
  rw [List.filter_eq_self]
  intro a _
  simp

/-- One step of the index loop at an index occupied by an existing list
re-establishes the invariant: the kept chunk is topped up from
`remaining_domains`, the list is updated (or skipped when there is nothing
to do) and its id is recorded in `new_list_ids`. -/
theorem processIndex_inv_some {ln : String} {desired : List String} {st1 : St}
    {L0 : List CFList} {nameMap : List (String × Nat)} {R0 : List String}
    (ctx : Ctx ln desired st1 L0 nameMap R0)
    (i : Nat) (_hi1 : 1 ≤ i) (hi2 : i ≤ MAX_LISTS)
    (done : List Nat) (hdone : i ∉ done) (hdoneB : ∀ j ∈ done, j ≤ MAX_LISTS)
    (ls : LoopSt) (hinv : Inv ln desired st1 L0 R0 done ls)
    (lid : Nat) (hl : nameMap.lookup (fmtListName ln i) = some lid) :
    ∃ ev ls1, processIndex desired nameMap ln i ls = (ev, .ok ls1) ∧
      Inv ln desired st1 L0 R0 (done ++ [i]) ls1 := by
  have hl2 : (L0.map (fun l => (l.name, l.id))).lookup (fmtListName ln i) = some lid := by
    rw [← ctx.hmap]; exact hl
  obtain ⟨l0, hl0L0, hl0name, hl0id⟩ := lookup_nameMap_some hl2
  have hl0L0f := hl0L0
  rw [ctx.hL0] at hl0L0f
  unfold getLists at hl0L0f
  have hl0st1 : l0 ∈ st1.lists := List.mem_of_mem_filter hl0L0f
  have hl0managed : strStarts ln l0.name = true := by
    have hx := List.of_mem_filter hl0L0f
    simpa using hx
  have hiB : i < 1000 := by
    have : MAX_LISTS = 298 := rfl
    omega
  have hfmtnotdone : l0.name ∉ done.map (fmtListName ln) := by
    rw [hl0name]
    intro hmem
    rw [List.mem_map] at hmem
    obtain ⟨j, hj, hje⟩ := hmem
    have hjB : j < 1000 := by
      have h1 := hdoneB j hj
      have : MAX_LISTS = 298 := rfl
      omega
    have : j = i := fmtListName_inj ln j hjB i hiB hje
    exact hdone (this ▸ hj)
  have hl0cur : l0 ∈ ls.st.lists := hinv.untouched l0 hl0st1 hfmtnotdone
  have hlidnot : lid ∉ ls.newIds := by
    intro hmem
    obtain ⟨l2, hl2mem, hl2id, j, hj, hjname⟩ := hinv.newNames lid hmem
    have hjB : j < 1000 := by
      have h1 := hdoneB j hj
      have : MAX_LISTS = 298 := rfl
      omega
    have he : l2 = l0 := eq_of_same_id hinv.idsNodup hl2mem hl0cur (by rw [hl2id, hl0id])
    have : j = i := fmtListName_inj ln j hjB i hiB (by rw [← hjname, he, hl0name])
    exact hdone (this ▸ hj)
  have hitems : getListItems ls.st lid = l0.items := by
    rw [← hl0id]
    exact getListItems_eq ls.st hinv.idsNodup hl0cur (ctx.wf.itemsLen l0 hl0st1)
  have hitemsNodup : l0.items.Nodup := ctx.wf.itemsNodup l0 hl0st1
  have hitemsLen : l0.items.length ≤ 1000 := ctx.wf.itemsLen l0 hl0st1
  have hdedup : (getListItems ls.st lid).dedup = l0.items := by
    rw [hitems]; exact List.dedup_eq_self.2 hitemsNodup
  unfold processIndex
  dsimp only
  rw [hl]
  dsimp only
  rw [hdedup]
  set removeItems := l0.items.filter (fun d => decide (d ∉ desired)) with hrI
  set chunk := l0.items.filter (fun d => decide (d ∈ desired)) with hcI
  set newItems := topUpNew ls.remaining chunk with hnI
  set remaining1 := ls.remaining.filter (fun d => decide (d ∉ newItems)) with hrem1
  have hchunkNodup : chunk.Nodup := hitemsNodup.filter _
  have hchunkSub : ∀ d ∈ chunk, d ∈ l0.items := fun d hd => List.mem_of_mem_filter hd
  have hchunkDes : ∀ d ∈ chunk, d ∈ desired := by
    intro d hd
    have := List.of_mem_filter hd
    simpa using this
  have hchunkMem : ∀ d ∈ l0.items, d ∈ desired → d ∈ chunk := by
    intro d hd hdes
    rw [hcI, List.mem_filter]
    exact ⟨hd, by simpa using hdes⟩
  have hchunkLen : chunk.length ≤ 1000 :=
    le_trans (List.length_filter_le _ _) hitemsLen
  have hremdisj : ∀ d ∈ ls.remaining, d ∉ l0.items := fun d hd =>
    ctx.hR0disj d (hinv.remSub d hd) l0 hl0L0
  have hnewSub : ∀ d ∈ newItems, d ∈ ls.remaining := by
    intro d hd
    rw [hnI] at hd
    unfold topUpNew at hd
    by_cases hcl : chunk.length < 1000
    · rw [if_pos hcl] at hd; exact List.take_subset _ _ hd
    · rw [if_neg hcl] at hd; simp at hd
  have hnewNodup : newItems.Nodup := by
    rw [hnI]; unfold topUpNew
    split
    · exact hinv.remNodup.sublist (List.take_sublist _ _)
    · exact List.nodup_nil
  have hnewChunkDisj : ∀ d ∈ newItems, d ∉ chunk := fun d hd hc =>
    hremdisj d (hnewSub d hd) (hchunkSub d hc)
  have hfilterNew : newItems.filter (fun d => decide (d ∉ chunk)) = newItems := by
    rw [List.filter_eq_self]
    intro a ha
    simpa using hnewChunkDisj a ha
  have hrem1Nodup : remaining1.Nodup := hinv.remNodup.filter _
  have hrem1Sub : ∀ d ∈ remaining1, d ∈ ls.remaining := fun d hd =>
    List.mem_of_mem_filter hd
  have hrem1NotNew : ∀ d ∈ remaining1, d ∉ newItems := by
    intro d hd
    have := List.of_mem_filter hd
    simpa using this
  have hremSplit : ∀ d ∈ ls.remaining, d ∈ remaining1 ∨ d ∈ newItems := by
    intro d hd
    by_cases hn : d ∈ newItems
    · right; exact hn
    · left
      rw [hrem1, List.mem_filter]
      exact ⟨hd, by simpa using hn⟩
  have hrem1ne : remaining1 ≠ [] → ls.remaining ≠ [] := by
    intro hne h0
    apply hne
    rw [hrem1, h0]
    rfl
  have hlen1000 : chunk.length + newItems.length ≤ 1000 := by
    rw [hnI]; unfold topUpNew
    by_cases hcl : chunk.length < 1000
    · rw [if_pos hcl, List.length_take]; omega
    · rw [if_neg hcl]; simpa using hchunkLen
  have hfull : remaining1 ≠ [] → chunk.length + newItems.length = 1000 := by
    intro hne
    rw [hnI]; unfold topUpNew
    by_cases hcl : chunk.length < 1000
    · rw [if_pos hcl, List.length_take]
      by_cases hge : 1000 - chunk.length ≤ ls.remaining.length
      · rw [min_eq_left hge]; omega
      · exfalso
        push_neg at hge
        have htake : newItems = ls.remaining := by
          rw [hnI]; unfold topUpNew
          rw [if_pos hcl]
          exact List.take_of_length_le (by omega)
        apply hne
        rw [hrem1, List.filter_eq_nil_iff]
        intro a ha
        rw [← htake] at ha
        simpa using ha
    · rw [if_neg hcl]
      simp only [List.length_nil]
      omega
  have hmemNew : ∀ x, x ∈ ls.newIds ++ [lid] ↔ x ∈ ls.newIds ∨ x = lid := by
    intro x; simp
  by_cases hskip : (removeItems.isEmpty && newItems.isEmpty) = true
  · rw [if_pos hskip]
    rw [Bool.and_eq_true, List.isEmpty_iff, List.isEmpty_iff] at hskip
    obtain ⟨hrEmpty, hnEmpty⟩ := hskip
    have hr1 : remaining1 = ls.remaining := by
      rw [hrem1, hnEmpty]
      exact filter_not_mem_nil _
    have hsubdes : ∀ d ∈ l0.items, d ∈ desired := by
      intro d hd
      by_contra hnd
      have : d ∈ removeItems := by
        rw [hrI, List.mem_filter]
        exact ⟨hd, by simpa using hnd⟩
      rw [hrEmpty] at this
      exact absurd this (List.not_mem_nil d)
    have hchunkeq : chunk = l0.items := by
      rw [hcI, List.filter_eq_self]
      intro a ha
      simpa using hsubdes a ha
    refine ⟨[], _, rfl, ?_⟩
    refine ⟨hrem1Nodup, ?_, ?_, ?_, ?_, hinv.idsNodup, hinv.fresh, hinv.nextMono, ?_,
      hinv.mNames, hinv.mNamesNodup, ?_, ?_, ?_, ?_, ?_, ?_, ?_, ?_, hinv.rulesEq,
      hinv.cacheOk⟩
    · intro d hd; exact hinv.remSub d (hrem1Sub d hd)
    · intro d hd l hlmem hlid2
      rw [hmemNew] at hlid2
      rcases hlid2 with hold | hnew
      · exact hinv.remUnplaced d (hrem1Sub d hd) l hlmem hold
      · have he : l = l0 := eq_of_same_id hinv.idsNodup hlmem hl0cur (by rw [hnew, hl0id])
        subst he
        exact hremdisj d (hrem1Sub d hd)
    · intro l hlmem hlid2
      rw [hmemNew] at hlid2
      rcases hlid2 with hold | hnew
      · exact hinv.placedGood l hlmem hold
      · have he : l = l0 := eq_of_same_id hinv.idsNodup hlmem hl0cur (by rw [hnew, hl0id])
        subst he
        exact ⟨hitemsNodup, hitemsLen, hsubdes⟩
    · intro l hlst1 hname
      apply hinv.untouched l hlst1
      intro hmem
      exact hname (by rw [List.map_append]; exact List.mem_append_left _ hmem)
    · intro l hlmem
      rcases hinv.origin l hlmem with h | ⟨h1, h2, ⟨j, hj, hjn⟩, h4⟩
      · exact Or.inl h
      · exact Or.inr ⟨h1, by rw [hmemNew]; exact Or.inl h2, ⟨j, by simp [hj], hjn⟩, h4⟩
    · intro lid2 hmem
      rw [hmemNew] at hmem
      rcases hmem with hold | hnew
      · obtain ⟨l, hl3, hid3, j, hj, hjn⟩ := hinv.newNames lid2 hold
        exact ⟨l, hl3, hid3, j, by simp [hj], hjn⟩
      · subst hnew
        exact ⟨l0, hl0cur, hl0id, i, by simp, hl0name⟩
    · rw [List.nodup_append]
      refine ⟨hinv.newIdsNodup, List.nodup_singleton lid, ?_⟩
      intro a ha hb
      rw [List.mem_singleton] at hb
      subst hb
      exact hlidnot ha
    · simp only [List.length_append, List.length_singleton]
      have := hinv.newIdsLen
      omega
    · intro l hlL0 hname
      rw [List.map_append, List.mem_append] at hname
      rcases hname with hold | hfmt
      · obtain ⟨hid, l2, hl2mem, hl2id, hsub2⟩ := hinv.processed l hlL0 hold
        exact ⟨by rw [hmemNew]; exact Or.inl hid, l2, hl2mem, hl2id, hsub2⟩
      · simp only [List.map_cons, List.map_nil, List.mem_singleton] at hfmt
        have hnamesN : (L0.map CFList.name).Nodup := by
          rw [ctx.hL0]; exact ctx.wf.namesNodup
        have he : l = l0 :=
          List.inj_on_of_nodup_map hnamesN hlL0 hl0L0 (by rw [hfmt, hl0name])
        subst he
        exact ⟨by rw [hmemNew]; exact Or.inr hl0id, l, hl0cur, rfl, fun d hd _ => hd⟩
    · intro d hd
      rcases hinv.r0Cover d hd with hdr | ⟨l, hl3, hid3, hd3⟩
      · left
        rw [hr1]
        exact hdr
      · right
        exact ⟨l, hl3, by rw [hmemNew]; exact Or.inl hid3, hd3⟩
    · intro hne
      have hremne := hrem1ne hne
      obtain ⟨hfullOld, hcountOld⟩ := hinv.cnt hremne
      constructor
      · intro l hlmem hlid2
        rw [hmemNew] at hlid2
        rcases hlid2 with hold | hnew
        · exact hfullOld l hlmem hold
        · have he : l = l0 := eq_of_same_id hinv.idsNodup hlmem hl0cur (by rw [hnew, hl0id])
          subst he
          have h1000 := hfull hne
          rw [hnEmpty] at h1000
          simp only [List.length_nil, Nat.add_zero] at h1000
          rw [← hchunkeq]
          exact h1000
      · simp only [List.length_append, List.length_singleton]
        omega
    · intro l1 h1 l2 h2 hid1 hid2 hne d hd1 hd2
      rw [hmemNew] at hid1 hid2
      rcases hid1 with h1o | h1n <;> rcases hid2 with h2o | h2n
      · exact hinv.pairDisj l1 h1 l2 h2 h1o h2o hne d hd1 hd2
      · have he2 : l2 = l0 := eq_of_same_id hinv.idsNodup h2 hl0cur (by rw [h2n, hl0id])
        subst he2
        exact hinv.newDisj l1 h1 h1o l2 hl0L0 hfmtnotdone d hd1 hd2
      · have he1 : l1 = l0 := eq_of_same_id hinv.idsNodup h1 hl0cur (by rw [h1n, hl0id])
        subst he1
        exact hinv.newDisj l2 h2 h2o l1 hl0L0 hfmtnotdone d hd2 hd1
      · exact hne (by rw [h1n, h2n])
    · intro l hlmem hid l0b hl0b hnameb d hd hd0b
      rw [List.map_append, List.mem_append] at hnameb
      push_neg at hnameb
      rw [hmemNew] at hid
      rcases hid with hold | hnew
      · exact hinv.newDisj l hlmem hold l0b hl0b hnameb.1 d hd hd0b
      · have he : l = l0 := eq_of_same_id hinv.idsNodup hlmem hl0cur (by rw [hnew, hl0id])
        subst he
        have hl0bf := hl0b
        rw [ctx.hL0] at hl0bf
        unfold getLists at hl0bf
        have hl0bst1 : l0b ∈ st1.lists := List.mem_of_mem_filter hl0bf
        have hl0bmanaged : strStarts ln l0b.name = true := by
          have hx := List.of_mem_filter hl0bf
          simpa using hx
        have hnameNe : l0b.name ≠ l.name := by
          rw [hl0name]
          intro he2
          apply hnameb.2
          simp [he2]
        have hidne : l.id ≠ l0b.id := by
          intro he2
          have : l = l0b := eq_of_same_id ctx.wf.idsNodup hl0st1 hl0bst1 he2
          exact hnameNe (by rw [this])
        exact ctx.wf.disj l hl0st1 l0b hl0bst1 hl0managed hl0bmanaged hidne d hd hd0b
  · rw [if_neg hskip]
    set st2 := applyUpdateList ls.st lid removeItems newItems with hst2
    set l0x : CFList := ⟨l0.id, l0.name, chunk ++ newItems⟩ with hl0xdef
    have hfil : l0.items.filter (fun d => decide (d ∉ removeItems)) = chunk := by
      rw [hcI]
      apply List.filter_congr
      intro d hd
      simp only [decide_eq_decide]
      constructor
      · intro hnr
        by_contra hnd
        apply hnr
        rw [hrI, List.mem_filter]
        exact ⟨hd, by simpa using hnd⟩
      · intro hdes hr
        rw [hrI] at hr
        have hx := List.of_mem_filter hr
        simp only [decide_eq_true_eq] at hx
        exact hx hdes
    have hupdval : (fun l => if l.id = lid then
        { l with items := l.items.filter (fun d => decide (d ∉ removeItems)) ++ newItems }
        else l) l0 = l0x := by
      dsimp only
      rw [if_pos hl0id, hfil, hl0xdef]
    have hl0xmem : l0x ∈ st2.lists := by
      rw [hst2]
      unfold applyUpdateList
      dsimp only
      rw [List.mem_map]
      exact ⟨l0, hl0cur, hupdval⟩
    have hmem2 : ∀ l', l' ∈ st2.lists → (l' = l0x ∨ (l' ∈ ls.st.lists ∧ l'.id ≠ lid)) := by
      intro l' hl'
      rw [hst2] at hl'
      unfold applyUpdateList at hl'
      dsimp only at hl'
      rw [List.mem_map] at hl'
      obtain ⟨l, hlmem, hle⟩ := hl'
      by_cases hid : l.id = lid
      · left
        have he : l = l0 := eq_of_same_id hinv.idsNodup hlmem hl0cur (by rw [hid, hl0id])
        subst he
        rw [← hle, ← hupdval]
      · right
        rw [if_neg hid] at hle
        rw [← hle]
        exact ⟨hlmem, hid⟩
    have hmem2r : ∀ l ∈ ls.st.lists, l.id ≠ lid → l ∈ st2.lists := by
      intro l hlmem hid
      rw [hst2]
      unfold applyUpdateList
      dsimp only
      rw [List.mem_map]
      exact ⟨l, hlmem, by rw [if_neg hid]⟩
    have hids2 : st2.lists.map CFList.id = ls.st.lists.map CFList.id := by
      rw [hst2]
      unfold applyUpdateList
      dsimp only
      rw [List.map_map]
      apply List.map_congr_left
      intro l _
      simp only [Function.comp_apply]
      split <;> rfl
    have hnames2 : ((getLists st2 ln).map CFList.name) =
        ((getLists ls.st ln).map CFList.name) := by
      rw [hst2]
      unfold applyUpdateList getLists
      dsimp only
      exact names_filter_map ln _ (fun l => by by_cases h : l.id = lid <;> simp [h])
        ls.st.lists
    have hnext2 : st2.nextId = ls.st.nextId := rfl
    have hrules2 : st2.rules = ls.st.rules := rfl
    have hl0xNodup : l0x.items.Nodup := by
      rw [hl0xdef]
      dsimp only
      rw [List.nodup_append]
      exact ⟨hchunkNodup, hnewNodup, fun a ha hb => hnewChunkDisj a hb ha⟩
    have hl0xLen : l0x.items.length ≤ 1000 := by
      rw [hl0xdef]
      dsimp only
      rw [List.length_append]
      exact hlen1000
    have hl0xDes : ∀ d ∈ l0x.items, d ∈ desired := by
      rw [hl0xdef]
      dsimp only
      intro d hd
      rw [List.mem_append] at hd
      rcases hd with hd | hd
      · exact hchunkDes d hd
      · exact ctx.hR0desired d (hinv.remSub d (hnewSub d hd))
    refine ⟨_, _, rfl, ?_⟩
    refine ⟨hrem1Nodup, ?_, ?_, ?_, ?_, ?_, ?_, ?_, ?_, ?_, ?_, ?_, ?_, ?_, ?_, ?_, ?_,
      ?_, ?_, ?_, ?_⟩
    · intro d hd; exact hinv.remSub d (hrem1Sub d hd)
    · intro d hd l hlmem hlid2
      rcases hmem2 l hlmem with he | ⟨hlold, hlne⟩
      · subst he
        rw [hl0xdef]
        dsimp only
        rw [List.mem_append]
        rintro (hc | hn)
        · exact hremdisj d (hrem1Sub d hd) (hchunkSub d hc)
        · exact hrem1NotNew d hd hn
      · rw [hmemNew] at hlid2
        rcases hlid2 with hold | hnew
        · exact hinv.remUnplaced d (hrem1Sub d hd) l hlold hold
        · exact absurd hnew hlne
    · intro l hlmem hlid2
      rcases hmem2 l hlmem with he | ⟨hlold, hlne⟩
      · subst he
        exact ⟨hl0xNodup, hl0xLen, hl0xDes⟩
      · rw [hmemNew] at hlid2
        rcases hlid2 with hold | hnew
        · exact hinv.placedGood l hlold hold
        · exact absurd hnew hlne
    · intro l hlst1 hname
      rw [List.map_append, List.mem_append] at hname
      push_neg at hname
      have hlold : l ∈ ls.st.lists := hinv.untouched l hlst1 hname.1
      apply hmem2r l hlold
      intro hid
      have he : l = l0 := eq_of_same_id hinv.idsNodup hlold hl0cur (by rw [hid, hl0id])
      apply hname.2
      rw [he, hl0name]
      simp
    · rw [hids2]
      exact hinv.idsNodup
    · intro l hlmem
      rw [hnext2]
      rcases hmem2 l hlmem with he | ⟨hlold, _⟩
      · subst he
        rw [hl0xdef]
        exact hinv.fresh l0 hl0cur
      · exact hinv.fresh l hlold
    · rw [hnext2]
      exact hinv.nextMono
    · intro l hlmem
      rcases hmem2 l hlmem with he | ⟨hlold, _⟩
      · subst he
        exact Or.inl ⟨l0, hl0st1, rfl, rfl⟩
      · rcases hinv.origin l hlold with h | ⟨h1, h2, ⟨j, hj, hjn⟩, h4⟩
        · exact Or.inl h
        · exact Or.inr ⟨h1, by rw [hmemNew]; exact Or.inl h2, ⟨j, by simp [hj], hjn⟩, h4⟩
    · intro l hlmem hs
      rcases hmem2 l hlmem with he | ⟨hlold, _⟩
      · subst he
        exact hinv.mNames l0 hl0cur hl0managed
      · exact hinv.mNames l hlold hs
    · rw [hnames2]
      exact hinv.mNamesNodup
    · intro lid2 hmem
      rw [hmemNew] at hmem
      rcases hmem with hold | hnew
      · obtain ⟨l, hl3, hid3, j, hj, hjn⟩ := hinv.newNames lid2 hold
        have hne2 : l.id ≠ lid := by
          rw [hid3]
          intro he
          exact hlidnot (he ▸ hold)
        exact ⟨l, hmem2r l hl3 hne2, hid3, j, by simp [hj], hjn⟩
      · subst hnew
        exact ⟨l0x, hl0xmem, hl0id, i, by simp, hl0name⟩
    · rw [List.nodup_append]
      refine ⟨hinv.newIdsNodup, List.nodup_singleton lid, ?_⟩
      intro a ha hb
      rw [List.mem_singleton] at hb
      subst hb
      exact hlidnot ha
    · simp only [List.length_append, List.length_singleton]
      have := hinv.newIdsLen
      omega
    · intro l hlL0 hname
      rw [List.map_append, List.mem_append] at hname
      rcases hname with hold | hfmt
      · obtain ⟨hid, l2, hl2mem, hl2id, hsub2⟩ := hinv.processed l hlL0 hold
        have hne2 : l2.id ≠ lid := by
          rw [hl2id]
          intro he
          exact hlidnot (he ▸ hid)
        exact ⟨by rw [hmemNew]; exact Or.inl hid, l2, hmem2r l2 hl2mem hne2, hl2id, hsub2⟩
      · simp only [List.map_cons, List.map_nil, List.mem_singleton] at hfmt
        have hnamesN : (L0.map CFList.name).Nodup := by
          rw [ctx.hL0]; exact ctx.wf.namesNodup
        have he : l = l0 :=
          List.inj_on_of_nodup_map hnamesN hlL0 hl0L0 (by rw [hfmt, hl0name])
        subst he
        refine ⟨by rw [hmemNew]; exact Or.inr hl0id, l0x, hl0xmem, rfl, ?_⟩
        intro d hd hdes
        rw [hl0xdef]
        dsimp only
        rw [List.mem_append]
        exact Or.inl (hchunkMem d hd hdes)
    · intro d hd
      rcases hinv.r0Cover d hd with hdr | ⟨l, hl3, hid3, hd3⟩
      · rcases hremSplit d hdr with hdr1 | hdn
        · exact Or.inl hdr1
        · refine Or.inr ⟨l0x, hl0xmem, by rw [hmemNew]; exact Or.inr hl0id, ?_⟩
          rw [hl0xdef]
          dsimp only
          rw [List.mem_append]
          exact Or.inr hdn
      · have hne2 : l.id ≠ lid := by
          intro he
          exact hlidnot (he ▸ hid3)
        exact Or.inr ⟨l, hmem2r l hl3 hne2, by rw [hmemNew]; exact Or.inl hid3, hd3⟩
    · intro hne
      have hremne := hrem1ne hne
      obtain ⟨hfullOld, hcountOld⟩ := hinv.cnt hremne
      constructor
      · intro l hlmem hlid2
        rcases hmem2 l hlmem with he | ⟨hlold, hlne⟩
        · subst he
          rw [hl0xdef]
          dsimp only
          rw [List.length_append]
          exact hfull hne
        · rw [hmemNew] at hlid2
          rcases hlid2 with hold | hnew
          · exact hfullOld l hlold hold
          · exact absurd hnew hlne
      · simp only [List.length_append, List.length_singleton]
        omega
    · intro l1 h1 l2 h2 hid1 hid2 hne d hd1 hd2
      rcases hmem2 l1 h1 with he1 | ⟨h1old, h1ne⟩ <;>
        rcases hmem2 l2 h2 with he2 | ⟨h2old, h2ne⟩
      · subst he1; subst he2; exact hne rfl
      · subst he1
        rw [hmemNew] at hid2
        rcases hid2 with h2o | h2n
        · have hd1x := hd1
          rw [hl0xdef] at hd1x
          dsimp only at hd1x
          rw [List.mem_append] at hd1x
          rcases hd1x with hc | hn
          · exact hinv.newDisj l2 h2old h2o l0 hl0L0 hfmtnotdone d hd2 (hchunkSub d hc)
          · exact hinv.remUnplaced d (hnewSub d hn) l2 h2old h2o hd2
        · exact absurd h2n h2ne
      · subst he2
        rw [hmemNew] at hid1
        rcases hid1 with h1o | h1n
        · have hd2x := hd2
          rw [hl0xdef] at hd2x
          dsimp only at hd2x
          rw [List.mem_append] at hd2x
          rcases hd2x with hc | hn
          · exact hinv.newDisj l1 h1old h1o l0 hl0L0 hfmtnotdone d hd1 (hchunkSub d hc)
          · exact hinv.remUnplaced d (hnewSub d hn) l1 h1old h1o hd1
        · exact absurd h1n h1ne
      · rw [hmemNew] at hid1 hid2
        rcases hid1 with h1o | h1n
        · rcases hid2 with h2o | h2n
          · exact hinv.pairDisj l1 h1old l2 h2old h1o h2o hne d hd1 hd2
          · exact absurd h2n h2ne
        · exact absurd h1n h1ne
    · intro l hlmem hid l0b hl0b hnameb d hd hd0b
      rw [List.map_append, List.mem_append] at hnameb
      push_neg at hnameb
      rcases hmem2 l hlmem with he | ⟨hlold, hlne⟩
      · subst he
        have hl0bf := hl0b
        rw [ctx.hL0] at hl0bf
        unfold getLists at hl0bf
        have hl0bst1 : l0b ∈ st1.lists := List.mem_of_mem_filter hl0bf
        have hl0bmanaged : strStarts ln l0b.name = true := by
          have hx := List.of_mem_filter hl0bf
          simpa using hx
        have hdx := hd
        rw [hl0xdef] at hdx
        dsimp only at hdx
        rw [List.mem_append] at hdx
        rcases hdx with hc | hn
        · have hnameNe : l0b.name ≠ l0.name := by
            rw [hl0name]
            intro he2
            apply hnameb.2
            simp [he2]
          have hidne : l0.id ≠ l0b.id := by
            intro he2
            have : l0 = l0b := eq_of_same_id ctx.wf.idsNodup hl0st1 hl0bst1 he2
            exact hnameNe (by rw [this])
          exact ctx.wf.disj l0 hl0st1 l0b hl0bst1 hl0managed hl0bmanaged hidne d
            (hchunkSub d hc) hd0b
        · exact ctx.hR0disj d (hinv.remSub d (hnewSub d hn)) l0b hl0b hd0b
      · rw [hmemNew] at hid
        rcases hid with hold | hnew
        · exact hinv.newDisj l hlold hold l0b hl0b hnameb.1 d hd hd0b
        · exact absurd hnew hlne
    · rw [hrules2]
      exact hinv.rulesEq
    · intro l hlmem items hlk
      rw [hfilterNew] at hlk
      rcases hmem2 l hlmem with he | ⟨hlold, hlne⟩
      · subst he
        have hkey : l0x.id = lid := hl0id
        rw [hkey] at hlk
        rw [lookup_setMapping_self] at hlk
        injection hlk with hlk
        rw [← hlk]
      · rw [lookup_setMapping_other _ _ _ _ hlne] at hlk
        exact hinv.cacheOk l hlold items hlk

/-- One step of the index loop at a free index re-establishes the
invariant: when domains remain a fresh list is created and seeded from
`remaining_domains`, otherwise nothing happens. -/
theorem processIndex_inv_none {ln : String} {desired : List String} {st1 : St}
    {L0 : List CFList} {nameMap : List (String × Nat)} {R0 : List String}
    (ctx : Ctx ln desired st1 L0 nameMap R0)
    (i : Nat) (hi1 : 1 ≤ i) (hi2 : i ≤ MAX_LISTS)
    (done : List Nat) (hdone : i ∉ done) (hdoneB : ∀ j ∈ done, j ≤ MAX_LISTS)
    (ls : LoopSt) (hcap : ls.newIds.length < MAX_LISTS)
    (hinv : Inv ln desired st1 L0 R0 done ls)
    (hl : nameMap.lookup (fmtListName ln i) = none) :
    ∃ ev ls1, processIndex desired nameMap ln i ls = (ev, .ok ls1) ∧
      Inv ln desired st1 L0 R0 (done ++ [i]) ls1 := by
  have hiB : i < 1000 := by
    have : MAX_LISTS = 298 := rfl
    omega
  have hnone : ∀ l ∈ L0, l.name ≠ fmtListName ln i := by
    intro l hlmem he
    have hnd : (L0.map CFList.name).Nodup := by
      rw [ctx.hL0]; exact ctx.wf.namesNodup
    have hlook := lookup_nameMap_of_mem hnd hlmem
    rw [he] at hlook
    rw [ctx.hmap] at hl
    rw [hlook] at hl
    cases hl
  unfold processIndex
  dsimp only
  rw [hl]
  dsimp only
  by_cases hrem : ls.remaining.isEmpty = true
  · rw [if_pos hrem]
    rw [List.isEmpty_iff] at hrem
    refine ⟨[], ls, rfl, ?_⟩
    refine ⟨hinv.remNodup, hinv.remSub, hinv.remUnplaced, hinv.placedGood, ?_,
      hinv.idsNodup, hinv.fresh, hinv.nextMono, ?_, hinv.mNames, hinv.mNamesNodup,
      ?_, hinv.newIdsNodup, ?_, ?_, ?_, ?_, hinv.pairDisj, ?_, hinv.rulesEq,
      hinv.cacheOk⟩
    · intro l hlst1 hname
      apply hinv.untouched l hlst1
      intro hmem
      exact hname (by rw [List.map_append]; exact List.mem_append_left _ hmem)
    · intro l hlmem
      rcases hinv.origin l hlmem with h | ⟨h1, h2, ⟨j, hj, hjn⟩, h4⟩
      · exact Or.inl h
      · exact Or.inr ⟨h1, h2, ⟨j, by simp [hj], hjn⟩, h4⟩
    · intro lid2 hmem
      obtain ⟨l, hl3, hid3, j, hj, hjn⟩ := hinv.newNames lid2 hmem
      exact ⟨l, hl3, hid3, j, by simp [hj], hjn⟩
    · have := hinv.newIdsLen
      simp only [List.length_append, List.length_singleton]
      omega
    · intro l hlL0 hname
      rw [List.map_append, List.mem_append] at hname
      rcases hname with hold | hfmt
      · exact hinv.processed l hlL0 hold
      · simp only [List.map_cons, List.map_nil, List.mem_singleton] at hfmt
        exact absurd hfmt (hnone l hlL0)
    · intro d hd
      exact hinv.r0Cover d hd
    · intro hne
      obtain ⟨h1, h2⟩ := hinv.cnt hne
      exact absurd hrem hne
    · intro l hlmem hid l0b hl0b hnameb d hd hd0b
      rw [List.map_append, List.mem_append] at hnameb
      push_neg at hnameb
      exact hinv.newDisj l hlmem hid l0b hl0b hnameb.1 d hd hd0b
  · rw [if_neg hrem]
    rw [if_neg (by simpa using not_le_of_lt hcap)]
    set newItems := ls.remaining.take (min 1000 ls.remaining.length) with hnI
    set remaining1 := ls.remaining.filter (fun d => decide (d ∉ newItems)) with hrem1
    set newList : CFList := ⟨ls.st.nextId, fmtListName ln i, newItems⟩ with hnL
    have hnewSub : ∀ d ∈ newItems, d ∈ ls.remaining := by
      intro d hd
      rw [hnI] at hd
      exact List.take_subset _ _ hd
    have hnewNodup : newItems.Nodup := by
      rw [hnI]
      exact hinv.remNodup.sublist (List.take_sublist _ _)
    have hnewDes : ∀ d ∈ newItems, d ∈ desired := fun d hd =>
      ctx.hR0desired d (hinv.remSub d (hnewSub d hd))
    have hnewLen : newItems.length ≤ 1000 := by
      rw [hnI, List.length_take]
      omega
    have hrem1Nodup : remaining1.Nodup := hinv.remNodup.filter _
    have hrem1Sub : ∀ d ∈ remaining1, d ∈ ls.remaining := fun d hd =>
      List.mem_of_mem_filter hd
    have hrem1NotNew : ∀ d ∈ remaining1, d ∉ newItems := by
      intro d hd
      have := List.of_mem_filter hd
      simpa using this
    have hremSplit : ∀ d ∈ ls.remaining, d ∈ remaining1 ∨ d ∈ newItems := by
      intro d hd
      by_cases hn : d ∈ newItems
      · right; exact hn
      · left
        rw [hrem1, List.mem_filter]
        exact ⟨hd, by simpa using hn⟩
    have hfullC : remaining1 ≠ [] → newItems.length = 1000 := by
      intro hne
      rw [hnI, List.length_take]
      by_cases hge : 1000 ≤ ls.remaining.length
      · omega
      · exfalso
        push_neg at hge
        have htake : newItems = ls.remaining := by
          rw [hnI]
          exact List.take_of_length_le (by omega)
        apply hne
        rw [hrem1, List.filter_eq_nil_iff]
        intro a ha
        rw [← htake] at ha
        simpa using ha
    have hid_new : ∀ l ∈ ls.st.lists, l.id ≠ ls.st.nextId := fun l hlmem =>
      Nat.ne_of_lt (hinv.fresh l hlmem)
    have hnotin : ls.st.nextId ∉ ls.newIds := by
      intro hmem
      obtain ⟨l, hl3, hid3, _⟩ := hinv.newNames _ hmem
      exact hid_new l hl3 hid3
    have hmemNew : ∀ x, x ∈ ls.newIds ++ [ls.st.nextId] ↔
        x ∈ ls.newIds ∨ x = ls.st.nextId := by
      intro x; simp
    have hmem3 : ∀ l', l' ∈ ls.st.lists ++ [newList] ↔
        l' ∈ ls.st.lists ∨ l' = newList := by
      intro l'; simp
    refine ⟨_, _, rfl, ?_⟩
    simp only [applyCreateList]
    rw [show ({ id := ls.st.nextId, name := fmtListName ln i, items := newItems } : CFList)
      = newList from hnL.symm]
    refine ⟨hrem1Nodup, ?_, ?_, ?_, ?_, ?_, ?_, ?_, ?_, ?_, ?_, ?_, ?_, ?_, ?_, ?_, ?_,
      ?_, ?_, ?_, ?_⟩
    · intro d hd; exact hinv.remSub d (hrem1Sub d hd)
    · intro d hd l hlmem hlid2
      rw [hmem3] at hlmem
      rcases hlmem with hlold | he
      · rw [hmemNew] at hlid2
        rcases hlid2 with hold | hnew
        · exact hinv.remUnplaced d (hrem1Sub d hd) l hlold hold
        · exact absurd hnew (hid_new l hlold)
      · subst he
        exact hrem1NotNew d hd
    · intro l hlmem hlid2
      rw [hmem3] at hlmem
      rcases hlmem with hlold | he
      · rw [hmemNew] at hlid2
        rcases hlid2 with hold | hnew
        · exact hinv.placedGood l hlold hold
        · exact absurd hnew (hid_new l hlold)
      · subst he
        exact ⟨hnewNodup, hnewLen, hnewDes⟩
    · intro l hlst1 hname
      rw [List.map_append, List.mem_append] at hname
      push_neg at hname
      rw [hmem3]
      exact Or.inl (hinv.untouched l hlst1 hname.1)
    · rw [List.map_append]
      rw [List.nodup_append]
      refine ⟨hinv.idsNodup, by simp, ?_⟩
      intro a ha hb
      simp only [List.map_cons, List.map_nil, List.mem_singleton] at hb
      rw [List.mem_map] at ha
      obtain ⟨l, hlmem, hle⟩ := ha
      subst hb
      exact hid_new l hlmem (by rw [hle])
    · intro l hlmem
      rw [hmem3] at hlmem
      have hnext3 : (applyCreateList ls.st (fmtListName ln i) newItems).2.nextId =
          ls.st.nextId + 1 := rfl
      rcases hlmem with hlold | he
      · have := hinv.fresh l hlold
        simp only [applyCreateList]
        omega
      · subst he
        simp only [applyCreateList, hnL]
        omega
    · have := hinv.nextMono
      simp only [applyCreateList]
      omega
    · intro l hlmem
      rw [hmem3] at hlmem
      rcases hlmem with hlold | he
      · rcases hinv.origin l hlold with h | ⟨h1, h2, ⟨j, hj, hjn⟩, h4⟩
        · exact Or.inl h
        · exact Or.inr ⟨h1, by rw [hmemNew]; exact Or.inl h2, ⟨j, by simp [hj], hjn⟩, h4⟩
      · subst he
        refine Or.inr ⟨hinv.nextMono, by rw [hmemNew]; exact Or.inr rfl,
          ⟨i, by simp, rfl⟩, ?_⟩
        intro l0b hl0b
        exact hnone l0b hl0b
    · intro l hlmem hs
      rw [hmem3] at hlmem
      rcases hlmem with hlold | he
      · exact hinv.mNames l hlold hs
      · subst he
        exact ⟨i, hi1, hi2, rfl⟩
    · have hgl : getLists
          { lists := ls.st.lists ++ [newList], rules := ls.st.rules,
            nextId := ls.st.nextId + 1 } ln = getLists ls.st ln ++ [newList] := by
        unfold getLists
        dsimp only
        rw [List.filter_append]
        congr 1
        rw [List.filter_cons]
        rw [if_pos (show strStarts ln newList.name = true from strStarts_fmt ln i)]
        rfl
      dsimp only
      rw [hgl, List.map_append, List.nodup_append]
      refine ⟨hinv.mNamesNodup, by simp, ?_⟩
      intro a ha hb
      simp only [List.map_cons, List.map_nil, List.mem_singleton, hnL] at hb
      subst hb
      rw [List.mem_map] at ha
      obtain ⟨l, hlmem, hle⟩ := ha
      have hlmem2 : l ∈ ls.st.lists := List.mem_of_mem_filter hlmem
      have hlmanaged : strStarts ln l.name = true := by
        have hx := List.of_mem_filter hlmem
        simpa using hx
      rcases hinv.origin l hlmem2 with ⟨l0b, hl0bst1, hbid, hbname⟩ | ⟨_, _, ⟨j, hj, hjn⟩, _⟩
      · have hl0bL0 : l0b ∈ L0 := by
          rw [ctx.hL0]
          unfold getLists
          rw [List.mem_filter]
          exact ⟨hl0bst1, by rw [hbname]; exact hlmanaged⟩
        exact hnone l0b hl0bL0 (by rw [hbname, hle])
      · have hjB : j < 1000 := by
          have h1 := hdoneB j hj
          have : MAX_LISTS = 298 := rfl
          omega
        have : j = i := fmtListName_inj ln j hjB i hiB (by rw [← hjn, hle])
        exact hdone (this ▸ hj)
    · intro lid2 hmem
      rw [hmemNew] at hmem
      rcases hmem with hold | hnew
      · obtain ⟨l, hl3, hid3, j, hj, hjn⟩ := hinv.newNames lid2 hold
        exact ⟨l, by rw [hmem3]; exact Or.inl hl3, hid3, j, by simp [hj], hjn⟩
      · subst hnew
        exact ⟨newList, by rw [hmem3]; exact Or.inr rfl, rfl, i, by simp, rfl⟩
    · rw [List.nodup_append]
      refine ⟨hinv.newIdsNodup, by simp, ?_⟩
      intro a ha hb
      rw [List.mem_singleton] at hb
      subst hb
      exact hnotin ha
    · simp only [List.length_append, List.length_singleton]
      have hx := hinv.newIdsLen
      omega
    · intro l hlL0 hname
      rw [List.map_append, List.mem_append] at hname
      rcases hname with hold | hfmt
      · obtain ⟨hid, l2, hl2mem, hl2id, hsub2⟩ := hinv.processed l hlL0 hold
        exact ⟨by rw [hmemNew]; exact Or.inl hid, l2, by rw [hmem3]; exact Or.inl hl2mem,
          hl2id, hsub2⟩
      · simp only [List.map_cons, List.map_nil, List.mem_singleton] at hfmt
        exact absurd hfmt (hnone l hlL0)
    · intro d hd
      rcases hinv.r0Cover d hd with hdr | ⟨l, hl3, hid3, hd3⟩
      · rcases hremSplit d hdr with hdr1 | hdn
        · exact Or.inl hdr1
        · exact Or.inr ⟨newList, by rw [hmem3]; exact Or.inr rfl,
            by rw [hmemNew]; exact Or.inr rfl, hdn⟩
      · exact Or.inr ⟨l, by rw [hmem3]; exact Or.inl hl3,
          by rw [hmemNew]; exact Or.inl hid3, hd3⟩
    · intro hne
      have hremne : ls.remaining ≠ [] := by
        intro h0
        exact hrem (by rw [h0]; rfl)
      obtain ⟨hfullOld, hcountOld⟩ := hinv.cnt hremne
      constructor
      · intro l hlmem hlid2
        rw [hmem3] at hlmem
        rcases hlmem with hlold | he
        · rw [hmemNew] at hlid2
          rcases hlid2 with hold | hnew
          · exact hfullOld l hlold hold
          · exact absurd hnew (hid_new l hlold)
        · subst he
          exact hfullC hne
      · simp only [List.length_append, List.length_singleton]
        omega
    · intro l1 h1 l2 h2 hid1 hid2 hne d hd1 hd2
      rw [hmem3] at h1 h2
      rcases h1 with h1old | he1 <;> rcases h2 with h2old | he2
      · rw [hmemNew] at hid1 hid2
        rcases hid1 with h1o | h1n
        · rcases hid2 with h2o | h2n
          · exact hinv.pairDisj l1 h1old l2 h2old h1o h2o hne d hd1 hd2
          · exact absurd h2n (hid_new l2 h2old)
        · exact absurd h1n (hid_new l1 h1old)
      · subst he2
        rw [hmemNew] at hid1
        rcases hid1 with h1o | h1n
        · exact hinv.remUnplaced d (hnewSub d hd2) l1 h1old h1o hd1
        · exact absurd h1n (hid_new l1 h1old)
      · subst he1
        rw [hmemNew] at hid2
        rcases hid2 with h2o | h2n
        · exact hinv.remUnplaced d (hnewSub d hd1) l2 h2old h2o hd2
        · exact absurd h2n (hid_new l2 h2old)
      · subst he1; subst he2; exact hne rfl
    · intro l hlmem hid l0b hl0b hnameb d hd hd0b
      rw [List.map_append, List.mem_append] at hnameb
      push_neg at hnameb
      rw [hmem3] at hlmem
      rcases hlmem with hlold | he
      · rw [hmemNew] at hid
        rcases hid with hold | hnew
        · exact hinv.newDisj l hlold hold l0b hl0b hnameb.1 d hd hd0b
        · exact absurd hnew (hid_new l hlold)
      · subst he
        exact ctx.hR0disj d (hinv.remSub d (hnewSub d hd)) l0b hl0b hd0b
    · simp only [applyCreateList]
      exact hinv.rulesEq
    · intro l hlmem items hlk
      rw [hmem3] at hlmem
      rcases hlmem with hlold | he
      · rw [lookup_setMapping_other _ _ _ _ (hid_new l hlold)] at hlk
        exact hinv.cacheOk l hlold items hlk
      · subst he
        have hkey : newList.id = ls.st.nextId := rfl
        rw [hkey] at hlk
        rw [lookup_setMapping_self] at hlk
        injection hlk with hlk
        rw [← hlk]

/-- Induction over the `for i in range(1, max_index + 1)` loop: starting from a
state satisfying the invariant over the processed indexes `done`, processing a
further duplicate-free batch of in-range indexes succeeds (never hitting the
line-124 error) and re-establishes the invariant over `done ++ todo`. -/
theorem mainLoop_inv {ln : String} {desired : List String} {st1 : St}
    {L0 : List CFList} {nameMap : List (String × Nat)} {R0 : List String}
    (ctx : Ctx ln desired st1 L0 nameMap R0)
    (todo : List Nat) (htodoB : ∀ j ∈ todo, 1 ≤ j ∧ j ≤ MAX_LISTS)
    (htodoN : todo.Nodup)
    (done : List Nat) (hdis : ∀ j ∈ todo, j ∉ done)
    (hdoneB : ∀ j ∈ done, j ≤ MAX_LISTS)
    (hlen : done.length + todo.length ≤ MAX_LISTS)
    (ls : LoopSt) (hinv : Inv ln desired st1 L0 R0 done ls) :
    ∃ ev ls1, mainLoop desired nameMap ln todo ls = (ev, .ok ls1) ∧
      Inv ln desired st1 L0 R0 (done ++ todo) ls1 := by
  induction todo generalizing done ls with
  | nil =>
    exact ⟨[], ls, rfl, by simpa using hinv⟩
  | cons i rest ih =>
    obtain ⟨hi1, hi2⟩ := htodoB i (List.mem_cons_self i rest)
    have hidone : i ∉ done := hdis i (List.mem_cons_self i rest)
    have hcap : ls.newIds.length < MAX_LISTS := by
      have h1 := hinv.newIdsLen
      have h2 : done.length + (i :: rest).length ≤ MAX_LISTS := hlen
      simp only [List.length_cons] at h2
      omega
    have hstep : ∃ ev ls1, processIndex desired nameMap ln i ls = (ev, .ok ls1) ∧
        Inv ln desired st1 L0 R0 (done ++ [i]) ls1 := by
      cases hlook : nameMap.lookup (fmtListName ln i) with
      | some lid =>
        exact processIndex_inv_some ctx i hi1 hi2 done hidone hdoneB ls hinv lid hlook
      | none =>
        exact processIndex_inv_none ctx i hi1 hi2 done hidone hdoneB ls hcap hinv hlook
    obtain ⟨ev, ls1, hpi, hinv1⟩ := hstep
    have hrest : ∃ ev2 ls2, mainLoop desired nameMap ln rest ls1 = (ev2, .ok ls2) ∧
        Inv ln desired st1 L0 R0 ((done ++ [i]) ++ rest) ls2 := by
      refine ih (fun j hj => htodoB j (List.mem_cons_of_mem i hj))
        (List.Nodup.of_cons htodoN) (done ++ [i]) ?_ ?_ ?_ ls1 hinv1
      · intro j hj hmem
        rw [List.mem_append] at hmem
        rcases hmem with h | h
        · exact hdis j (List.mem_cons_of_mem i hj) h
        · rw [List.mem_singleton] at h
          subst h
          exact (List.nodup_cons.1 htodoN).1 hj
      · intro j hj
        rw [List.mem_append] at hj
        rcases hj with h | h
        · exact hdoneB j h
        · rw [List.mem_singleton] at h
          subst h
          exact hi2
      · simp only [List.length_append, List.length_singleton]
        simp only [List.length_cons] at hlen
        omega
    obtain ⟨ev2, ls2, hml, hinv2⟩ := hrest
    refine ⟨ev ++ ev2, ls2, ?_, ?_⟩
    · unfold mainLoop
      rw [hpi]
      dsimp only
      rw [hml]
    · have : done ++ i :: rest = (done ++ [i]) ++ rest := by simp
      rw [this]
      exact hinv2

/-- The invariant holds on loop entry: nothing processed, `remaining_domains`
is `R0`, no new ids, the state is the post-reclamation state itself. -/
theorem Inv_init {ln : String} {desired : List String} {st1 : St} {L0 : List CFList}
    {nameMap : List (String × Nat)} {R0 : List String} (cache : Cache)
    (ctx : Ctx ln desired st1 L0 nameMap R0) (hco : CacheOk st1 cache) :
    Inv ln desired st1 L0 R0 [] ⟨R0, [], st1, cache⟩ := by
  refine ⟨ctx.hR0nodup, fun d hd => hd, ?_, ?_, ?_, ctx.wf.idsNodup, ctx.wf.freshLists,
    le_refl _, ?_, ctx.wf.names, ctx.wf.namesNodup, ?_, List.nodup_nil, le_refl _,
    ?_, ?_, ?_, ?_, ?_, rfl, ?_⟩
  · intro d _ l _ hid
    exact absurd hid (List.not_mem_nil _)
  · intro l _ hid
    exact absurd hid (List.not_mem_nil _)
  · intro l hl _
    exact hl
  · intro l hl
    exact Or.inl ⟨l, hl, rfl, rfl⟩
  · intro lid hid
    exact absurd hid (List.not_mem_nil _)
  · intro l _ hname
    simp at hname
  · intro d hd
    exact Or.inl hd
  · intro _
    exact ⟨fun l _ hid => absurd hid (List.not_mem_nil _), rfl⟩
  · intro l1 _ l2 _ h1 _
    exact absurd h1 (List.not_mem_nil _)
  · intro l _ hid
    exact absurd hid (List.not_mem_nil _)
  · intro l hl items hlk
    exact hco l hl items hlk

/-- Line 77 parses: when every current name has a parseable final token,
`int(name.split('-')[-1])` succeeds for the whole inventory and yields
exactly the indexes of the names. -/
theorem parseIndexes_ok : ∀ (names : List String),
    (∀ nm ∈ names, ∃ k, parseListIndex nm = some k) →
    ∃ idxs, parseIndexes names = some idxs ∧
      (∀ nm ∈ names, ∀ k, parseListIndex nm = some k → k ∈ idxs) ∧
      (∀ k ∈ idxs, ∃ nm ∈ names, parseListIndex nm = some k) := by
  intro names
  induction names with
  | nil =>
    intro _
    exact ⟨[], rfl, by simp, by simp⟩
  | cons nm rest ih =>
    intro h
    obtain ⟨k, hk⟩ := h nm (by simp)
    obtain ⟨idxs, hix, hmem, hmem2⟩ := ih (fun x hx => h x (by simp [hx]))
    refine ⟨k :: idxs, ?_, ?_, ?_⟩
    · unfold parseIndexes at hix ⊢
      rw [List.mapM_cons, hk, hix]
      rfl
    · intro x hx k2 hk2
      rw [List.mem_cons] at hx
      rcases hx with hx | hx
      · subst hx
        rw [hk] at hk2
        injection hk2 with hk2
        simp [hk2]
      · exact List.mem_cons_of_mem _ (hmem x hx k2 hk2)
    · intro k2 hk2
      rw [List.mem_cons] at hk2
      rcases hk2 with hk2 | hk2
      · subst hk2
        exact ⟨nm, by simp, hk⟩
      · obtain ⟨x, hx, hpx⟩ := hmem2 k2 hk2
        exact ⟨x, by simp [hx], hpx⟩

/-- The seed of `max(existing_indexes + [needed_lists_count])` bounds the
fold from below. -/
theorem le_foldr_max (n : Nat) : ∀ (l : List Nat), n ≤ l.foldr max n := by
  intro l
  induction l with
  | nil => exact le_refl n
  | cons x xs ih => exact le_trans ih (le_max_right x _)

/-- Every member of `existing_indexes` bounds the fold from below. -/
theorem mem_le_foldr_max (n : Nat) : ∀ (l : List Nat), ∀ k ∈ l, k ≤ l.foldr max n := by
  intro l
  induction l with
  | nil =>
    intro k hk
    simp at hk
  | cons x xs ih =>
    intro k hk
    rw [List.mem_cons] at hk
    rcases hk with hk | hk
    · subst hk
      exact le_max_left _ _
    · exact le_trans (ih k hk) (le_max_right x _)

/-- A list of naturals that are all equal to `c` sums to `c` times its
length. -/
theorem sum_const_of_mem (c : Nat) : ∀ (l : List Nat), (∀ x ∈ l, x = c) →
    l.sum = c * l.length := by
  intro l
  induction l with
  | nil => intro _; simp
  | cons x xs ih =>
    intro h
    rw [List.sum_cons, List.length_cons, ih (fun y hy => h y (by simp [hy])),
      h x (by simp)]
    ring

/-- Pairwise-ness by distinct ids. -/
theorem pairwise_of_nodup_ids (R : CFList → CFList → Prop) :
    ∀ (lists : List CFList), (lists.map CFList.id).Nodup →
    (∀ l1 ∈ lists, ∀ l2 ∈ lists, l1.id ≠ l2.id → R l1 l2) →
    lists.Pairwise R := by
  intro lists
  induction lists with
  | nil =>
    intro _ _
    exact List.Pairwise.nil
  | cons x xs ih =>
    intro hnd himp
    rw [List.map_cons, List.nodup_cons] at hnd
    refine List.Pairwise.cons ?_ (ih hnd.2 (fun l1 h1 l2 h2 hne =>
      himp l1 (by simp [h1]) l2 (by simp [h2]) hne))
    intro y hy
    refine himp x (by simp) y (by simp [hy]) ?_
    intro he
    exact hnd.1 (he ▸ List.mem_map_of_mem CFList.id hy)

/-- The counting bound behind coverage: the ids in `new_list_ids` name
pairwise-disjoint, duplicate-free 1000-item lists drawn from `desired`, and
the leftover `remaining_domains` are desired domains placed in none of them,
so `1000 * len(new_list_ids) + len(remaining)` cannot exceed the number of
desired domains. -/
theorem placed_count {desired : List String}
    (lists : List CFList) (newIds : List Nat)
    (hids : (lists.map CFList.id).Nodup)
    (hnn : ∀ lid ∈ newIds, ∃ l ∈ lists, l.id = lid)
    (hnodupN : newIds.Nodup)
    (hgood : ∀ l ∈ lists, l.id ∈ newIds → l.items.Nodup ∧ ∀ d ∈ l.items, d ∈ desired)
    (hfull : ∀ l ∈ lists, l.id ∈ newIds → l.items.length = 1000)
    (hdisj : ∀ l1 ∈ lists, ∀ l2 ∈ lists, l1.id ∈ newIds → l2.id ∈ newIds →
      l1.id ≠ l2.id → ∀ d ∈ l1.items, d ∈ l2.items → False)
    (rem : List String) (hremN : rem.Nodup)
    (hremD : ∀ d ∈ rem, d ∈ desired)
    (hremU : ∀ d ∈ rem, ∀ l ∈ lists, l.id ∈ newIds → d ∉ l.items) :
    1000 * newIds.length + rem.length ≤ desired.length := by
  set S := lists.filter (fun l => decide (l.id ∈ newIds)) with hS
  have hSsub : ∀ l ∈ S, l ∈ lists := fun l hl => List.mem_of_mem_filter hl
  have hSin : ∀ l ∈ S, l.id ∈ newIds := by
    intro l hl
    have hx := List.of_mem_filter hl
    simpa using hx
  have hSid : (S.map CFList.id).Nodup :=
    List.Nodup.sublist ((List.filter_sublist _).map CFList.id) hids
  have hSmem : ∀ lid ∈ newIds, ∃ l ∈ S, l.id = lid := by
    intro lid hlid
    obtain ⟨l, hl, hlid2⟩ := hnn lid hlid
    refine ⟨l, ?_, hlid2⟩
    rw [hS, List.mem_filter]
    exact ⟨hl, by simp [hlid2, hlid]⟩
  have hSlen : S.length = newIds.length := by
    have hset : (S.map CFList.id).toFinset = newIds.toFinset := by
      ext x
      rw [List.mem_toFinset, List.mem_toFinset, List.mem_map]
      constructor
      · rintro ⟨l, hl, he⟩
        exact he ▸ hSin l hl
      · intro hx
        obtain ⟨l, hl, he⟩ := hSmem x hx
        exact ⟨l, hl, he⟩
    have h1 : (S.map CFList.id).toFinset.card = (S.map CFList.id).length :=
      List.toFinset_card_of_nodup hSid
    have h2 : newIds.toFinset.card = newIds.length :=
      List.toFinset_card_of_nodup hnodupN
    rw [← List.length_map S CFList.id, ← h1, hset, h2]
  set F := (S.map CFList.items).flatten with hF
  have hFnodup : F.Nodup := by
    rw [hF, List.nodup_flatten]
    constructor
    · intro li hli
      rw [List.mem_map] at hli
      obtain ⟨l, hl, he⟩ := hli
      exact he ▸ (hgood l (hSsub l hl) (hSin l hl)).1
    · rw [List.pairwise_map]
      refine pairwise_of_nodup_ids _ S hSid ?_
      intro l1 h1 l2 h2 hne d hd1 hd2
      exact hdisj l1 (hSsub l1 h1) l2 (hSsub l2 h2) (hSin l1 h1) (hSin l2 h2) hne
        d hd1 hd2
  have hFdes : ∀ d ∈ F, d ∈ desired := by
    intro d hd
    rw [hF, List.mem_flatten] at hd
    obtain ⟨li, hli, hdli⟩ := hd
    rw [List.mem_map] at hli
    obtain ⟨l, hl, he⟩ := hli
    exact (hgood l (hSsub l hl) (hSin l hl)).2 d (he ▸ hdli)
  have hFlen : F.length = 1000 * S.length := by
    rw [hF, List.length_flatten, List.map_map]
    rw [sum_const_of_mem 1000 _ ?_]
    · rw [List.length_map]
    · intro x hx
      rw [List.mem_map] at hx
      obtain ⟨l, hl, he⟩ := hx
      rw [← he]
      exact hfull l (hSsub l hl) (hSin l hl)
  have hGnodup : (rem ++ F).Nodup := by
    rw [List.nodup_append]
    refine ⟨hremN, hFnodup, ?_⟩
    intro d hd hdF
    rw [hF, List.mem_flatten] at hdF
    obtain ⟨li, hli, hdli⟩ := hdF
    rw [List.mem_map] at hli
    obtain ⟨l, hl, he⟩ := hli
    exact hremU d hd l (hSsub l hl) (hSin l hl) (he ▸ hdli)
  have hGdes : ∀ d ∈ rem ++ F, d ∈ desired := by
    intro d hd
    rw [List.mem_append] at hd
    rcases hd with hd | hd
    · exact hremD d hd
    · exact hFdes d hd
  have hGle : (rem ++ F).length ≤ desired.length := by
    have h1 : (rem ++ F).toFinset.card = (rem ++ F).length :=
      List.toFinset_card_of_nodup hGnodup
    have h2 : (rem ++ F).toFinset ⊆ desired.toFinset := by
      intro x hx
      rw [List.mem_toFinset] at hx ⊢
      exact hGdes x hx
    calc (rem ++ F).length = (rem ++ F).toFinset.card := h1.symm
      _ ≤ desired.toFinset.card := Finset.card_le_card h2
      _ ≤ desired.length := List.toFinset_card_le desired
  rw [List.length_append, hFlen, hSlen] at hGle
  omega

/-- End-of-loop characterization.  After the full index range has been
processed, `remaining_domains` is exhausted, the managed lists are exactly
the lists recorded in `new_list_ids`, every managed list is duplicate-free,
within the 1000-item cap and contains only desired domains, every desired
domain sits in some managed list, and the managed list count is within
`MAX_LISTS`. -/
theorem loop_final {ln : String} {desired : List String} {st1 : St}
    {L0 : List CFList} {nameMap : List (String × Nat)} {R0 : List String}
    (ctx : Ctx ln desired st1 L0 nameMap R0)
    (maxIndex : Nat) (hmaxUB : maxIndex ≤ MAX_LISTS)
    (hidx : ∀ l ∈ L0, ∀ k, parseListIndex l.name = some k → k ≤ maxIndex)
    (hcap : desired.length ≤ 1000 * maxIndex)
    {ls : LoopSt} (hinv : Inv ln desired st1 L0 R0 (List.range' 1 maxIndex) ls)
    (hR0all : ∀ d ∈ desired, d ∉ R0 → ∃ l ∈ L0, d ∈ l.items) :
    ls.remaining = [] ∧
    (∀ l ∈ getLists ls.st ln, l.id ∈ ls.newIds) ∧
    (∀ lid ∈ ls.newIds, ∃ l ∈ getLists ls.st ln, l.id = lid) ∧
    (∀ l ∈ getLists ls.st ln,
      l.items.Nodup ∧ l.items.length ≤ 1000 ∧ ∀ d ∈ l.items, d ∈ desired) ∧
    (∀ d ∈ desired, ∃ l ∈ getLists ls.st ln, d ∈ l.items) ∧
    (getLists ls.st ln).length ≤ MAX_LISTS := by
  have hdlen : (List.range' 1 maxIndex).length = maxIndex := List.length_range' ..
  have hL0done : ∀ l0 ∈ L0, l0.name ∈ (List.range' 1 maxIndex).map (fmtListName ln) := by
    intro l0 hl0
    have hl0st1 : l0 ∈ st1.lists := by
      rw [ctx.hL0] at hl0
      exact List.mem_of_mem_filter hl0
    have hl0s : strStarts ln l0.name = true := by
      rw [ctx.hL0] at hl0
      have hx := List.of_mem_filter hl0
      simpa using hx
    obtain ⟨k, hk1, hk2, hkn⟩ := ctx.wf.names l0 hl0st1 hl0s
    have hkB : k < 1000 := by
      have : MAX_LISTS = 298 := rfl
      omega
    have hparse : parseListIndex l0.name = some k := by
      rw [hkn]
      exact parse_fmtListName ln k hkB
    have hkle : k ≤ maxIndex := hidx l0 hl0 k hparse
    rw [List.mem_map]
    exact ⟨k, List.mem_range'_1.2 ⟨hk1, by omega⟩, hkn.symm⟩
  have hrem : ls.remaining = [] := by
    by_contra hne
    obtain ⟨hfull, hcnteq⟩ := hinv.cnt hne
    have hcount := placed_count ls.st.lists ls.newIds hinv.idsNodup
      (fun lid hlid => by
        obtain ⟨l, hl, hid, _⟩ := hinv.newNames lid hlid
        exact ⟨l, hl, hid⟩)
      hinv.newIdsNodup
      (fun l hl hid => ⟨(hinv.placedGood l hl hid).1, (hinv.placedGood l hl hid).2.2⟩)
      hfull hinv.pairDisj ls.remaining hinv.remNodup
      (fun d hd => ctx.hR0desired d (hinv.remSub d hd))
      hinv.remUnplaced
    rw [hcnteq, hdlen] at hcount
    have hlen0 : ls.remaining.length = 0 := by omega
    exact hne (List.length_eq_zero.1 hlen0)
  have hGL : ∀ l ∈ getLists ls.st ln, l.id ∈ ls.newIds := by
    intro l hl
    have hlst : l ∈ ls.st.lists := List.mem_of_mem_filter hl
    have hls : strStarts ln l.name = true := by
      have hx := List.of_mem_filter hl
      simpa using hx
    rcases hinv.origin l hlst with ⟨l0, hl0st1, hl0id, hl0name⟩ | ⟨_, hid, _, _⟩
    · have hl0L0 : l0 ∈ L0 := by
        rw [ctx.hL0]
        unfold getLists
        rw [List.mem_filter]
        exact ⟨hl0st1, by rw [hl0name]; exact hls⟩
      have hdone : l0.name ∈ (List.range' 1 maxIndex).map (fmtListName ln) :=
        hL0done l0 hl0L0
      obtain ⟨hidN, _⟩ := hinv.processed l0 hl0L0 hdone
      exact hl0id ▸ hidN
    · exact hid
  have hNG : ∀ lid ∈ ls.newIds, ∃ l ∈ getLists ls.st ln, l.id = lid := by
    intro lid hlid
    obtain ⟨l, hl, hid, i, _, hname⟩ := hinv.newNames lid hlid
    refine ⟨l, ?_, hid⟩
    unfold getLists
    rw [List.mem_filter]
    exact ⟨hl, by rw [hname]; exact strStarts_fmt ln i⟩
  have hItems : ∀ l ∈ getLists ls.st ln,
      l.items.Nodup ∧ l.items.length ≤ 1000 ∧ ∀ d ∈ l.items, d ∈ desired := by
    intro l hl
    exact hinv.placedGood l (List.mem_of_mem_filter hl) (hGL l hl)
  have hCover : ∀ d ∈ desired, ∃ l ∈ getLists ls.st ln, d ∈ l.items := by
    intro d hd
    by_cases hdR0 : d ∈ R0
    · rcases hinv.r0Cover d hdR0 with hdrem | ⟨l, hl, hid, hdl⟩
      · rw [hrem] at hdrem
        exact absurd hdrem (List.not_mem_nil d)
      · refine ⟨l, ?_, hdl⟩
        obtain ⟨l2, hl2, hl2id⟩ := hNG l.id hid
        have : l2 = l := eq_of_same_id hinv.idsNodup
          (List.mem_of_mem_filter hl2) hl hl2id
        exact this ▸ hl2
    · obtain ⟨l0, hl0, hdl0⟩ := hR0all d hd hdR0
      obtain ⟨hidN, l2, hl2, hl2id, hsub⟩ := hinv.processed l0 hl0 (hL0done l0 hl0)
      have hdl2 : d ∈ l2.items := hsub d hdl0 hd
      refine ⟨l2, ?_, hdl2⟩
      obtain ⟨l3, hl3, hl3id⟩ := hNG l2.id (hl2id ▸ hidN)
      have : l3 = l2 := eq_of_same_id hinv.idsNodup
        (List.mem_of_mem_filter hl3) hl2 hl3id
      exact this ▸ hl3
  have hCount : (getLists ls.st ln).length ≤ MAX_LISTS := by
    have hgids : ((getLists ls.st ln).map CFList.id).Nodup :=
      List.Nodup.sublist ((List.filter_sublist _).map CFList.id) hinv.idsNodup
    have hsubF : ((getLists ls.st ln).map CFList.id).toFinset ⊆ ls.newIds.toFinset := by
      intro x hx
      rw [List.mem_toFinset, List.mem_map] at hx
      obtain ⟨l, hl, he⟩ := hx
      rw [List.mem_toFinset]
      exact he ▸ hGL l hl
    have h1 : (getLists ls.st ln).length = ((getLists ls.st ln).map CFList.id).length :=
      (List.length_map _ _).symm
    calc (getLists ls.st ln).length
        = ((getLists ls.st ln).map CFList.id).toFinset.card := by
          rw [List.toFinset_card_of_nodup hgids, ← h1]
      _ ≤ ls.newIds.toFinset.card := Finset.card_le_card hsubF
      _ ≤ ls.newIds.length := List.toFinset_card_le _
      _ ≤ (List.range' 1 maxIndex).length := hinv.newIdsLen
      _ = maxIndex := hdlen
      _ ≤ MAX_LISTS := hmaxUB
  exact ⟨hrem, hGL, hNG, hItems, hCover, hCount⟩

/-- Facts established by a successful converge pass about its final remote
state and cache: managed names stay in the `"<prefix> - %03d"` format with
unique names and ids, managed lists are duplicate-free, capped at 1000 items
and drawn from `desired`, the cache mapping is consistent, there is exactly
one rule carrying the managed rule name and it references exactly the managed
lists, every desired domain is placed, and the managed count is within
`MAX_LISTS`. -/
structure PostC (ln rn : String) (desired : List String) (st2 : St)
    (cache2 : Cache) : Prop where
  mNames2 : ∀ l ∈ st2.lists, strStarts ln l.name = true →
    ∃ k, 1 ≤ k ∧ k ≤ MAX_LISTS ∧ l.name = fmtListName ln k
  mNamesNodup2 : ((getLists st2 ln).map CFList.name).Nodup
  idsNodup2 : (st2.lists.map CFList.id).Nodup
  mItems2 : ∀ l ∈ getLists st2 ln,
    l.items.Nodup ∧ l.items.length ≤ 1000 ∧ ∀ d ∈ l.items, d ∈ desired
  cacheOk2 : CacheOk st2 cache2
  rule2 : ∃ r ∈ st2.rules, r.name = rn ∧ (∀ r2 ∈ st2.rules, r2.name = rn → r2 = r) ∧
    ∀ lid, lid ∈ r.listIds ↔ ∃ l ∈ getLists st2 ln, l.id = lid
  cover2 : ∀ d ∈ desired, ∃ l ∈ getLists st2 ln, d ∈ l.items
  countLe2 : (getLists st2 ln).length ≤ MAX_LISTS

/-- Lines 61-150 of `update_resources` succeed on every well-formed
within-capacity input and establish `PostC` on the resulting state and
cache. -/
theorem convergeCore_ok (ln rn : String) (desired : List String) (st1 : St)
    (cache : Cache) (cgpRule : Option CFRule)
    (hwf : WF ln st1) (hco : CacheOk st1 cache) (hdn : desired.Nodup)
    (hcap : desired.length ≤ MAX_LISTS * 1000)
    (hrs : ∀ r, cgpRule = some r → r ∈ st1.rules ∧ r.name = rn)
    (hrn : cgpRule = none → ∀ r ∈ st1.rules, r.name ≠ rn) :
    ∃ ev st2 cache2,
      convergeCore ln rn desired st1 cache cgpRule = (ev, .ok (st2, cache2)) ∧
        PostC ln rn desired st2 cache2 := by
  have hnames : ∀ nm ∈ (getCurrentLists st1 cache ln).map CFList.name,
      ∃ k, parseListIndex nm = some k := by
    intro nm hnm
    rw [List.mem_map] at hnm
    obtain ⟨l, hl, he⟩ := hnm
    have hlst : l ∈ st1.lists := List.mem_of_mem_filter hl
    have hls : strStarts ln l.name = true := by
      have hx := List.of_mem_filter hl
      simpa using hx
    obtain ⟨k, hk1, hk2, hkn⟩ := hwf.names l hlst hls
    refine ⟨k, ?_⟩
    rw [← he, hkn]
    exact parse_fmtListName ln k (by
      have hM : MAX_LISTS = 298 := rfl
      omega)
  obtain ⟨idxs, hix, hmem, hmem2⟩ := parseIndexes_ok _ hnames
  have hkbound : ∀ l ∈ getCurrentLists st1 cache ln, ∀ k,
      parseListIndex l.name = some k → 1 ≤ k ∧ k ≤ MAX_LISTS := by
    intro l hl k hk
    have hlst : l ∈ st1.lists := List.mem_of_mem_filter hl
    have hls : strStarts ln l.name = true := by
      have hx := List.of_mem_filter hl
      simpa using hx
    obtain ⟨k2, hk1, hk2, hkn⟩ := hwf.names l hlst hls
    have hpk2 : parseListIndex l.name = some k2 := by
      rw [hkn]
      exact parse_fmtListName ln k2 (by
        have hM : MAX_LISTS = 298 := rfl
        omega)
    rw [hpk2] at hk
    injection hk with hk
    subst hk
    exact ⟨hk1, hk2⟩
  have ctx : Ctx ln desired st1 (getCurrentLists st1 cache ln)
      ((getCurrentLists st1 cache ln).map (fun l => (l.name, l.id)))
      (desired.dedup.filter (fun d =>
        decide (¬ (getCurrentLists st1 cache ln).any
          (fun l => decide (d ∈ getListItemsCached st1 cache l.id))))) := by
    refine ⟨hwf, hdn, rfl, rfl, (List.nodup_dedup desired).filter _, ?_, ?_⟩
    · intro d hd
      exact List.mem_dedup.1 (List.mem_of_mem_filter hd)
    · intro d hd l hl hdl
      have hx := List.of_mem_filter hd
      rw [decide_eq_true_iff] at hx
      apply hx
      rw [List.any_eq_true]
      refine ⟨l, hl, ?_⟩
      rw [decide_eq_true_iff]
      rw [getListItemsCached_eq st1 cache hco hwf.idsNodup
        (List.mem_of_mem_filter hl) (hwf.itemsLen l (List.mem_of_mem_filter hl))]
      exact hdl
  have hidxle : ∀ l ∈ getCurrentLists st1 cache ln, ∀ k,
      parseListIndex l.name = some k →
      k ≤ min (idxs.foldr max ((desired.length + 999) / 1000)) MAX_LISTS := by
    intro l hl k hk
    have hkidx : k ∈ idxs := hmem l.name (List.mem_map_of_mem CFList.name hl) k hk
    exact le_min (mem_le_foldr_max _ idxs k hkidx) (hkbound l hl k hk).2
  have hcap298 : desired.length ≤ 298000 := by
    simp only [MAX_LISTS] at hcap
    omega
  have hneed : (desired.length + 999) / 1000 ≤ MAX_LISTS := by
    have hM : MAX_LISTS = 298 := rfl
    omega
  have hcap2 : desired.length ≤
      1000 * min (idxs.foldr max ((desired.length + 999) / 1000)) MAX_LISTS := by
    have h1 : (desired.length + 999) / 1000 ≤
        min (idxs.foldr max ((desired.length + 999) / 1000)) MAX_LISTS :=
      le_min (le_foldr_max _ idxs) hneed
    have h2 : desired.length ≤ 1000 * ((desired.length + 999) / 1000) := by omega
    exact le_trans h2 (Nat.mul_le_mul_left 1000 h1)
  obtain ⟨ev2, ls, hml, hinvEnd⟩ := mainLoop_inv ctx
    (List.range' 1 (min (idxs.foldr max ((desired.length + 999) / 1000)) MAX_LISTS))
    (fun j hj => by
      have hj2 := List.mem_range'_1.1 hj
      refine ⟨hj2.1, le_trans ?_
        (min_le_right (idxs.foldr max ((desired.length + 999) / 1000)) MAX_LISTS)⟩
      omega)
    (List.nodup_range' ..)
    [] (fun j _ => List.not_mem_nil j) (fun j hj => absurd hj (List.not_mem_nil j))
    (by
      rw [List.length_range']
      simp only [List.length_nil, Nat.zero_add]
      exact min_le_right _ _)
    ⟨_, [], st1, cache⟩ (Inv_init cache ctx hco)
  simp only [List.nil_append] at hinvEnd
  obtain ⟨hrem, hGL, hNG, hItems, hCover, hCount⟩ := loop_final ctx
    (min (idxs.foldr max ((desired.length + 999) / 1000)) MAX_LISTS)
    (min_le_right _ _) hidxle hcap2 hinvEnd (by
      intro d hd hdR0
      have hded : d ∈ desired.dedup := List.mem_dedup.2 hd
      by_cases hany : (getCurrentLists st1 cache ln).any
          (fun l => decide (d ∈ getListItemsCached st1 cache l.id)) = true
      · rw [List.any_eq_true] at hany
        obtain ⟨l, hl, hdl⟩ := hany
        rw [decide_eq_true_iff] at hdl
        rw [getListItemsCached_eq st1 cache hco hwf.idsNodup
          (List.mem_of_mem_filter hl)
          (hwf.itemsLen l (List.mem_of_mem_filter hl))] at hdl
        exact ⟨l, hl, hdl⟩
      · exfalso
        apply hdR0
        rw [List.mem_filter]
        exact ⟨hded, by simpa using hany⟩)
  unfold convergeCore
  dsimp only
  rw [hix]
  dsimp only
  rw [hml]
  dsimp only
  cases cgpRule with
  | some r =>
    dsimp only
    obtain ⟨hrmem1, hrname⟩ := hrs r rfl
    have hrmem : r ∈ ls.st.rules := by
      rw [hinvEnd.rulesEq]
      exact hrmem1
    by_cases heq : ls.newIds.toFinset = extractListIds r
    · rw [if_pos heq]
      refine ⟨ev2 ++ [Event.saveCache], ls.st, ls.cache, rfl, ?_⟩
      refine ⟨hinvEnd.mNames, hinvEnd.mNamesNodup, hinvEnd.idsNodup, hItems,
        hinvEnd.cacheOk, ?_, hCover, hCount⟩
      refine ⟨r, hrmem, hrname, ?_, ?_⟩
      · intro r2 hr2 hr2n
        rw [hinvEnd.rulesEq] at hr2
        exact List.inj_on_of_nodup_map hwf.ruleNamesNodup hr2 hrmem1
          (by rw [hr2n, hrname])
      · intro lid
        constructor
        · intro hlid
          have h1 : lid ∈ extractListIds r := by
            unfold extractListIds
            rw [List.mem_toFinset]
            exact hlid
          rw [← heq, List.mem_toFinset] at h1
          exact hNG lid h1
        · rintro ⟨l, hl, he⟩
          have h2 : lid ∈ ls.newIds.toFinset := List.mem_toFinset.2 (he ▸ hGL l hl)
          rw [heq] at h2
          unfold extractListIds at h2
          rw [List.mem_toFinset] at h2
          exact h2
    · rw [if_neg heq]
      refine ⟨_, _, _, rfl, ?_⟩
      refine ⟨hinvEnd.mNames, hinvEnd.mNamesNodup, hinvEnd.idsNodup, hItems,
        hinvEnd.cacheOk, ?_, hCover, hCount⟩
      refine ⟨{r with listIds := ls.newIds}, ?_, hrname, ?_, ?_⟩
      · have h0 := List.mem_map_of_mem
          (fun x => if x.id = r.id then {r with listIds := ls.newIds} else x) hrmem
        dsimp only at h0
        rw [if_pos rfl] at h0
        exact h0
      · intro r2 hr2 hr2n
        rw [List.mem_map] at hr2
        obtain ⟨x, hx, hfx⟩ := hr2
        rw [hinvEnd.rulesEq] at hx
        by_cases hxid : x.id = r.id
        · rw [if_pos hxid] at hfx
          exact hfx.symm
        · rw [if_neg hxid] at hfx
          exfalso
          apply hxid
          have hxn : x.name = rn := by rw [hfx, hr2n]
          have hxr : x = r := List.inj_on_of_nodup_map hwf.ruleNamesNodup hx hrmem1
            (by rw [hxn, hrname])
          rw [hxr]
      · intro lid
        show lid ∈ ls.newIds ↔ _
        constructor
        · intro h
          exact hNG lid h
        · rintro ⟨l, hl, he⟩
          exact he ▸ hGL l hl
  | none =>
    dsimp only
    refine ⟨_, _, _, rfl, ?_⟩
    refine ⟨hinvEnd.mNames, hinvEnd.mNamesNodup, hinvEnd.idsNodup, hItems,
      hinvEnd.cacheOk, ?_, hCover, hCount⟩
    refine ⟨⟨ls.st.nextId, rn, ls.newIds⟩, List.mem_append_right _ (by simp), rfl,
      ?_, ?_⟩
    · intro r2 hr2 hr2n
      rw [List.mem_append] at hr2
      rcases hr2 with hr2 | hr2
      · exfalso
        rw [hinvEnd.rulesEq] at hr2
        exact hrn rfl r2 hr2 hr2n
      · simpa using hr2
    · intro lid
      show lid ∈ ls.newIds ↔ _
      constructor
      · intro h
        exact hNG lid h
      · rintro ⟨l, hl, he⟩
        exact he ▸ hGL l hl

/-- Every string starts with itself. -/
theorem strStarts_refl (p : String) : strStarts p p = true := by
  unfold strStarts
  have h := listPrefixB_append p.data []
  rwa [List.append_nil] at h

/-- A rule delivered by `managedRule` is a current rule carrying exactly the
managed rule name. -/
theorem managedRule_mem {st : St} {cache : Cache} {rn : String} {r : CFRule}
    (hr : managedRule st cache rn = some r) : r ∈ st.rules ∧ r.name = rn := by
  unfold managedRule at hr
  have h1 := List.find?_some hr
  have h2 := List.mem_of_find?_eq_some hr
  refine ⟨?_, by simpa using h1⟩
  unfold getCurrentRules at h2
  exact List.mem_of_mem_filter h2

/-- When `managedRule` finds nothing, no current rule carries the managed
rule name. -/
theorem managedRule_none {st : St} {cache : Cache} {rn : String}
    (hr : managedRule st cache rn = none) : ∀ r ∈ st.rules, r.name ≠ rn := by
  intro r hrr hname
  unfold managedRule at hr
  rw [List.find?_eq_none] at hr
  have hrf : r ∈ getCurrentRules st cache rn := by
    unfold getCurrentRules
    rw [List.mem_filter]
    refine ⟨hrr, ?_⟩
    rw [hname]
    exact strStarts_refl rn
  have hx := hr r hrf
  simp [hname] at hx

/-- With a unique carrier of the managed rule name, `managedRule` finds
exactly it. -/
theorem managedRule_unique {st : St} {cache : Cache} {rn : String} {r : CFRule}
    (hrmem : r ∈ st.rules) (hname : r.name = rn)
    (huniq : ∀ r2 ∈ st.rules, r2.name = rn → r2 = r) :
    managedRule st cache rn = some r := by
  unfold managedRule
  cases hf : (getCurrentRules st cache rn).find? (fun x => x.name = rn) with
  | none =>
    exfalso
    rw [List.find?_eq_none] at hf
    have hrf : r ∈ getCurrentRules st cache rn := by
      unfold getCurrentRules
      rw [List.mem_filter]
      refine ⟨hrmem, ?_⟩
      rw [hname]
      exact strStarts_refl rn
    have hx := hf r hrf
    simp [hname] at hx
  | some x =>
    have h1 := List.find?_some hf
    have h2 := List.mem_of_find?_eq_some hf
    have hxmem : x ∈ st.rules := by
      unfold getCurrentRules at h2
      exact List.mem_of_mem_filter h2
    have hxn : x.name = rn := by simpa using h1
    rw [huniq x hxmem hxn]

/-- A successful `update_resources` run establishes `PostC` on the state and
cache it returns. -/
theorem update_resources_post (ln rn : String) (desired : List String)
    (failIds : List Nat) (st : St) (cache : Cache) {st2 : St} {cache2 : Cache}
    (hwf : WF ln st) (hco : CacheOk st cache) (hdn : desired.Nodup)
    (hcap : desired.length ≤ MAX_LISTS * 1000)
    (hok : (updateResources ln rn desired failIds st cache).2 = .ok (st2, cache2)) :
    PostC ln rn desired st2 cache2 := by
  have h1 : ¬ 300000 < desired.length := by
    simp only [MAX_LISTS] at hcap
    omega
  have h2 : ¬ MAX_LISTS * 1000 < desired.length := by omega
  unfold updateResources at hok
  rw [if_neg h1, if_neg h2] at hok
  dsimp only at hok
  by_cases horph : (orphansOf ln rn st cache).isEmpty = true
  · rw [if_pos horph] at hok
    dsimp only at hok
    split at hok
    · simp at hok
    · dsimp only at hok
      obtain ⟨ev, st2', cache2', heq, hpost⟩ :=
        convergeCore_ok ln rn desired st cache (managedRule st cache rn)
          hwf hco hdn hcap
          (fun r hr => managedRule_mem hr)
          (fun hr => managedRule_none hr)
      rw [heq] at hok
      dsimp only at hok
      injection hok with hok
      rw [Prod.mk.injEq] at hok
      obtain ⟨ha, hb⟩ := hok
      subst ha
      subst hb
      exact hpost
  · rw [if_neg horph] at hok
    split at hok
    · simp at hok
    · dsimp only at hok
      obtain ⟨hls, hlr, hln⟩ := orphanLoop_st failIds
        ((orphansOf ln rn st cache).take MAX_LISTS) (getLists st ln).length st
      have hwfX : WF ln (orphanLoop failIds ((orphansOf ln rn st cache).take MAX_LISTS)
          (getLists st ln).length st).2.2 := WF_of_sublist hwf hls hlr hln
      have hcoX : CacheOk (orphanLoop failIds ((orphansOf ln rn st cache).take MAX_LISTS)
          (getLists st ln).length st).2.2 cache := CacheOk_of_sublist hco hls
      obtain ⟨ev, st2', cache2', heq, hpost⟩ :=
        convergeCore_ok ln rn desired _ cache (managedRule st cache rn)
          hwfX hcoX hdn hcap
          (fun r hr => ⟨by
              rw [hlr]
              exact (managedRule_mem hr).1, (managedRule_mem hr).2⟩)
          (fun hr => by
            rw [hlr]
            exact managedRule_none hr)
      rw [heq] at hok
      dsimp only at hok
      injection hok with hok
      rw [Prod.mk.injEq] at hok
      obtain ⟨ha, hb⟩ := hok
      subst ha
      subst hb
      exact hpost

/-! ## C1: coverage -/

/-- C1: for every duplicate-free desired domain set within capacity (at most
`MAX_LISTS * 1000` domains), whenever `update_resources` completes
successfully from a well-formed remote state with a consistent cache, the
union of the items of the in-use lists — the lists referenced by the rule
carrying the managed rule name — is exactly the desired set: a domain is
desired iff it sits in a referenced list, so no desired domain is left
unassigned and no extraneous domain remains in any in-use list. -/
theorem update_resources_coverage (ln rn : String) (desired : List String)
    (failIds : List Nat) (st : St) (cache : Cache) (st2 : St) (cache2 : Cache)
    (hwf : WF ln st) (hco : CacheOk st cache) (hdn : desired.Nodup)
    (hcap : desired.length ≤ MAX_LISTS * 1000)
    (hok : (updateResources ln rn desired failIds st cache).2 = .ok (st2, cache2)) :
    ∃ r ∈ st2.rules, r.name = rn ∧
      ∀ d, d ∈ desired ↔ ∃ l ∈ st2.lists, l.id ∈ r.listIds ∧ d ∈ l.items := by
  have hpost := update_resources_post ln rn desired failIds st cache hwf hco hdn
    hcap hok
  obtain ⟨r, hrmem, hrname, huniq, hids⟩ := hpost.rule2
  refine ⟨r, hrmem, hrname, ?_⟩
  intro d
  constructor
  · intro hd
    obtain ⟨l, hl, hdl⟩ := hpost.cover2 d hd
    exact ⟨l, List.mem_of_mem_filter hl, (hids l.id).2 ⟨l, hl, rfl⟩, hdl⟩
  · rintro ⟨l, hl, hlid, hdl⟩
    obtain ⟨l2, hl2, hl2id⟩ := (hids l.id).1 hlid
    have he : l2 = l := eq_of_same_id hpost.idsNodup2
      (List.mem_of_mem_filter hl2) hl hl2id
    exact (hpost.mItems2 l (he ▸ hl2)).2.2 d hdl

/-- Witness for C1: a fresh empty state and a one-domain desired set; the
pass creates `"[P] - 001"` holding `"a.com"` and a rule referencing it, and
the coverage equivalence holds on that concrete outcome. -/
theorem update_resources_coverage_witness :
    (WF "[P]" ⟨[], [], 0⟩ ∧ CacheOk ⟨[], [], 0⟩ ⟨[], [], []⟩ ∧
      ["a.com"].Nodup ∧ ["a.com"].length ≤ MAX_LISTS * 1000 ∧
      (updateResources "[P]" "[P] Block Ads" ["a.com"] [] ⟨[], [], 0⟩
          ⟨[], [], []⟩).2 =
        .ok (⟨[⟨0, "[P] - 001", ["a.com"]⟩], [⟨1, "[P] Block Ads", [0]⟩], 2⟩,
          ⟨[⟨0, "[P] - 001", ["a.com"]⟩], [⟨1, "[P] Block Ads", [0]⟩],
            [(0, ["a.com"])]⟩)) ∧
    (∃ r ∈ (⟨[⟨0, "[P] - 001", ["a.com"]⟩], [⟨1, "[P] Block Ads", [0]⟩], 2⟩ :
        St).rules, r.name = "[P] Block Ads" ∧
      ∀ d, d ∈ ["a.com"] ↔
        ∃ l ∈ (⟨[⟨0, "[P] - 001", ["a.com"]⟩], [⟨1, "[P] Block Ads", [0]⟩], 2⟩ :
          St).lists, l.id ∈ r.listIds ∧ d ∈ l.items) := by
  have hwf : WF "[P]" ⟨[], [], 0⟩ := by
    refine ⟨?_, ?_, ?_, ?_, ?_, ?_, ?_, ?_, ?_, ?_⟩ <;> simp [getLists]
  have hco : CacheOk ⟨[], [], 0⟩ ⟨[], [], []⟩ := by
    intro l hl items hlk
    exact absurd hl (List.not_mem_nil l)
  have hdn : (["a.com"]).Nodup := by simp
  have hcap : (["a.com"]).length ≤ MAX_LISTS * 1000 := by
    simp [MAX_LISTS]
  have hok : (updateResources "[P]" "[P] Block Ads" ["a.com"] [] ⟨[], [], 0⟩
      ⟨[], [], []⟩).2 =
      .ok (⟨[⟨0, "[P] - 001", ["a.com"]⟩], [⟨1, "[P] Block Ads", [0]⟩], 2⟩,
        ⟨[⟨0, "[P] - 001", ["a.com"]⟩], [⟨1, "[P] Block Ads", [0]⟩],
          [(0, ["a.com"])]⟩) := by decide
  exact ⟨⟨hwf, hco, hdn, hcap, hok⟩,
    update_resources_coverage "[P]" "[P] Block Ads" ["a.com"] [] ⟨[], [], 0⟩
      ⟨[], [], []⟩ _ _ hwf hco hdn hcap hok⟩

/-! ## C2: capacity invariant -/

/-- C2: for every successful converge pass from a well-formed state, the
capacity invariant holds on the resulting remote state: every managed list
ends with at most 1000 items, and the number of active managed lists does
not exceed `MAX_LISTS = 298`. -/
theorem update_resources_capacity_invariant (ln rn : String)
    (desired : List String) (failIds : List Nat) (st : St) (cache : Cache)
    (st2 : St) (cache2 : Cache)
    (hwf : WF ln st) (hco : CacheOk st cache) (hdn : desired.Nodup)
    (hcap : desired.length ≤ MAX_LISTS * 1000)
    (hok : (updateResources ln rn desired failIds st cache).2 = .ok (st2, cache2)) :
    (∀ l ∈ getLists st2 ln, l.items.length ≤ 1000) ∧
      (getLists st2 ln).length ≤ MAX_LISTS := by
  have hpost := update_resources_post ln rn desired failIds st cache hwf hco hdn
    hcap hok
  exact ⟨fun l hl => (hpost.mItems2 l hl).2.1, hpost.countLe2⟩

/-- Witness for C2: the same concrete one-domain run; the single managed
list holds one item and the managed count is 1. -/
theorem update_resources_capacity_invariant_witness :
    (WF "[P]" ⟨[], [], 0⟩ ∧ CacheOk ⟨[], [], 0⟩ ⟨[], [], []⟩ ∧
      ["b.com"].Nodup ∧ ["b.com"].length ≤ MAX_LISTS * 1000 ∧
      (updateResources "[P]" "[P] Block Ads" ["b.com"] [] ⟨[], [], 0⟩
          ⟨[], [], []⟩).2 =
        .ok (⟨[⟨0, "[P] - 001", ["b.com"]⟩], [⟨1, "[P] Block Ads", [0]⟩], 2⟩,
          ⟨[⟨0, "[P] - 001", ["b.com"]⟩], [⟨1, "[P] Block Ads", [0]⟩],
            [(0, ["b.com"])]⟩)) ∧
    ((∀ l ∈ getLists (⟨[⟨0, "[P] - 001", ["b.com"]⟩],
        [⟨1, "[P] Block Ads", [0]⟩], 2⟩ : St) "[P]", l.items.length ≤ 1000) ∧
      (getLists (⟨[⟨0, "[P] - 001", ["b.com"]⟩],
        [⟨1, "[P] Block Ads", [0]⟩], 2⟩ : St) "[P]").length ≤ MAX_LISTS) := by
  have hwf : WF "[P]" ⟨[], [], 0⟩ := by
    refine ⟨?_, ?_, ?_, ?_, ?_, ?_, ?_, ?_, ?_, ?_⟩ <;> simp [getLists]
  have hco : CacheOk ⟨[], [], 0⟩ ⟨[], [], []⟩ := by
    intro l hl items hlk
    exact absurd hl (List.not_mem_nil l)
  have hdn : (["b.com"]).Nodup := by simp
  have hcap : (["b.com"]).length ≤ MAX_LISTS * 1000 := by
    simp [MAX_LISTS]
  have hok : (updateResources "[P]" "[P] Block Ads" ["b.com"] [] ⟨[], [], 0⟩
      ⟨[], [], []⟩).2 =
      .ok (⟨[⟨0, "[P] - 001", ["b.com"]⟩], [⟨1, "[P] Block Ads", [0]⟩], 2⟩,
        ⟨[⟨0, "[P] - 001", ["b.com"]⟩], [⟨1, "[P] Block Ads", [0]⟩],
          [(0, ["b.com"])]⟩) := by decide
  exact ⟨⟨hwf, hco, hdn, hcap, hok⟩,
    update_resources_capacity_invariant "[P]" "[P] Block Ads" ["b.com"] []
      ⟨[], [], 0⟩ ⟨[], [], []⟩ _ _ hwf hco hdn hcap hok⟩

/-! ## C3: idempotence -/

/-- Topping up from an exhausted `remaining_domains` adds nothing. -/
theorem topUpNew_nil (chunk : List String) : topUpNew [] chunk = [] := by
  unfold topUpNew
  split <;> simp

/-- Fixpoint run of the index loop: with no remaining domains and every
looked-up list already consistent with `desired`, the loop issues no calls,
changes neither the remote state nor the cache and only records the ids of
the lists it finds. -/
theorem mainLoop_noop (desired : List String) (nameMap : List (String × Nat))
    (ln : String) :
    ∀ (todo : List Nat) (ls : LoopSt), ls.remaining = [] →
    (∀ i ∈ todo, ∀ lid, nameMap.lookup (fmtListName ln i) = some lid →
      (getListItems ls.st lid).dedup.filter (fun d => decide (d ∉ desired)) = []) →
    mainLoop desired nameMap ln todo ls =
      ([], .ok ⟨[],
        ls.newIds ++ todo.filterMap (fun i => nameMap.lookup (fmtListName ln i)),
        ls.st, ls.cache⟩) := by
  intro todo
  induction todo with
  | nil =>
    intro ls hrem _
    obtain ⟨rem, ids, st, cache⟩ := ls
    dsimp only at hrem ⊢
    subst hrem
    simp [mainLoop]
  | cons i rest ih =>
    intro ls hrem hsk
    cases hl : nameMap.lookup (fmtListName ln i) with
    | none =>
      have hpi : processIndex desired nameMap ln i ls = ([], .ok ls) := by
        unfold processIndex
        dsimp only
        rw [hl]
        dsimp only
        rw [if_pos (by rw [hrem]; rfl)]
      unfold mainLoop
      rw [hpi]
      dsimp only
      rw [ih ls hrem (fun j hj => hsk j (List.mem_cons_of_mem i hj))]
      simp [List.filterMap_cons, hl]
    | some lid =>
      have hfl := hsk i (List.mem_cons_self i rest) lid hl
      have hpi : processIndex desired nameMap ln i ls =
          ([], .ok ⟨[], ls.newIds ++ [lid], ls.st, ls.cache⟩) := by
        unfold processIndex
        dsimp only
        rw [hl]
        dsimp only
        rw [hrem, hfl, topUpNew_nil]
        rfl
      unfold mainLoop
      rw [hpi]
      dsimp only
      rw [ih ⟨[], ls.newIds ++ [lid], ls.st, ls.cache⟩ rfl
        (fun j hj => hsk j (List.mem_cons_of_mem i hj))]
      simp [List.filterMap_cons, hl]

/-- A state and cache satisfying `PostC` are a fixpoint of the converge
core: a further pass over them with the same desired set issues only the
cache save. -/
theorem convergeCore_idem (ln rn : String) (desired : List String) (st2 : St)
    (cache2 : Cache) (hpost : PostC ln rn desired st2 cache2) :
    convergeCore ln rn desired st2 cache2 (managedRule st2 cache2 rn) =
      ([Event.saveCache], .ok (st2, cache2)) := by
  obtain ⟨r, hrmem, hrname, huniq, hids⟩ := hpost.rule2
  have hmr : managedRule st2 cache2 rn = some r :=
    managedRule_unique hrmem hrname huniq
  have hnames : ∀ nm ∈ (getCurrentLists st2 cache2 ln).map CFList.name,
      ∃ k, parseListIndex nm = some k := by
    intro nm hnm
    rw [List.mem_map] at hnm
    obtain ⟨l, hl, he⟩ := hnm
    have hlst : l ∈ st2.lists := List.mem_of_mem_filter hl
    have hls : strStarts ln l.name = true := by
      have hx := List.of_mem_filter hl
      simpa using hx
    obtain ⟨k, hk1, hk2, hkn⟩ := hpost.mNames2 l hlst hls
    refine ⟨k, ?_⟩
    rw [← he, hkn]
    exact parse_fmtListName ln k (by
      have hM : MAX_LISTS = 298 := rfl
      omega)
  obtain ⟨idxs, hix, hmem, hmem2x⟩ := parseIndexes_ok _ hnames
  have hrem0 : desired.dedup.filter (fun d =>
      decide (¬ (getCurrentLists st2 cache2 ln).any
        (fun l => decide (d ∈ getListItemsCached st2 cache2 l.id)))) = [] := by
    rw [List.filter_eq_nil_iff]
    intro d hd
    have hdd : d ∈ desired := List.mem_dedup.1 hd
    obtain ⟨l, hl, hdl⟩ := hpost.cover2 d hdd
    have hlit : getListItemsCached st2 cache2 l.id = l.items :=
      getListItemsCached_eq st2 cache2 hpost.cacheOk2 hpost.idsNodup2
        (List.mem_of_mem_filter hl) (hpost.mItems2 l hl).2.1
    intro hcontra
    rw [decide_eq_true_iff] at hcontra
    apply hcontra
    rw [List.any_eq_true]
    refine ⟨l, hl, ?_⟩
    rw [decide_eq_true_iff, hlit]
    exact hdl
  have hsk : ∀ i ∈ List.range' 1
      (min (idxs.foldr max ((desired.length + 999) / 1000)) MAX_LISTS), ∀ lid,
      ((getCurrentLists st2 cache2 ln).map (fun l => (l.name, l.id))).lookup
        (fmtListName ln i) = some lid →
      (getListItems st2 lid).dedup.filter (fun d => decide (d ∉ desired)) = [] := by
    intro i _ lid hl
    obtain ⟨l, hlmem, hlname, hlid⟩ := lookup_nameMap_some hl
    have hlst : l ∈ st2.lists := List.mem_of_mem_filter hlmem
    have hmm := hpost.mItems2 l hlmem
    have hgli : getListItems st2 lid = l.items := by
      rw [← hlid]
      exact getListItems_eq st2 hpost.idsNodup2 hlst hmm.2.1
    rw [hgli, List.dedup_eq_self.2 hmm.1, List.filter_eq_nil_iff]
    intro d hd
    simp [hmm.2.2 d hd]
  have hnoop := mainLoop_noop desired
    ((getCurrentLists st2 cache2 ln).map (fun l => (l.name, l.id))) ln
    (List.range' 1 (min (idxs.foldr max ((desired.length + 999) / 1000)) MAX_LISTS))
    ⟨desired.dedup.filter (fun d =>
      decide (¬ (getCurrentLists st2 cache2 ln).any
        (fun l => decide (d ∈ getListItemsCached st2 cache2 l.id)))), [], st2, cache2⟩
    hrem0 hsk
  have hfin : (([] : List Nat) ++
      (List.range' 1 (min (idxs.foldr max ((desired.length + 999) / 1000))
        MAX_LISTS)).filterMap (fun i =>
          ((getCurrentLists st2 cache2 ln).map (fun l => (l.name, l.id))).lookup
            (fmtListName ln i))).toFinset = extractListIds r := by
    ext lid
    rw [List.nil_append, List.mem_toFinset, List.mem_filterMap]
    unfold extractListIds
    rw [List.mem_toFinset]
    constructor
    · rintro ⟨i, _, hlk⟩
      obtain ⟨l, hlmem, hlname, hlid⟩ := lookup_nameMap_some hlk
      exact (hids lid).2 ⟨l, hlmem, hlid⟩
    · intro hlid
      obtain ⟨l, hlmem, hlid2⟩ := (hids lid).1 hlid
      have hlst : l ∈ st2.lists := List.mem_of_mem_filter hlmem
      have hls : strStarts ln l.name = true := by
        have hx := List.of_mem_filter hlmem
        simpa using hx
      obtain ⟨k, hk1, hk2, hkn⟩ := hpost.mNames2 l hlst hls
      have hparse : parseListIndex l.name = some k := by
        rw [hkn]
        exact parse_fmtListName ln k (by
          have hM : MAX_LISTS = 298 := rfl
          omega)
      have hkidx : k ∈ idxs :=
        hmem l.name (List.mem_map_of_mem CFList.name hlmem) k hparse
      have hkle : k ≤ min (idxs.foldr max ((desired.length + 999) / 1000))
          MAX_LISTS := le_min (mem_le_foldr_max _ idxs k hkidx) hk2
      refine ⟨k, List.mem_range'_1.2 ⟨hk1, by omega⟩, ?_⟩
      rw [← hkn]
      have hlook : ((getCurrentLists st2 cache2 ln).map
          (fun l => (l.name, l.id))).lookup l.name = some l.id :=
        lookup_nameMap_of_mem hpost.mNamesNodup2 hlmem
      rw [hlook, hlid2]
  unfold convergeCore
  dsimp only
  rw [hix]
  dsimp only
  rw [hnoop]
  dsimp only
  rw [hmr]
  dsimp only
  rw [if_pos hfin]
  rfl

/-- C3: running `update_resources` a second time with the desired domain set
and the remote state and cache unchanged since a successful first run issues
zero mutating calls: the second run's trace contains no `create_list`,
`update_list`, `delete_list`, `create_rule` or `update_rule` (at most the
cache save). -/
theorem update_resources_idempotent (ln rn : String) (desired : List String)
    (failIds failIds2 : List Nat) (st : St) (cache : Cache) (st2 : St)
    (cache2 : Cache)
    (hwf : WF ln st) (hco : CacheOk st cache) (hdn : desired.Nodup)
    (hcap : desired.length ≤ MAX_LISTS * 1000)
    (hok : (updateResources ln rn desired failIds st cache).2 = .ok (st2, cache2)) :
    (updateResources ln rn desired failIds2 st2 cache2).1.filter isMutEvent = [] := by
  have hpost := update_resources_post ln rn desired failIds st cache hwf hco hdn
    hcap hok
  obtain ⟨r, hrmem, hrname, huniq, hids⟩ := hpost.rule2
  have hmr : managedRule st2 cache2 rn = some r :=
    managedRule_unique hrmem hrname huniq
  have horph : orphansOf ln rn st2 cache2 = [] := by
    unfold orphansOf
    rw [List.filter_eq_nil_iff]
    intro l hl
    have hin : l.id ∈ activeIdsOf st2 cache2 rn := by
      unfold activeIdsOf
      rw [hmr]
      unfold extractListIds
      rw [List.mem_toFinset]
      exact (hids l.id).2 ⟨l, hl, rfl⟩
    simp [hin]
  have h1 : ¬ 300000 < desired.length := by
    simp only [MAX_LISTS] at hcap
    omega
  have h2 : ¬ MAX_LISTS * 1000 < desired.length := by omega
  unfold updateResources
  rw [if_neg h1, if_neg h2]
  dsimp only
  rw [if_pos (show (orphansOf ln rn st2 cache2).isEmpty = true by
    rw [horph]
    rfl)]
  dsimp only
  by_cases hgate : MAX_LISTS ≤ (getLists st2 ln).length
  · rw [if_pos hgate]
    rfl
  · rw [if_neg hgate]
    dsimp only
    rw [convergeCore_idem ln rn desired st2 cache2 hpost]
    rfl

/-- Witness for C3: after the concrete one-domain run of the fresh empty
state, a second run over the resulting state and cache issues no mutating
call. -/
theorem update_resources_idempotent_witness :
    (WF "[P]" ⟨[], [], 0⟩ ∧ CacheOk ⟨[], [], 0⟩ ⟨[], [], []⟩ ∧
      ["c.com"].Nodup ∧ ["c.com"].length ≤ MAX_LISTS * 1000 ∧
      (updateResources "[P]" "[P] Block Ads" ["c.com"] [] ⟨[], [], 0⟩
          ⟨[], [], []⟩).2 =
        .ok (⟨[⟨0, "[P] - 001", ["c.com"]⟩], [⟨1, "[P] Block Ads", [0]⟩], 2⟩,
          ⟨[⟨0, "[P] - 001", ["c.com"]⟩], [⟨1, "[P] Block Ads", [0]⟩],
            [(0, ["c.com"])]⟩)) ∧
    (updateResources "[P]" "[P] Block Ads" ["c.com"] []
        ⟨[⟨0, "[P] - 001", ["c.com"]⟩], [⟨1, "[P] Block Ads", [0]⟩], 2⟩
        ⟨[⟨0, "[P] - 001", ["c.com"]⟩], [⟨1, "[P] Block Ads", [0]⟩],
          [(0, ["c.com"])]⟩).1.filter isMutEvent = [] := by
  have hwf : WF "[P]" ⟨[], [], 0⟩ := by
    refine ⟨?_, ?_, ?_, ?_, ?_, ?_, ?_, ?_, ?_, ?_⟩ <;> simp [getLists]
  have hco : CacheOk ⟨[], [], 0⟩ ⟨[], [], []⟩ := by
    intro l hl items hlk
    exact absurd hl (List.not_mem_nil l)
  have hdn : (["c.com"]).Nodup := by simp
  have hcap : (["c.com"]).length ≤ MAX_LISTS * 1000 := by
    simp [MAX_LISTS]
  have hok : (updateResources "[P]" "[P] Block Ads" ["c.com"] [] ⟨[], [], 0⟩
      ⟨[], [], []⟩).2 =
      .ok (⟨[⟨0, "[P] - 001", ["c.com"]⟩], [⟨1, "[P] Block Ads", [0]⟩], 2⟩,
        ⟨[⟨0, "[P] - 001", ["c.com"]⟩], [⟨1, "[P] Block Ads", [0]⟩],
          [(0, ["c.com"])]⟩) := by decide
  exact ⟨⟨hwf, hco, hdn, hcap, hok⟩,
    update_resources_idempotent "[P]" "[P] Block Ads" ["c.com"] [] []
      ⟨[], [], 0⟩ ⟨[], [], []⟩ _ _ hwf hco hdn hcap hok⟩

end CFG
